import Mathlib

/-!
# lakeland_pilgrimage: geographic primitives and the overlay coordinate codec

A shallow embedding of the packages `geo` (positions, polylines, distance,
closest-point search, reversal, merge, fixed-precision text types), `kml`
(coordinate text codec, placemark geometry resolution, style fields) and `gpx`
(points, track segments and their conversion to positions).

The program is embedded over an abstract `float64`.  The class `Float64` lists what
the program takes from the language and from the Go standard library (`math`, `fmt`,
`strconv`): the arithmetic operators, the comparison, `math.Sin`, `math.Cos`,
`math.Acos`, `fmt.Sprintf("%.Nf", x)` and `strconv.ParseFloat`.  No law is built into
the class; a theorem over the class that needs a property of these operations says so
in a hypothesis.  The class has two instances: the rationals with exact arithmetic, and
`F64`, the values of IEEE-754 binary64 with round-to-nearest-even arithmetic and the
library functions as Go computes them.  Properties that depend on rounding are stated
and proved, or refuted by evaluation, over `F64`.  Strings are lists of characters.
-/

set_option autoImplicit false

/-- Go strings, as character sequences. -/
abbrev GoString := List Char

/-- The `float64` operations the program uses.  `const m e` is the float64 value of the
decimal constant `m * 10^(-e)`; `FormatFixed n x` is `fmt.Sprintf("%.nf", x)`;
`ParseFloat s` is `strconv.ParseFloat(s, 64)`, the flag telling whether the error is nil. -/
class Float64 (F : Type) extends Add F, Sub F, Mul F, Div F, LT F where
  decLt : ∀ a b : F, Decidable (a < b)
  const : Nat → Nat → F
  Sin : F → F
  Cos : F → F
  Acos : F → F
  FormatFixed : Nat → F → GoString
  ParseFloat : GoString → F × Bool

instance Float64.instDecidableLt {F : Type} [Float64 F] (a b : F) : Decidable (a < b) :=
  Float64.decLt a b

namespace geo

/-- Source: `type Pos struct { Lat, Lon, Ele float64 }`. -/
structure Pos (F : Type) where
  Lat : F
  Lon : F
  Ele : F
deriving DecidableEq, Repr

/-- Source: `type Line []Pos`. -/
abbrev Line (F : Type) := List (Pos F)

section
variable {F : Type} [Float64 F]

/-- The zero value of `Pos`, which `make` fills a fresh slice with. -/
def Pos.zero : Pos F := ⟨Float64.const 0 0, Float64.const 0 0, Float64.const 0 0⟩

/-- The constant `PI` of `Distance`: `const PI float64 = 3.141592653589793`. -/
def PI : F := Float64.const 3141592653589793 15

/-- The cosine-sum term of `Distance` before the clamp:
`math.Sin(radlat1)*math.Sin(radlat2) + math.Cos(radlat1)*math.Cos(radlat2)*math.Cos(radtheta)`. -/
def Pos.cosineSum (p1 p2 : Pos F) : F :=
  let radlat1 : F := PI * p1.Lat / Float64.const 180 0
  let radlat2 : F := PI * p2.Lat / Float64.const 180 0
  let theta : F := p1.Lon - p2.Lon
  let radtheta : F := PI * theta / Float64.const 180 0
  Float64.Sin radlat1 * Float64.Sin radlat2
    + Float64.Cos radlat1 * Float64.Cos radlat2 * Float64.Cos radtheta

/-- The value `Distance` passes to `math.Acos`: the cosine-sum term after
`if dist > 1 { dist = 1 }`. -/
def Pos.acosArg (p1 p2 : Pos F) : F :=
  let dist : F := p1.cosineSum p2
  if dist > Float64.const 1 0 then Float64.const 1 0 else dist

/-- Source: `func (p1 Pos) Distance(p2 Pos) float64`: distance in km, latitude and longitude only. -/
def Pos.Distance (p1 p2 : Pos F) : F :=
  let dist : F := Float64.Acos (p1.acosArg p2)
  let dist : F := dist * Float64.const 180 0 / PI
  let dist : F := dist * Float64.const 60 0 * Float64.const 11515 4
  let dist : F := dist * Float64.const 1609344 6
  dist

/-- Source: `func (p1 Pos) IsClose(p2 Pos, km float64) bool`. -/
def Pos.IsClose (p1 p2 : Pos F) (km : F) : Bool :=
  decide (p1.Distance p2 < km)

/-- The loop variables `found`, `index`, `dist` of `Line.IsClose`. -/
structure IsCloseState (F : Type) where
  found : Bool
  index : Nat
  dist : F

/-- One iteration of the loop of `Line.IsClose` at index `i` with element `pos`. -/
def Line.IsClose.step (p : Pos F) (delta : F) (st : IsCloseState F) (i : Nat) (pos : Pos F) :
    IsCloseState F :=
  if !pos.IsClose p delta then st
  else
    let d := pos.Distance p
    let st1 : IsCloseState F :=
      if !st.found || decide (d < st.dist) then { st with index := i, dist := d } else st
    { st1 with found := true }

/-- The loop `for i, pos := range l` of `Line.IsClose`, from index `i` on. -/
def Line.IsClose.loop (p : Pos F) (delta : F) : List (Pos F) → Nat → IsCloseState F → IsCloseState F
  | [], _, st => st
  | pos :: rest, i, st => Line.IsClose.loop p delta rest (i + 1) (Line.IsClose.step p delta st i pos)

/-- Source: `func (l Line) IsClose(p Pos, delta float64) (bool, int)`. -/
def Line.IsClose (l : Line F) (p : Pos F) (delta : F) : Bool × Nat :=
  let st := Line.IsClose.loop p delta l 0 ⟨false, 0, Float64.const 0 0⟩
  (st.found, st.index)

/-- The loop `for i, pos := range l` of `Line.Length`, from index `i` on, over the whole
line `l`: `if i == 0 { continue }; total += l[i-1].Distance(pos)`. -/
def Line.Length.loop (l : Line F) : List (Pos F) → Nat → F → F
  | [], _, total => total
  | pos :: rest, i, total =>
    if i = 0 then Line.Length.loop l rest (i + 1) total
    else
      match l[i - 1]? with
      | some prev => Line.Length.loop l rest (i + 1) (total + prev.Distance pos)
      | none => total

/-- Source: `func (l Line) Length() float64`. -/
def Line.Length (l : Line F) : F :=
  Line.Length.loop l l 0 (Float64.const 0 0)

end

section
variable {α : Type}

/-- The assignment `l[i], l[j] = l[j], l[i]`.  Both indices are in range wherever `Reverse` uses it. -/
def swap (l : List α) (i j : Nat) : List α :=
  match l[i]?, l[j]? with
  | some a, some b => (l.set i b).set j a
  | _, _ => l

/-- The loop `for i, j := 0, len(l)-1; i < j; i, j = i+1, j-1` of `Reverse`.  The first argument
bounds the number of iterations. -/
def Line.Reverse.loop : Nat → List α → Int → Int → List α
  | 0, l, _, _ => l
  | fuel + 1, l, i, j =>
    if i < j then Line.Reverse.loop fuel (swap l i.toNat j.toNat) (i + 1) (j - 1) else l

/-- Source: `func (l Line) Reverse()`; the result is the content of `l` after the call.
The loop runs at most `len(l)` times. -/
def Line.Reverse (l : List α) : List α :=
  Line.Reverse.loop l.length l 0 ((l.length : Int) - 1)

/-- Source: `func (l Line) Start() Pos`, `l[0]`; `none` is the index-out-of-range panic. -/
def Line.Start (l : List α) : Option α := l[0]?

/-- Source: `func (l Line) End() Pos`, `l[len(l)-1]`; `none` is the index-out-of-range panic. -/
def Line.End (l : List α) : Option α :=
  if l.length = 0 then none else l[l.length - 1]?

/-- The builtin `copy(dst[i:], s)`: the new content of `dst` and the number of elements
copied, `min(len(dst) - i, len(s))`. -/
def copyAt (dst : List α) (i : Nat) (s : List α) : List α × Nat :=
  let n := min (dst.length - i) s.length
  (dst.take i ++ s.take n ++ dst.drop (i + n), n)

/-- The first loop of `MergeLines`: `totalLen += len(s)`. -/
def MergeLines.totalLen (lines : List (List α)) : Nat :=
  lines.foldl (fun totalLen s => totalLen + s.length) 0

/-- The second loop of `MergeLines`: `i += copy(tmp[i:], s)`. -/
def MergeLines.copyLoop : List (List α) → List α → Nat → List α
  | [], tmp, _ => tmp
  | s :: rest, tmp, i =>
    let r := copyAt tmp i s
    MergeLines.copyLoop rest r.1 (i + r.2)

/-- Source: `func MergeLines(lines []Line) Line`; `zero` is the zero value `make` fills with. -/
def MergeLinesWith (zero : α) (lines : List (List α)) : List α :=
  let tmp := List.replicate (MergeLines.totalLen lines) zero
  MergeLines.copyLoop lines tmp 0

end

/-- Source: `func MergeLines(lines []Line) Line`. -/
def MergeLines {F : Type} [Float64 F] (lines : List (Line F)) : Line F :=
  MergeLinesWith Pos.zero lines

end geo

namespace kml

/-- The predicate `unicode.IsSpace`, which `strings.TrimSpace` trims by. -/
def isSpace (c : Char) : Bool :=
  c = '\t' || c = '\n' || c = '\x0b' || c = '\x0c' || c = '\r' || c = ' '
    || c.toNat = 0x85 || c.toNat = 0xA0 || c.toNat = 0x1680
    || (0x2000 ≤ c.toNat && c.toNat ≤ 0x200a)
    || c.toNat = 0x2028 || c.toNat = 0x2029 || c.toNat = 0x202f || c.toNat = 0x205f
    || c.toNat = 0x3000

/-- The library function `strings.TrimSpace`: leading and trailing white space removed. -/
def TrimSpace (s : GoString) : GoString :=
  ((s.dropWhile isSpace).reverse.dropWhile isSpace).reverse

/-- The library function `strings.Split(s, sep)` for a separator of one character, as in both
calls of the program (`" "` and `","`): the pieces of `s` between the occurrences of `sep`;
never empty, `[""]` for the empty string. -/
def Split : GoString → Char → List GoString
  | [], _ => [[]]
  | c :: cs, sep =>
    if c = sep then [] :: Split cs sep
    else
      match Split cs sep with
      | [] => [[c]]
      | piece :: pieces => (c :: piece) :: pieces

/-- Source: `type Point struct { Coordinates string }`. -/
structure Point where
  Coordinates : GoString
deriving DecidableEq, Repr

/-- Source: `type LineString struct`. -/
structure LineString where
  Extrude : Bool
  Tessellate : Bool
  AltitudeMode : GoString
  Coordinates : GoString
deriving DecidableEq, Repr

/-- Source: `type MultiGeometry struct { LineStrings []*LineString }`; a nil pointer is `none`. -/
structure MultiGeometry where
  LineStrings : List (Option LineString)
deriving DecidableEq, Repr

/-- Source: `type Placemark struct`, without the `Style` pointer, which no function of the
program reads. -/
structure Placemark where
  Name : GoString
  Description : GoString
  Visibility : Int
  Open : Int
  StyleUrl : GoString
  Point : Option Point
  LineString : Option LineString
  MultiGeometry : Option MultiGeometry
  Legacy : GoString
deriving DecidableEq, Repr

/-- Source: `func (p Placemark) GetLineString() *LineString`; `none` is the nil pointer. -/
def Placemark.GetLineString (p : Placemark) : Option kml.LineString :=
  match p.LineString, p.MultiGeometry with
  | none, some mg =>
    match mg.LineStrings with
    | first :: _ => first
    | [] => p.LineString
  | _, _ => p.LineString

section
variable (F : Type) [Float64 F]

/-- The body shared by `Point.Pos` and the loop of `LineString.Line`: the three assignments
`Lon, _ = ParseFloat(parts[0])`, `Lat, _ = ParseFloat(parts[1])`, `Ele, _ = ParseFloat(parts[2])`.
`none` is the index-out-of-range panic. -/
def parsePos (parts : List GoString) : Option (geo.Pos F) := do
  let lon ← parts[0]?
  let lat ← parts[1]?
  let ele ← parts[2]?
  pure { Lon := (Float64.ParseFloat lon).1, Lat := (Float64.ParseFloat lat).1,
         Ele := (Float64.ParseFloat ele).1 }

/-- Source: `func (p Point) Pos() geo.Pos`; `none` is the index-out-of-range panic. -/
def Point.Pos (p : Point) : Option (geo.Pos F) :=
  let parts := Split (TrimSpace p.Coordinates) ','
  parsePos F parts

/-- The loop `for i, csv := range points` of `LineString.Line`, which fills the line in
order; `none` is the index-out-of-range panic. -/
def LineString.Line.loop : List GoString → Option (geo.Line F)
  | [] => some []
  | csv :: rest =>
    match parsePos F (Split csv ',') with
    | none => none
    | some p =>
      match LineString.Line.loop rest with
      | none => none
      | some line => some (p :: line)

/-- Source: `func (l LineString) Line() geo.Line`; `none` is the index-out-of-range panic. -/
def LineString.Line (l : LineString) : Option (geo.Line F) :=
  let points := Split (TrimSpace l.Coordinates) ' '
  LineString.Line.loop F points

end

section
variable {F : Type} [Float64 F]

/-- Source: `func PosCoordinates(pos geo.Pos) string`, `fmt.Sprintf("%.5f,%.5f,%.0f", Lon, Lat, Ele)`. -/
def PosCoordinates (pos : geo.Pos F) : GoString :=
  Float64.FormatFixed 5 pos.Lon ++ [','] ++ Float64.FormatFixed 5 pos.Lat ++ [',']
    ++ Float64.FormatFixed 0 pos.Ele

/-- The loop of `LineCoordinates` from index `i` on; `sb` is the content of the builder. -/
def LineCoordinates.loop : List (geo.Pos F) → Nat → GoString → GoString
  | [], _, sb => sb
  | pos :: rest, i, sb =>
    let sb := if i > 0 then sb ++ [' '] else sb
    LineCoordinates.loop rest (i + 1) (sb ++ PosCoordinates pos)

/-- Source: `func LineCoordinates(line geo.Line) string`. -/
def LineCoordinates (line : geo.Line F) : GoString :=
  LineCoordinates.loop line 0 []

/-- Source: `func PosPoint(pos geo.Pos) *Point`. -/
def PosPoint (pos : geo.Pos F) : Point :=
  { Coordinates := PosCoordinates pos }

end

end kml

/-! ## A concrete arithmetic over the rationals

Exact rational arithmetic, with low-order polynomial stand-ins for the transcendental
functions and plain decimal text.  It is used only to exhibit concrete inputs on which the
hypotheses of the theorems below hold. -/

namespace RatModel

/-- The value of a non-empty string of decimal digits. -/
def parseDigits (cs : List Char) : Option Nat :=
  if cs ≠ [] ∧ cs.all Char.isDigit = true then
    some (cs.foldl (fun n c => 10 * n + (c.toNat - 48)) 0)
  else none

/-- Plain decimal text `[+-]digits[.digits]` as a mantissa and a count of decimals. -/
def parseDecimal (s : List Char) : Option (Int × Nat) :=
  let signed : Bool × List Char :=
    match s with
    | '-' :: r => (true, r)
    | '+' :: r => (false, r)
    | r => (false, r)
  let ip := signed.2.takeWhile (fun c => c != '.')
  let fp := (signed.2.dropWhile (fun c => c != '.')).drop 1
  let digits := if signed.2.contains '.' then parseDigits (ip ++ fp) else parseDigits ip
  let frac := if signed.2.contains '.' then fp.length else 0
  digits.map (fun n => (if signed.1 then -(n : Int) else (n : Int), frac))

/-- Decimal text to a rational; `(0, false)` when the text is not a plain decimal. -/
def ParseFloat (s : List Char) : ℚ × Bool :=
  match parseDecimal s with
  | some (m, e) => ((m : ℚ) / 10 ^ e, true)
  | none => (0, false)

/-- Round to the nearest integer, ties to even. -/
def roundEven (y : ℚ) : Int :=
  let f := Int.floor y
  let r := y - f
  if r < 1 / 2 then f else if 1 / 2 < r then f + 1 else if f % 2 = 0 then f else f + 1

/-- Fixed-point decimal text with `n` fractional digits. -/
def FormatFixed (n : Nat) (x : ℚ) : List Char :=
  let scaled : Nat := (roundEven (|x| * 10 ^ n)).toNat
  let ip := Nat.toDigits 10 (scaled / 10 ^ n)
  let fp := Nat.toDigits 10 (scaled % 10 ^ n)
  let sign := if x < 0 then ['-'] else []
  if n = 0 then sign ++ ip
  else sign ++ ip ++ ['.'] ++ List.replicate (n - fp.length) '0' ++ fp

end RatModel

instance instFloat64Rat : Float64 ℚ where
  decLt := fun a b => inferInstanceAs (Decidable (a < b))
  const := fun m e => (m : ℚ) / 10 ^ e
  Sin := fun x => x
  Cos := fun x => 1 - x * x / 2
  Acos := fun x => 1 - x
  FormatFixed := RatModel.FormatFixed
  ParseFloat := RatModel.ParseFloat


/-! ## Specifications -/

namespace geo

section
variable {F : Type} [Float64 F]

/-- What `Line.IsClose` is to return on `l`, `p`, `delta`: the flag tells whether some point is
closer than `delta`; the index is that of a closest such point, and every such point before
it is strictly farther. -/
def ClosestMatch (l : Line F) (p : Pos F) (delta : F) (found : Bool) (index : Nat) : Prop :=
  (found = true ↔ ∃ (k : Nat) (x : Pos F), l[k]? = some x ∧ x.Distance p < delta) ∧
  (found = true → ∃ b, l[index]? = some b ∧ b.Distance p < delta
      ∧ (∀ (k : Nat) (x : Pos F), l[k]? = some x → x.Distance p < delta →
            ¬ x.Distance p < b.Distance p)
      ∧ (∀ (k : Nat) (x : Pos F), k < index → l[k]? = some x → x.Distance p < delta →
            b.Distance p < x.Distance p))

/-- The invariant of the loop of `Line.IsClose` after the points `pre`. -/
def IsCloseInv (p : Pos F) (delta : F) (pre : Line F) (st : IsCloseState F) : Prop :=
  ClosestMatch pre p delta st.found st.index ∧
  (st.found = true → ∃ b, pre[st.index]? = some b ∧ st.dist = b.Distance p)

end

end geo

namespace kml

/-- The three fields of one point of a coordinate text. -/
structure Triple where
  lon : GoString
  lat : GoString
  ele : GoString
deriving DecidableEq, Repr

/-- A field of a coordinate text: not empty, without a comma and without white space. -/
def WellFormedField (f : GoString) : Prop :=
  f ≠ [] ∧ ∀ c ∈ f, c ≠ ',' ∧ isSpace c = false

/-- A triple of three well-formed fields. -/
def Triple.WellFormed (t : Triple) : Prop :=
  WellFormedField t.lon ∧ WellFormedField t.lat ∧ WellFormedField t.ele

/-- The text `lon,lat,ele` of a triple. -/
def Triple.text (t : Triple) : GoString :=
  t.lon ++ ',' :: (t.lat ++ ',' :: t.ele)

/-- The position that the fields of a triple parse to. -/
def Triple.pos (F : Type) [Float64 F] (t : Triple) : geo.Pos F :=
  { Lon := (Float64.ParseFloat t.lon).1, Lat := (Float64.ParseFloat t.lat).1,
    Ele := (Float64.ParseFloat t.ele).1 }

/-- The items joined with one `sep` between consecutive items. -/
def joinWith (sep : Char) : List GoString → GoString
  | [] => []
  | [x] => x
  | x :: y :: rest => x ++ sep :: joinWith sep (y :: rest)

end kml

/-! ## Fixed-precision text types, the track format, overlay styles -/

/-- Go's `error`, as a message; `none` is `nil`. -/
abbrev GoError := GoString

namespace geo

/-- Source: `type FloatFive float64`. -/
structure FloatFive (F : Type) where
  val : F
deriving DecidableEq, Repr

/-- Source: `type FloatZero float64`. -/
structure FloatZero (F : Type) where
  val : F
deriving DecidableEq, Repr

/-- Source: `type FloatOne float64`. -/
structure FloatOne (F : Type) where
  val : F
deriving DecidableEq, Repr

section
variable {F : Type} [Float64 F]

/-- Source: `func (d FloatFive) MarshalText() ([]byte, error)`, `fmt.Sprintf("%.5f", d)`. -/
def FloatFive.MarshalText (d : FloatFive F) : GoString × Option GoError :=
  (Float64.FormatFixed 5 d.val, none)

/-- Source: `func (m FloatZero) MarshalText() ([]byte, error)`, `fmt.Sprintf("%.0f", m)`. -/
def FloatZero.MarshalText (m : FloatZero F) : GoString × Option GoError :=
  (Float64.FormatFixed 0 m.val, none)

/-- Source: `func (m FloatOne) MarshalText() ([]byte, error)`, `fmt.Sprintf("%.1f", m)`. -/
def FloatOne.MarshalText (m : FloatOne F) : GoString × Option GoError :=
  (Float64.FormatFixed 1 m.val, none)

end

/-- The pattern `s := make([]β, len(xs)); for i, x := range xs { s[i] = f(x) }`, from index
`i` on: the content of `s` after the loop. -/
def fillLoop {α β : Type} (f : α → β) : List α → Nat → List β → List β
  | [], _, s => s
  | x :: rest, i, s => fillLoop f rest (i + 1) (s.set i (f x))

end geo

namespace gpx

/-- Source: `type Point struct { Lat geo.FloatFive; Lon geo.FloatFive; Ele geo.FloatZero }`. -/
structure Point (F : Type) where
  Lat : geo.FloatFive F
  Lon : geo.FloatFive F
  Ele : geo.FloatZero F
deriving DecidableEq, Repr

/-- An instant of `time.Time`; the program never looks inside one. -/
structure Time where
  unixNano : Int
deriving DecidableEq, Repr

/-- Source: `type TrackPoint struct { Point; Time *time.Time }`. -/
structure TrackPoint (F : Type) where
  Point : gpx.Point F
  Time : Option gpx.Time
deriving DecidableEq, Repr

/-- Source: `type TrackSegment struct { Points []TrackPoint }`. -/
structure TrackSegment (F : Type) where
  Points : List (TrackPoint F)
deriving DecidableEq, Repr

section
variable {F : Type} [Float64 F]

/-- Source: `func PosPoint(p geo.Pos) Point`. -/
def PosPoint (p : geo.Pos F) : Point F :=
  { Lat := ⟨p.Lat⟩, Lon := ⟨p.Lon⟩, Ele := ⟨p.Ele⟩ }

/-- Source: `func (p Point) Pos() geo.Pos`. -/
def Point.Pos (p : Point F) : geo.Pos F :=
  { Lat := p.Lat.val, Lon := p.Lon.val, Ele := p.Ele.val }

/-- The zero value of `Point`. -/
def Point.zero : Point F := ⟨⟨Float64.const 0 0⟩, ⟨Float64.const 0 0⟩, ⟨Float64.const 0 0⟩⟩

/-- Source: `func (t TrackSegment) Line() geo.Line`. -/
def TrackSegment.Line (t : TrackSegment F) : geo.Line F :=
  geo.fillLoop (fun point : TrackPoint F => point.Point.Pos) t.Points 0
    (List.replicate t.Points.length geo.Pos.zero)

/-- Source: `func LinePoints(l geo.Line) []Point`. -/
def LinePoints (l : geo.Line F) : List (Point F) :=
  geo.fillLoop PosPoint l 0 (List.replicate l.length Point.zero)

/-- Source: `func LineTrackPoints(l geo.Line) []TrackPoint`. -/
def LineTrackPoints (l : geo.Line F) : List (TrackPoint F) :=
  geo.fillLoop (fun pos => ({ Point := PosPoint pos, Time := none } : TrackPoint F)) l 0
    (List.replicate l.length { Point := Point.zero, Time := none })

end

end gpx

namespace kml

/-- Source: `type Icon struct { Href string }`. -/
structure Icon where
  Href : GoString
deriving DecidableEq, Repr

/-- Source: `type HotSpot struct`. -/
structure HotSpot where
  X : Int
  Y : Int
  Xunits : GoString
  Yunits : GoString
deriving DecidableEq, Repr

/-- Source: `type LineStyle struct { Color string; Width geo.FloatOne }`. -/
structure LineStyle (F : Type) where
  Color : GoString
  Width : geo.FloatOne F

/-- Source: `type IconStyle struct { Color string; Scale float64; Icon *Icon; HotSpot *HotSpot }`. -/
structure IconStyle (F : Type) where
  Color : GoString
  Scale : F
  Icon : Option kml.Icon
  HotSpot : Option kml.HotSpot

/-- Source: `type LabelStyle struct { Color string; Scale geo.FloatOne }`. -/
structure LabelStyle (F : Type) where
  Color : GoString
  Scale : geo.FloatOne F

/-- Source: `type ListStyle struct { Scale geo.FloatOne; ItemIcon *Icon }`. -/
structure ListStyle (F : Type) where
  Scale : geo.FloatOne F
  ItemIcon : Option kml.Icon

section
variable {F : Type} [Float64 F]

/-- The text `encoding/xml` writes for a field of type `geo.FloatOne`: the type implements
`encoding.TextMarshaler`, so the encoder writes what `MarshalText` returns. -/
def xmlTextFloatOne (x : geo.FloatOne F) : GoString := x.MarshalText.1

/-- The text `encoding/xml` writes for a field of plain type `float64`:
`strconv.FormatFloat(x, 'g', -1, 64)`, here `formatG`. -/
def xmlTextFloat64 (formatG : F → GoString) (x : F) : GoString := formatG x

/-- The content of the element `width` of an encoded `LineStyle`. -/
def LineStyle.widthText (s : LineStyle F) : GoString := xmlTextFloatOne s.Width

/-- The content of the element `scale` of an encoded `IconStyle`. -/
def IconStyle.scaleText (formatG : F → GoString) (s : IconStyle F) : GoString :=
  xmlTextFloat64 formatG s.Scale

/-- The content of the element `scale` of an encoded `LabelStyle`. -/
def LabelStyle.scaleText (s : LabelStyle F) : GoString := xmlTextFloatOne s.Scale

/-- The content of the element `scale` of an encoded `ListStyle`. -/
def ListStyle.scaleText (s : ListStyle F) : GoString := xmlTextFloatOne s.Scale

end

/-- A fixed-point decimal text with exactly `n` fractional digits, as `fmt.Sprintf("%.nf", x)`
writes for a finite `x`: an optional minus sign, at least one digit, and, when `n > 0`, a
point and `n` digits. -/
def FixedText (n : Nat) (s : GoString) : Prop :=
  ∃ sign ip fp : GoString, s = sign ++ ip ++ (if n = 0 then [] else '.' :: fp)
    ∧ (sign = [] ∨ sign = ['-']) ∧ ip ≠ [] ∧ (∀ c ∈ ip, c.isDigit = true)
    ∧ fp.length = n ∧ ∀ c ∈ fp, c.isDigit = true

/-- The three components of a position are written as fixed-point decimals (they are finite). -/
def Formatted {F : Type} [Float64 F] (pos : geo.Pos F) : Prop :=
  FixedText 5 (Float64.FormatFixed 5 pos.Lon) ∧ FixedText 5 (Float64.FormatFixed 5 pos.Lat)
    ∧ FixedText 0 (Float64.FormatFixed 0 pos.Ele)

end kml

namespace RatModel

/-- The number of decimals of a terminating decimal, at most the first argument. -/
def decimals : Nat → ℚ → Nat
  | 0, _ => 0
  | fuel + 1, x => if x.den = 1 then 0 else decimals fuel (x * 10) + 1

/-- The shortest decimal text of a terminating decimal of moderate size
(`strconv.FormatFloat(x, 'g', -1, 64)` without the exponent form). -/
def FormatShortest (x : ℚ) : List Char :=
  FormatFixed (decimals 17 x) x

end RatModel

namespace kml

section
variable (F : Type) [Float64 F]

/-- What a lenient decoder makes of one numeric field: the number it denotes when it is
valid numeric text, zero otherwise. -/
def lenientValue (valid : GoString → Bool) (field : GoString) : F :=
  if valid field then (Float64.ParseFloat field).1 else Float64.const 0 0

/-- The lenient reading of the first three comma-separated fields of the text of one point,
longitude first, then latitude, then elevation. -/
def lenientPos (valid : GoString → Bool) (csv : GoString) : geo.Pos F :=
  { Lon := lenientValue F valid ((Split csv ',').getD 0 []),
    Lat := lenientValue F valid ((Split csv ',').getD 1 []),
    Ele := lenientValue F valid ((Split csv ',').getD 2 []) }

end

end kml

/-! ## IEEE-754 binary64 and the functions of package `math`

A concrete model of `float64`: the values of IEEE-754 binary64, the four operations and the
square root rounded to nearest, ties to even, the comparison, and the functions `math.Sin`,
`math.Cos` and `math.Acos` as the Go library computes them in software (the Cephes
polynomials of `src/math/sin.go`, `asin.go`, `atan.go`), operation by operation. -/

/-- A binary64 value: a NaN, an infinity, or the finite value `(-1)^neg * m * 2^e`, in
canonical form: `m < 2^53`, `-1074 ≤ e ≤ 971`, and `2^52 ≤ m` unless `e = -1074`. -/
inductive F64 where
  | nan
  | inf (neg : Bool)
  | fin (neg : Bool) (m : Nat) (e : Int)
deriving DecidableEq, Repr

namespace F64

/-- The number of binary digits of `n`, for `n` of at most `fuel` digits. -/
def bitlenAux : Nat → Nat → Nat
  | 0, _ => 0
  | fuel + 1, n => if n = 0 then 0 else bitlenAux fuel (n / 2) + 1

/-- The number of binary digits of `n`. -/
def bitlen (n : Nat) : Nat := bitlenAux n n

/-- The nearest integer to `num / den`, ties to even. -/
def roundDiv (num den : Nat) : Nat :=
  let q := num / den
  let r := num % den
  if 2 * r < den then q else if den < 2 * r then q + 1 else if q % 2 = 0 then q else q + 1

/-- The numerator and the denominator of `(n / d) * 2^s`. -/
def scaleDiv (n d : Nat) (s : Int) : Nat × Nat :=
  if 0 ≤ s then (n * 2 ^ s.toNat, d) else (n, d * 2 ^ (-s).toNat)

/-- The exponent `E` of the binary64 nearest to `(n / d) * 2^e` (`n, d > 0`): the one that
brings `(n / d) * 2^(e - E)` into `[2^52, 2^53)`, and `-1074` if that is below `-1074`. -/
def roundExp (n d : Nat) (e : Int) : Int :=
  let s0 : Int := 53 - ((bitlen n : Int) - (bitlen d : Int))
  let t : Nat := (scaleDiv n d s0).1 / (scaleDiv n d s0).2
  let E1 : Int := if 2 ^ 53 ≤ t then e - s0 + 1 else e - s0
  if E1 < -1074 then -1074 else E1

/-- The integer nearest to `(n / d) * 2^(e - E)`, ties to even, for the exponent `E`. -/
def roundMant (n d : Nat) (e : Int) : Nat :=
  roundDiv (scaleDiv n d (e - roundExp n d e)).1 (scaleDiv n d (e - roundExp n d e)).2

/-- The binary64 nearest to `(-1)^neg * (n / d) * 2^e`, ties to even (`d > 0`); an infinity
when the nearest value is beyond the largest finite one. -/
def round (neg : Bool) (n d : Nat) (e : Int) : F64 :=
  if n = 0 then fin neg 0 (-1074)
  else if roundMant n d e = 2 ^ 53 then
    (if 971 < roundExp n d e + 1 then inf neg else fin neg (2 ^ 52) (roundExp n d e + 1))
  else if 971 < roundExp n d e then inf neg
  else fin neg (roundMant n d e) (roundExp n d e)

/-- The binary64 nearest to the decimal `(-1)^neg * m * 10^(-k)`. -/
def ofDecimal (neg : Bool) (m k : Nat) : F64 := round neg m (10 ^ k) 0

/-- The binary64 of a natural number. -/
def ofNat (n : Nat) : F64 := round false n 1 0

/-- Negation. -/
def neg : F64 → F64
  | nan => nan
  | inf s => inf (!s)
  | fin s m e => fin (!s) m e

/-- Absolute value, `math.Abs`. -/
def abs : F64 → F64
  | nan => nan
  | inf _ => inf false
  | fin _ m e => fin false m e

/-- The integer `(-1)^s * m`. -/
def signed (s : Bool) (m : Nat) : Int := if s then -(m : Int) else (m : Int)

/-- Addition. -/
def add : F64 → F64 → F64
  | nan, _ => nan
  | _, nan => nan
  | inf a, inf b => if a = b then inf a else nan
  | inf a, fin _ _ _ => inf a
  | fin _ _ _, inf b => inf b
  | fin s1 m1 e1, fin s2 m2 e2 =>
    let e : Int := if e1 ≤ e2 then e1 else e2
    let c : Int := signed s1 (m1 * 2 ^ (e1 - e).toNat) + signed s2 (m2 * 2 ^ (e2 - e).toNat)
    if c = 0 then fin (s1 && s2) 0 (-1074)
    else round (decide (c < 0)) c.natAbs 1 e

/-- Subtraction. -/
def sub (x y : F64) : F64 := add x (neg y)

/-- Multiplication. -/
def mul : F64 → F64 → F64
  | nan, _ => nan
  | _, nan => nan
  | inf a, inf b => inf (xor a b)
  | inf a, fin s m _ => if m = 0 then nan else inf (xor a s)
  | fin s m _, inf b => if m = 0 then nan else inf (xor s b)
  | fin s1 m1 e1, fin s2 m2 e2 => round (xor s1 s2) (m1 * m2) 1 (e1 + e2)

/-- Division. -/
def div : F64 → F64 → F64
  | nan, _ => nan
  | _, nan => nan
  | inf _, inf _ => nan
  | inf a, fin s _ _ => inf (xor a s)
  | fin s _ _, inf b => fin (xor s b) 0 (-1074)
  | fin s1 m1 e1, fin s2 m2 e2 =>
    if m2 = 0 then (if m1 = 0 then nan else inf (xor s1 s2))
    else round (xor s1 s2) m1 m2 (e1 - e2)

/-- The comparison `x < y`; false when either is a NaN. -/
def lt : F64 → F64 → Bool
  | nan, _ => false
  | _, nan => false
  | inf a, inf b => a && !b
  | inf a, fin _ _ _ => a
  | fin _ _ _, inf b => !b
  | fin s1 m1 e1, fin s2 m2 e2 =>
    let e : Int := if e1 ≤ e2 then e1 else e2
    decide (signed s1 (m1 * 2 ^ (e1 - e).toNat) < signed s2 (m2 * 2 ^ (e2 - e).toNat))

instance : Add F64 := ⟨add⟩
instance : Sub F64 := ⟨sub⟩
instance : Mul F64 := ⟨mul⟩
instance : Div F64 := ⟨div⟩
instance : LT F64 := ⟨fun x y => lt x y = true⟩
instance (x y : F64) : Decidable (x < y) := inferInstanceAs (Decidable (lt x y = true))

/-- The integer square root of `n`, for `n < 4^bits`: the digits are tried from the top. -/
def isqrtAux (n : Nat) : Nat → Nat → Nat
  | 0, r => r
  | bits + 1, r => if (r + 2 ^ bits) * (r + 2 ^ bits) ≤ n then isqrtAux n bits (r + 2 ^ bits)
                   else isqrtAux n bits r

/-- The square root, `math.Sqrt`, rounded to nearest. -/
def sqrt : F64 → F64
  | nan => nan
  | inf s => if s then nan else inf false
  | fin s m e =>
    if m = 0 then fin s 0 (-1074)
    else if s then nan
    else
      -- m * 2^e = n * 2^(2k) with n of 108 to 110 binary digits
      let sh : Nat := if (e - 56) % 2 = 0 then 56 else 57
      let n : Nat := m * 2 ^ sh
      let k : Int := (e - sh) / 2
      let r : Nat := isqrtAux n 56 0
      if r * r = n then round false r 1 k else round false (2 * r + 1) 2 k

/-- The conversion `uint64(x)` of a non-negative finite value below `2^64`: truncation. -/
def toUint64 : F64 → Nat
  | fin false m e => if 0 ≤ e then m * 2 ^ e.toNat else m / 2 ^ (-e).toNat
  | _ => 0

def zero : F64 := fin false 0 (-1074)
def one : F64 := ofNat 1

/-- The constants `PI4A`, `PI4B`, `PI4C` of `sin.go`: three parts of `Pi/4`. -/
def PI4A : F64 := ofDecimal false 785398125648498535156 21
def PI4B : F64 := ofDecimal false 377489470793079817668 28
def PI4C : F64 := ofDecimal false 269515142907905952645 35

/-- The constant `4/Pi`. -/
def fourOverPi : F64 := ofDecimal false 1273239544735162686151070106980 30
/-- The constant `Pi/2`. -/
def halfPi : F64 := ofDecimal false 1570796326794896619231321691639 30
/-- The constant `Pi/4`. -/
def quarterPi : F64 := ofDecimal false 785398163397448309615660845819 30

/-- The polynomial of `sin.go` for the sine on the reduced argument `z`, with the
coefficients `_sin`. -/
def sinPoly (z : F64) : F64 :=
  let zz := z * z
  z + z * zz * ((((((ofDecimal false 158962301576546568060 30 * zz)
      + ofDecimal true 250507477628578072866 28) * zz
      + ofDecimal false 275573136213857245213 26) * zz
      + ofDecimal true 198412698295895385996 24) * zz
      + ofDecimal false 833333333332211858878 23) * zz
      + ofDecimal true 166666666666666307295 21)

/-- The polynomial of `sin.go` for the cosine on the reduced argument `z`, with the
coefficients `_cos`. -/
def cosPoly (z : F64) : F64 :=
  let zz := z * z
  ofNat 1 - ofDecimal false 5 1 * zz + zz * zz * ((((((ofDecimal true 113585365213876817300 31 * zz)
      + ofDecimal false 208757008419747316778 29) * zz
      + ofDecimal true 275573141792967388112 27) * zz
      + ofDecimal false 248015872888517045348 25) * zz
      + ofDecimal true 138888888888730564116 23) * zz
      + ofDecimal false 416666666666665929218 22)

/-- The argument reduction of `sin.go` for `0 ≤ x < 2^29`: the octant `j` modulo 8 and the
reduced argument `z`. -/
def reduce (x : F64) : Nat × F64 :=
  let j0 : Nat := toUint64 (x * fourOverPi)
  let j1 : Nat := if j0 % 2 = 1 then j0 + 1 else j0
  let y : F64 := if j0 % 2 = 1 then ofNat j0 + ofNat 1 else ofNat j0
  (j1 % 8, ((x - y * PI4A) - y * PI4B) - y * PI4C)

/-- Whether `2^29 ≤ x`, the `reduceThreshold` above which `sin.go` reduces the argument by
the Payne-Hanek method. -/
def aboveThreshold (x : F64) : Bool := !(lt x (ofNat (2 ^ 29)))

/-- The function `math.Sin`.  Arguments of absolute value `2^29` or more, which the library
reduces by the Payne-Hanek method, are not modelled and give a NaN here. -/
def Sin : F64 → F64
  | nan => nan
  | inf _ => nan
  | fin s m e =>
    if m = 0 then fin s m e
    else if aboveThreshold (fin false m e) then nan
    else
      let jz := reduce (fin false m e)
      let sign : Bool := if 3 < jz.1 then !s else s
      let j : Nat := if 3 < jz.1 then jz.1 - 4 else jz.1
      let y : F64 := if j = 1 ∨ j = 2 then cosPoly jz.2 else sinPoly jz.2
      if sign then neg y else y

/-- The function `math.Cos`.  Arguments of absolute value `2^29` or more are not modelled
and give a NaN here. -/
def Cos : F64 → F64
  | nan => nan
  | inf _ => nan
  | fin _ m e =>
    if aboveThreshold (fin false m e) then nan
    else
      let jz := reduce (fin false m e)
      let sign1 : Bool := decide (3 < jz.1)
      let j : Nat := if 3 < jz.1 then jz.1 - 4 else jz.1
      let sign : Bool := if 1 < j then !sign1 else sign1
      let y : F64 := if j = 1 ∨ j = 2 then sinPoly jz.2 else cosPoly jz.2
      if sign then neg y else y

/-- The function `xatan` of `atan.go`: the arctangent on `[0, 0.66]`. -/
def xatan (x : F64) : F64 :=
  let z := x * x
  let z := z * ((((ofDecimal true 8750608600031904122785 22 * z
        + ofDecimal true 1615753718733365076637 20) * z
        + ofDecimal true 7500855792314704667340 20) * z
        + ofDecimal true 1228866684490136173410 19) * z
        + ofDecimal true 6485021904942025371773 20)
      / (((((z + ofDecimal false 2485846490142306297962 20) * z
        + ofDecimal false 1650270098316988542046 19) * z
        + ofDecimal false 4328810604912902668951 19) * z
        + ofDecimal false 4853903996359136964868 19) * z
        + ofDecimal false 1945506571482613964425 19)
  x * z + x

/-- The constant `Morebits` of `atan.go`. -/
def Morebits : F64 := ofDecimal false 6123233995736765886130 38

/-- The function `satan` of `atan.go`: the arctangent of a positive argument. -/
def satan (x : F64) : F64 :=
  if !(lt (ofDecimal false 66 2) x) then xatan x
  else if lt (ofDecimal false 241421356237309504880 20) x then
    halfPi - xatan (ofNat 1 / x) + Morebits
  else quarterPi + xatan ((x - ofNat 1) / (x + ofNat 1)) + ofDecimal false 5 1 * Morebits

/-- The function `math.Asin`. -/
def Asin : F64 → F64
  | nan => nan
  | inf _ => nan
  | fin s m e =>
    if m = 0 then fin s m e
    else
      let x : F64 := fin false m e
      if lt (ofNat 1) x then nan
      else
        let temp : F64 := sqrt (ofNat 1 - x * x)
        let temp : F64 :=
          if lt (ofDecimal false 7 1) x then halfPi - satan (temp / x) else satan (x / temp)
        if s then neg temp else temp

/-- The function `math.Acos`: `Pi/2 - Asin(x)`. -/
def Acos (x : F64) : F64 := halfPi - Asin x

end F64

namespace F64

/-- The decimal digits of `scaled * 10^(-n)` with exactly `n` fractional digits. -/
def fixedText (n scaled : Nat) : List Char :=
  let ip := Nat.toDigits 10 (scaled / 10 ^ n)
  let fp := Nat.toDigits 10 (scaled % 10 ^ n)
  if n = 0 then ip else ip ++ '.' :: (List.replicate (n - fp.length) '0' ++ fp)

/-- The integer nearest to `m * 2^e * 10^n`, ties to even. -/
def scaledDecimal (n m : Nat) (e : Int) : Nat :=
  if 0 ≤ e then m * 2 ^ e.toNat * 10 ^ n else roundDiv (m * 10 ^ n) (2 ^ (-e).toNat)

/-- The text `fmt.Sprintf("%.nf", x)`: the exact value of `x` rounded to `n` fractional
digits, ties to even; `NaN`, `+Inf` and `-Inf` for the values that are not finite. -/
def FormatFixed (n : Nat) : F64 → List Char
  | nan => ['N', 'a', 'N']
  | inf s => (if s then '-' else '+') :: ['I', 'n', 'f']
  | fin s m e => (if s then ['-'] else []) ++ fixedText n (scaledDecimal n m e)

/-- The function `strconv.ParseFloat(s, 64)` on plain decimal texts `[+-]digits[.digits]`: the
binary64 nearest to the decimal, and whether the error is nil.  Other texts give
`(0, false)`, also those in exponent, hexadecimal, infinity or NaN form, which the library
accepts and this model does not cover. -/
def ParseFloat (s : List Char) : F64 × Bool :=
  match RatModel.parseDecimal s with
  | some (m, k) =>
    let x := round (s.head? = some '-') m.natAbs (10 ^ k) 0
    match x with
    | fin _ _ _ => (x, true)
    | _ => (x, false)
  | none => (zero, false)

end F64

instance instFloat64F64 : Float64 F64 where
  decLt := fun a b => inferInstanceAs (Decidable (F64.lt a b = true))
  const := fun m e => F64.ofDecimal false m e
  Sin := F64.Sin
  Cos := F64.Cos
  Acos := F64.Acos
  FormatFixed := F64.FormatFixed
  ParseFloat := F64.ParseFloat

/-- Whether a value is a finite binary64: `m < 2^53` and `-1074 ≤ e ≤ 971`. -/
def F64.isFinite : F64 → Bool
  | F64.fin _ m e => decide (m < 2 ^ 53 ∧ -1074 ≤ e ∧ e ≤ 971)
  | _ => false

/-- The exact value of a finite binary64, `(-1)^neg * m * 2^e`; zero for the others. -/
def F64.toRat : F64 → ℚ
  | F64.fin s m e => (if s then -1 else 1) * (m : ℚ) * (2 : ℚ) ^ e
  | _ => 0

/-- The exact value of a plain decimal text `[+-]digits[.digits]`; zero for other texts. -/
def decimalValue (s : GoString) : ℚ := (RatModel.ParseFloat s).1

/-- Whether the three components of a position are finite binary64 values. -/
def geo.Pos.isFinite (p : geo.Pos F64) : Bool :=
  p.Lat.isFinite && p.Lon.isFinite && p.Ele.isFinite

/-- The components of the decoded position `q` are finite, and their exact values are within
`10^(-5)` (latitude from latitude, longitude from longitude) and within `1` (elevation) of
the components of the original position `p`. -/
def kml.WithinRounding (q p : geo.Pos F64) : Prop :=
  q.isFinite = true
    ∧ |F64.toRat q.Lat - F64.toRat p.Lat| ≤ 1 / 10 ^ 5
    ∧ |F64.toRat q.Lon - F64.toRat p.Lon| ≤ 1 / 10 ^ 5
    ∧ |F64.toRat q.Ele - F64.toRat p.Ele| ≤ 1

namespace RatModel

/-- The sign and the unsigned body of a decimal text, as `parseDecimal` splits them. -/
def splitSign (s : List Char) : Bool × List Char :=
  match s with
  | '-' :: r => (true, r)
  | '+' :: r => (false, r)
  | r => (false, r)

/-- The reading of an unsigned body by `parseDecimal`, with the sign to apply. -/
def parseBody (neg : Bool) (body : List Char) : Option (Int × Nat) :=
  let ip := body.takeWhile (fun c => c != '.')
  let fp := (body.dropWhile (fun c => c != '.')).drop 1
  let digits := if body.contains '.' then parseDigits (ip ++ fp) else parseDigits ip
  let frac := if body.contains '.' then fp.length else 0
  digits.map (fun n => (if neg then -(n : Int) else (n : Int), frac))

/-- The number a string of decimal digits denotes. -/
def digitsVal (cs : List Char) : Nat := cs.foldl (fun n c => 10 * n + (c.toNat - 48)) 0

end RatModel

/-! ## Theorems -/

namespace geo

section
variable {α : Type}

theorem totalLen_foldl (lines : List (List α)) (n : Nat) :
    lines.foldl (fun totalLen s => totalLen + s.length) n = n + lines.flatten.length := by
  induction lines generalizing n with
  | nil => simp
  | cons s rest ih => simp [ih, Nat.add_assoc]

theorem totalLen_eq (lines : List (List α)) :
    MergeLines.totalLen lines = lines.flatten.length := by
  simp [MergeLines.totalLen, totalLen_foldl]

/-- Copying `s` at the end of the part already written overwrites exactly the next
`len(s)` cells when that many remain. -/
theorem copyAt_append (done pad s : List α) (h : s.length ≤ pad.length) :
    copyAt (done ++ pad) done.length s = (done ++ s ++ pad.drop s.length, s.length) := by
  have hn : min ((done ++ pad).length - done.length) s.length = s.length := by
    simp only [List.length_append]; omega
  simp only [copyAt, hn, List.take_left, List.take_length, Prod.mk.injEq, and_true]
  rw [List.drop_append]

theorem copyLoop_spec (rest : List (List α)) (done pad : List α)
    (h : pad.length = rest.flatten.length) :
    MergeLines.copyLoop rest (done ++ pad) done.length = done ++ rest.flatten := by
  induction rest generalizing done pad with
  | nil =>
    have : pad = [] := by simpa using h
    simp [MergeLines.copyLoop, this]
  | cons s rest ih =>
    have hs : s.length ≤ pad.length := by
      rw [h]; simp
    have hp : (pad.drop s.length).length = rest.flatten.length := by
      rw [List.length_drop, h]; simp
    simp only [MergeLines.copyLoop, copyAt_append done pad s hs]
    have := ih (done ++ s) (pad.drop s.length) hp
    simp only [List.length_append, List.append_assoc] at this ⊢
    rw [this]
    simp

theorem MergeLinesWith_eq_flatten (zero : α) (lines : List (List α)) :
    MergeLinesWith zero lines = lines.flatten := by
  have := copyLoop_spec lines [] (List.replicate (MergeLines.totalLen lines) zero)
    (by simp [totalLen_eq])
  simpa [MergeLinesWith] using this

end

/-- C1: `MergeLines` returns exactly the concatenation of the input polylines, in list order
and with each polyline's order kept; so the number of points is the sum of the inputs'
numbers of points, and `len(MergeLines([A, B])) = len(A) + len(B)`. -/
theorem MergeLines_concat {F : Type} [Float64 F] (lines : List (Line F)) :
    MergeLines lines = lines.flatten
      ∧ (MergeLines lines).length = (lines.map List.length).sum
      ∧ ∀ A B : Line F, MergeLines [A, B] = A ++ B
          ∧ (MergeLines [A, B]).length = A.length + B.length := by
  refine ⟨MergeLinesWith_eq_flatten _ _, ?_, ?_⟩
  · simp [MergeLines, MergeLinesWith_eq_flatten, List.length_flatten]
  · intro A B
    simp [MergeLines, MergeLinesWith_eq_flatten]

end geo

namespace geo
section
variable {F : Type} [Float64 F]

theorem getElem?_concat_iff {α : Type} (pre : List α) (a x : α) (k : Nat) :
    (pre ++ [a])[k]? = some x ↔ pre[k]? = some x ∨ (k = pre.length ∧ x = a) := by
  rcases Nat.lt_trichotomy k pre.length with h | h | h
  · rw [List.getElem?_append_left h]
    constructor
    · intro hx; exact Or.inl hx
    · rintro (hx | ⟨hk, _⟩)
      · exact hx
      · omega
  · subst h
    simp [eq_comm]
  · rw [List.getElem?_eq_none (by simp; omega), List.getElem?_eq_none (by omega)]
    simp; omega

theorem IsClose_step_inv (hirr : ∀ a : F, ¬ a < a) (htr : ∀ a b c : F, a < b → b < c → a < c)
    (hco : ∀ a b c d : F, a < b → c < d → a < c ∨ c < b)
    (p : Pos F) (delta : F) (pre : Line F) (pos : Pos F) (st : IsCloseState F)
    (h : IsCloseInv p delta pre st) :
    IsCloseInv p delta (pre ++ [pos]) (Line.IsClose.step p delta st pre.length pos) := by
  obtain ⟨⟨hf, hb⟩, hd⟩ := h
  by_cases hc : pos.Distance p < delta
  · -- a candidate
    by_cases hfound : st.found = true
    · obtain ⟨b, hbi, hbd, hmin, hfirst⟩ := hb hfound
      obtain ⟨b', hbi', hdist'⟩ := hd hfound
      have hbb : b' = b := by rw [hbi] at hbi'; exact (Option.some.inj hbi').symm
      have hdist : st.dist = b.Distance p := hbb ▸ hdist'
      by_cases hlt : pos.Distance p < st.dist
      · -- strictly closer: the new point replaces the best
        have hstep : Line.IsClose.step p delta st pre.length pos
            = { found := true, index := pre.length, dist := pos.Distance p } := by
          simp [Line.IsClose.step, Pos.IsClose, hc, hfound, hlt]
        rw [hstep]
        rw [hdist] at hlt
        refine ⟨⟨⟨fun _ => ⟨pre.length, pos, by simp, hc⟩, fun _ => rfl⟩, fun _ => ?_⟩, fun _ => ?_⟩
        · refine ⟨pos, by simp, hc, ?_, ?_⟩
          · intro k x hk hx hxp
            rcases (getElem?_concat_iff pre pos x k).1 hk with hk | ⟨_, rfl⟩
            · exact hmin k x hk hx (htr _ _ _ hxp hlt)
            · exact hirr _ hxp
          · intro k x hklt hk hx
            dsimp only at hklt
            rcases (getElem?_concat_iff pre pos x k).1 hk with hk | ⟨hk, _⟩
            · rcases hco _ _ _ _ hlt hx with h1 | h1
              · exact h1
              · exact absurd h1 (hmin k x hk hx)
            · omega
        · exact ⟨pos, by simp, rfl⟩
      · -- not strictly closer: the best is kept
        have hstep : Line.IsClose.step p delta st pre.length pos
            = { found := true, index := st.index, dist := st.dist } := by
          simp [Line.IsClose.step, Pos.IsClose, hc, hfound, hlt]
        rw [hstep]
        have hbi2 : (pre ++ [pos])[st.index]? = some b :=
          (getElem?_concat_iff pre pos b st.index).2 (Or.inl hbi)
        refine ⟨⟨⟨fun _ => ⟨pre.length, pos, by simp, hc⟩, fun _ => rfl⟩, fun _ => ?_⟩, fun _ => ?_⟩
        · refine ⟨b, hbi2, hbd, ?_, ?_⟩
          · intro k x hk hx hxp
            rcases (getElem?_concat_iff pre pos x k).1 hk with hk | ⟨_, rfl⟩
            · exact hmin k x hk hx hxp
            · exact hlt (hdist ▸ hxp)
          · intro k x hklt hk hx
            dsimp only at hklt
            rcases (getElem?_concat_iff pre pos x k).1 hk with hk | ⟨hk, _⟩
            · exact hfirst k x hklt hk hx
            · have : st.index < pre.length := by
                by_contra hge
                rw [List.getElem?_eq_none (by omega)] at hbi
                exact Option.noConfusion hbi
              omega
        · exact ⟨b, hbi2, hdist⟩
    · -- the first candidate
      have hnone : ∀ (k : Nat) (x : Pos F), pre[k]? = some x → ¬ x.Distance p < delta := by
        intro k x hk hx
        exact hfound (hf.2 ⟨k, x, hk, hx⟩)
      have hstep : Line.IsClose.step p delta st pre.length pos
          = { found := true, index := pre.length, dist := pos.Distance p } := by
        simp [Line.IsClose.step, Pos.IsClose, hc, hfound]
      rw [hstep]
      refine ⟨⟨⟨fun _ => ⟨pre.length, pos, by simp, hc⟩, fun _ => rfl⟩, fun _ => ?_⟩, fun _ => ?_⟩
      · refine ⟨pos, by simp, hc, ?_, ?_⟩
        · intro k x hk hx hxp
          rcases (getElem?_concat_iff pre pos x k).1 hk with hk | ⟨_, rfl⟩
          · exact hnone k x hk hx
          · exact hirr _ hxp
        · intro k x hklt hk hx
          dsimp only at hklt
          rcases (getElem?_concat_iff pre pos x k).1 hk with hk | ⟨hk, _⟩
          · exact absurd hx (hnone k x hk)
          · omega
      · exact ⟨pos, by simp, rfl⟩
  · -- not a candidate: the state is unchanged
    have hstep : Line.IsClose.step p delta st pre.length pos = st := by
      simp [Line.IsClose.step, Pos.IsClose, hc]
    rw [hstep]
    refine ⟨⟨⟨fun hfd => ?_, ?_⟩, fun hfd => ?_⟩, fun hfd => ?_⟩
    · obtain ⟨k, x, hk, hx⟩ := hf.1 hfd
      exact ⟨k, x, (getElem?_concat_iff pre pos x k).2 (Or.inl hk), hx⟩
    · rintro ⟨k, x, hk, hx⟩
      rcases (getElem?_concat_iff pre pos x k).1 hk with hk | ⟨_, rfl⟩
      · exact hf.2 ⟨k, x, hk, hx⟩
      · exact absurd hx hc
    · obtain ⟨b, hbi, hbd, hmin, hfirst⟩ := hb hfd
      refine ⟨b, (getElem?_concat_iff pre pos b st.index).2 (Or.inl hbi), hbd, ?_, ?_⟩
      · intro k x hk hx hxp
        rcases (getElem?_concat_iff pre pos x k).1 hk with hk | ⟨_, rfl⟩
        · exact hmin k x hk hx hxp
        · exact hc hx
      · intro k x hklt hk hx
        rcases (getElem?_concat_iff pre pos x k).1 hk with hk | ⟨_, rfl⟩
        · exact hfirst k x hklt hk hx
        · exact absurd hx hc
    · obtain ⟨b, hbi, hdist⟩ := hd hfd
      exact ⟨b, (getElem?_concat_iff pre pos b st.index).2 (Or.inl hbi), hdist⟩

theorem IsClose_loop_inv (hirr : ∀ a : F, ¬ a < a) (htr : ∀ a b c : F, a < b → b < c → a < c)
    (hco : ∀ a b c d : F, a < b → c < d → a < c ∨ c < b)
    (p : Pos F) (delta : F) (rest pre : Line F) (st : IsCloseState F)
    (h : IsCloseInv p delta pre st) :
    IsCloseInv p delta (pre ++ rest) (Line.IsClose.loop p delta rest pre.length st) := by
  induction rest generalizing pre st with
  | nil => simpa [Line.IsClose.loop] using h
  | cons pos rest ih =>
    have := ih (pre ++ [pos]) _ (IsClose_step_inv hirr htr hco p delta pre pos st h)
    simpa [Line.IsClose.loop] using this

/-- C2: `Line.IsClose` returns `found = true` iff some point of `l` is at a distance from `p`
strictly less than `delta`; when found, the index is that of a point of minimum distance among
those points, and every such point at a smaller index is strictly farther, so that a later
point at an equal distance never replaces an earlier one.  In particular, when of three
points only the middle one is closer than `delta`, the result is `(true, 1)`.
The comparison `<` of float64 is taken irreflexive, transitive, and such that a value that
is below something (so not a NaN) compares with the two ends of every strict inequality. -/
theorem Line_IsClose_closest (hirr : ∀ a : F, ¬ a < a)
    (htr : ∀ a b c : F, a < b → b < c → a < c)
    (hco : ∀ a b c d : F, a < b → c < d → a < c ∨ c < b)
    (l : Line F) (p : Pos F) (delta : F) :
    ClosestMatch l p delta (l.IsClose p delta).1 (l.IsClose p delta).2
      ∧ ∀ a b c : Pos F, ¬ a.Distance p < delta → b.Distance p < delta →
          ¬ c.Distance p < delta → Line.IsClose [a, b, c] p delta = (true, 1) := by
  constructor
  · have h0 : IsCloseInv p delta [] ⟨false, 0, Float64.const 0 0⟩ := by
      refine ⟨⟨⟨fun h => by simp at h, ?_⟩, fun h => by simp at h⟩, fun h => by simp at h⟩
      rintro ⟨k, x, hk, _⟩
      simp at hk
    have := IsClose_loop_inv hirr htr hco p delta l [] _ h0
    simpa [Line.IsClose] using this.1
  · intro a b c ha hb hc
    simp [Line.IsClose, Line.IsClose.loop, Line.IsClose.step, Pos.IsClose, ha, hb, hc]

end
end geo

/-- Witness for C2, in rational arithmetic: the line `[(0,0), (0,1), (0,2)]`, the query
`(0, 1.0001)` and the threshold `1`. -/
theorem Line_IsClose_closest_witness :
    (∀ a : ℚ, ¬ a < a) ∧ (∀ a b c : ℚ, a < b → b < c → a < c)
      ∧ (∀ a b c d : ℚ, a < b → c < d → a < c ∨ c < b)
      ∧ geo.ClosestMatch ([⟨0, 0, 0⟩, ⟨0, 1, 0⟩, ⟨0, 2, 0⟩] : geo.Line ℚ) ⟨0, 10001 / 10000, 0⟩ 1
          (geo.Line.IsClose ([⟨0, 0, 0⟩, ⟨0, 1, 0⟩, ⟨0, 2, 0⟩] : geo.Line ℚ)
            ⟨0, 10001 / 10000, 0⟩ 1).1
          (geo.Line.IsClose ([⟨0, 0, 0⟩, ⟨0, 1, 0⟩, ⟨0, 2, 0⟩] : geo.Line ℚ)
            ⟨0, 10001 / 10000, 0⟩ 1).2 :=
  ⟨lt_irrefl, fun _ _ _ => lt_trans, fun _ _ c _ h _ => h.lt_or_lt c,
    (geo.Line_IsClose_closest lt_irrefl (fun _ _ _ => lt_trans)
      (fun _ _ c _ h _ => h.lt_or_lt c) _ _ _).1⟩

namespace geo

section
variable {α : Type}

/-- Swapping the two ends of the middle part of a list. -/
theorem swap_ends (a mid b : List α) (x y : α) :
    swap (a ++ x :: (mid ++ y :: b)) a.length (a.length + 1 + mid.length)
      = a ++ y :: (mid ++ x :: b) := by
  have h1 : (a ++ x :: (mid ++ y :: b))[a.length]? = some x := by
    rw [List.getElem?_append_right (Nat.le_refl _)]
    simp
  have h2 : (a ++ x :: (mid ++ y :: b))[a.length + 1 + mid.length]? = some y := by
    rw [List.getElem?_append_right (by omega)]
    have : a.length + 1 + mid.length - a.length = mid.length + 1 := by omega
    rw [this, List.getElem?_cons_succ, List.getElem?_append_right (Nat.le_refl _)]
    simp
  have h3 : (a ++ x :: (mid ++ y :: b)).set a.length y = a ++ y :: (mid ++ y :: b) := by
    simp
  have h4 : (a ++ y :: (mid ++ y :: b)).set (a.length + 1 + mid.length) x
      = a ++ y :: (mid ++ x :: b) := by
    rw [List.set_append_right _ _ (by omega)]
    have : a.length + 1 + mid.length - a.length = mid.length + 1 := by omega
    rw [this, List.set_cons_succ, List.set_append_right _ _ (Nat.le_refl _)]
    simp
  simp only [swap, h1, h2, h3, h4]

/-- The loop of `Reverse`, started at the two ends of the middle part `mid` of a list with
at least `len(mid)` iterations allowed, reverses `mid` and leaves the rest in place. -/
theorem Reverse_loop_spec (n : Nat) :
    ∀ (fuel : Nat) (a mid b : List α), mid.length ≤ n → mid.length ≤ fuel →
      Line.Reverse.loop fuel (a ++ mid ++ b) (a.length : Int)
          ((a.length : Int) + (mid.length : Int) - 1)
        = a ++ mid.reverse ++ b := by
  induction n using Nat.strong_induction_on with
  | _ n ih =>
    intro fuel a mid b hn hfuel
    match mid, hn, hfuel with
    | [], _, _ =>
      cases fuel with
      | zero => simp [Line.Reverse.loop]
      | succ f => simp [Line.Reverse.loop]
    | [x], _, _ =>
      cases fuel with
      | zero => simp [Line.Reverse.loop]
      | succ f => simp [Line.Reverse.loop]
    | x :: y :: rest, hn, hfuel =>
      obtain ⟨f, rfl⟩ : ∃ f, fuel = f + 1 := ⟨fuel - 1, by simp at hfuel; omega⟩
      -- split the middle part into its two ends and the part between them
      obtain ⟨mid', z, hz⟩ : ∃ mid' z, y :: rest = mid' ++ [z] :=
        ⟨(y :: rest).dropLast, (y :: rest).getLast (by simp),
          (List.dropLast_append_getLast (by simp)).symm⟩
      have hlen : (y :: rest).length = mid'.length + 1 := by rw [hz]; simp
      simp only [List.length_cons] at hlen hn hfuel
      have hlt : (a.length : Int) < (a.length : Int) + ((x :: y :: rest).length : Int) - 1 := by
        simp only [List.length_cons]; push_cast; omega
      rw [Line.Reverse.loop, if_pos hlt]
      have hj : ((a.length : Int) + ((x :: y :: rest).length : Int) - 1).toNat
          = a.length + 1 + mid'.length := by
        simp only [List.length_cons]; push_cast; omega
      rw [hj, Int.toNat_ofNat, hz]
      have hl : a ++ x :: (mid' ++ [z]) ++ b = a ++ x :: (mid' ++ z :: b) := by simp
      rw [hl, swap_ends]
      have hl2 : a ++ z :: (mid' ++ x :: b) = (a ++ [z]) ++ mid' ++ (x :: b) := by simp
      rw [hl2]
      have hi : (a.length : Int) + 1 = ((a ++ [z]).length : Int) := by simp
      have hj2 : (a.length : Int) + ((x :: (mid' ++ [z])).length : Int) - 1 - 1
          = ((a ++ [z]).length : Int) + (mid'.length : Int) - 1 := by
        simp only [List.length_cons, List.length_append, List.length_singleton]
        push_cast; omega
      rw [hi, hj2, ih mid'.length (by omega) f (a ++ [z]) mid' (x :: b) (Nat.le_refl _)
        (by omega)]
      simp

/-- `Reverse` leaves the element-wise reversed sequence in the slice. -/
theorem Reverse_eq_reverse (l : List α) : Line.Reverse l = l.reverse := by
  have := Reverse_loop_spec l.length l.length [] l [] (Nat.le_refl _) (Nat.le_refl _)
  simpa [Line.Reverse] using this

/-- C7: applying `Reverse` twice leaves the polyline element-wise equal to the original. -/
theorem Reverse_Reverse (l : List α) : Line.Reverse (Line.Reverse l) = l := by
  rw [Reverse_eq_reverse, Reverse_eq_reverse, List.reverse_reverse]

end

end geo

namespace geo

section
variable {F : Type} [Float64 F]

/-- The cosine-sum term does not depend on the order of the two positions. -/
theorem cosineSum_symm (neg : F → F) (hmul : ∀ a b : F, a * b = b * a)
    (hsub : ∀ a b : F, b - a = neg (a - b) ∨ b - a = a - b)
    (hmulneg : ∀ a b : F, a * neg b = neg (a * b))
    (hdivneg : ∀ a b : F, neg a / b = neg (a / b))
    (hcos : ∀ a : F, Float64.Cos (neg a) = Float64.Cos a) (p q : Pos F) :
    p.cosineSum q = q.cosineSum p := by
  have htheta : Float64.Cos ((PI : F) * (q.Lon - p.Lon) / Float64.const 180 0)
      = Float64.Cos ((PI : F) * (p.Lon - q.Lon) / Float64.const 180 0) := by
    rcases hsub p.Lon q.Lon with h | h
    · rw [h, hmulneg, hdivneg, hcos]
    · rw [h]
  simp only [Pos.cosineSum]
  rw [htheta, hmul (Float64.Sin _) (Float64.Sin _), hmul (Float64.Cos ((PI : F) * q.Lat / _))
    (Float64.Cos _)]

/-- The clamp of `Distance`: the value passed to `math.Acos` is never above 1, provided 1 is
not above itself. -/
theorem acosArg_not_gt_one (hirr : ¬ (Float64.const 1 0 : F) > Float64.const 1 0) (p q : Pos F) :
    ¬ p.acosArg q > Float64.const 1 0 := by
  unfold Pos.acosArg
  by_cases h : p.cosineSum q > Float64.const 1 0
  · simpa [h] using hirr
  · simp [h]

/-- C9: `Distance` is symmetric, `Distance(p, q) = Distance(q, p)`.  What is used of float64:
multiplication is commutative; `b - a` is the negation of `a - b`, or equal to it (both
zero); negation moves out of a product and a quotient; and `math.Cos` is even. -/
theorem Distance_symm (neg : F → F) (hmul : ∀ a b : F, a * b = b * a)
    (hsub : ∀ a b : F, b - a = neg (a - b) ∨ b - a = a - b)
    (hmulneg : ∀ a b : F, a * neg b = neg (a * b))
    (hdivneg : ∀ a b : F, neg a / b = neg (a / b))
    (hcos : ∀ a : F, Float64.Cos (neg a) = Float64.Cos a) (p q : Pos F) :
    p.Distance q = q.Distance p := by
  simp only [Pos.Distance, Pos.acosArg, cosineSum_symm neg hmul hsub hmulneg hdivneg hcos p q]

end

end geo

/-- Witness for C9, in rational arithmetic, at the positions `(54.5, -3.1)` and `(54.6, -3.2)`. -/
theorem Distance_symm_witness :
    (∀ a b : ℚ, a * b = b * a) ∧ (∀ a b : ℚ, b - a = -(a - b) ∨ b - a = a - b)
      ∧ (∀ a b : ℚ, a * -b = -(a * b)) ∧ (∀ a b : ℚ, -a / b = -(a / b))
      ∧ (∀ a : ℚ, Float64.Cos (-a) = Float64.Cos a)
      ∧ geo.Pos.Distance (⟨109 / 2, -31 / 10, 100⟩ : geo.Pos ℚ) ⟨273 / 5, -16 / 5, 200⟩
          = geo.Pos.Distance (⟨273 / 5, -16 / 5, 200⟩ : geo.Pos ℚ) ⟨109 / 2, -31 / 10, 100⟩ :=
  ⟨mul_comm, fun a b => Or.inl (neg_sub a b).symm, mul_neg, fun a b => neg_div b a,
    fun a => by simp [Float64.Cos],
    geo.Distance_symm (fun x : ℚ => -x) mul_comm (fun a b => Or.inl (neg_sub a b).symm) mul_neg
      (fun a b => neg_div b a) (fun a => by simp [Float64.Cos]) _ _⟩

namespace kml

/-- C6: `GetLineString` returns the placemark's direct LineString whenever it is present,
whatever the MultiGeometry; without a direct LineString it returns the first LineString of a
MultiGeometry that holds at least one (so the first of two); and it returns none when there
is neither a direct LineString nor a MultiGeometry with a LineString. -/
theorem GetLineString_resolution (p : Placemark) (ls first second : LineString)
    (head : Option LineString) (rest : List (Option LineString)) :
    ({ p with LineString := some ls }).GetLineString = some ls
      ∧ ({ p with LineString := none,
                  MultiGeometry := some ⟨head :: rest⟩ }).GetLineString = head
      ∧ ({ p with LineString := none,
                  MultiGeometry := some ⟨[some first, some second]⟩ }).GetLineString
          = some first
      ∧ ({ p with LineString := none, MultiGeometry := some ⟨[]⟩ }).GetLineString = none
      ∧ ({ p with LineString := none, MultiGeometry := none }).GetLineString = none := by
  refine ⟨?_, rfl, rfl, rfl, rfl⟩
  cases hm : p.MultiGeometry <;> simp [Placemark.GetLineString, hm]

end kml

namespace kml

theorem isSpace_space : isSpace ' ' = true := by decide

theorem Split_ne_nil (s : GoString) (sep : Char) : Split s sep ≠ [] := by
  cases s with
  | nil => simp [Split]
  | cons c cs =>
    simp only [Split]
    split
    · simp
    · split <;> simp

/-- A text without the separator is a single piece. -/
theorem Split_of_not_mem (s : GoString) (sep : Char) (h : sep ∉ s) : Split s sep = [s] := by
  induction s with
  | nil => rfl
  | cons c cs ih =>
    have hc : c ≠ sep := fun e => h (by simp [e])
    have hcs : sep ∉ cs := fun e => h (by simp [e])
    simp [Split, hc, ih hcs]

/-- The first piece ends at the first occurrence of the separator. -/
theorem Split_append (a b : GoString) (sep : Char) (h : sep ∉ a) :
    Split (a ++ sep :: b) sep = a :: Split b sep := by
  induction a with
  | nil => simp [Split]
  | cons c cs ih =>
    have hc : c ≠ sep := fun e => h (by simp [e])
    have hcs : sep ∉ cs := fun e => h (by simp [e])
    simp [Split, hc, ih hcs]

/-- Splitting undoes joining when no item holds the separator. -/
theorem Split_joinWith (sep : Char) (items : List GoString) (hne : items ≠ [])
    (h : ∀ it ∈ items, sep ∉ it) : Split (joinWith sep items) sep = items := by
  induction items with
  | nil => exact absurd rfl hne
  | cons x rest ih =>
    cases rest with
    | nil => simpa [joinWith] using Split_of_not_mem x sep (h x (by simp))
    | cons y rest =>
      have hx : sep ∉ x := h x (by simp)
      have := ih (by simp) (fun it hit => h it (by simp [hit]))
      simp only [joinWith] at this ⊢
      rw [Split_append _ _ _ hx, this]

/-- A text that neither starts nor ends with white space is left as it is. -/
theorem TrimSpace_eq_self (s : GoString) (hh : ∀ c, s.head? = some c → isSpace c = false)
    (hl : ∀ c, s.getLast? = some c → isSpace c = false) : TrimSpace s = s := by
  have h1 : s.dropWhile isSpace = s := by
    cases s with
    | nil => rfl
    | cons c cs => simp [List.dropWhile, hh c rfl]
  have h2 : s.reverse.dropWhile isSpace = s.reverse := by
    cases hr : s.reverse with
    | nil => rfl
    | cons c cs =>
      have : s.getLast? = some c := by
        rw [List.getLast?_eq_head?_reverse, hr]; rfl
      simp [List.dropWhile, hl c this]
  simp [TrimSpace, h1, h2]

theorem joinWith_head? (sep : Char) (x : GoString) (rest : List GoString) (hx : x ≠ []) :
    (joinWith sep (x :: rest)).head? = x.head? := by
  cases rest with
  | nil => rfl
  | cons y rest =>
    cases x with
    | nil => exact absurd rfl hx
    | cons c cs => rfl

theorem joinWith_getLast? (sep : Char) (items : List GoString) (last : GoString)
    (hlast : items.getLast? = some last) (hne : last ≠ []) :
    (joinWith sep items).getLast? = last.getLast? := by
  induction items with
  | nil => simp at hlast
  | cons x rest ih =>
    cases rest with
    | nil =>
      simp at hlast
      simp [joinWith, hlast]
    | cons y rest =>
      have hl : (y :: rest).getLast? = some last := by
        simpa [List.getLast?_cons_cons] using hlast
      have ih := ih hl
      have hne2 : joinWith sep (y :: rest) ≠ [] := by
        intro hnil
        rw [hnil] at ih
        cases last with
        | nil => exact hne rfl
        | cons c cs => simp [List.getLast?_cons] at ih
      simp only [joinWith]
      rw [List.getLast?_append_of_ne_nil _ (by simp)]
      cases hj : joinWith sep (y :: rest) with
      | nil => exact absurd hj hne2
      | cons c cs =>
        rw [List.getLast?_cons_cons, ← hj]
        exact ih

theorem WellFormedField.not_mem_comma {f : GoString} (h : WellFormedField f) : ',' ∉ f :=
  fun hm => (h.2 ',' hm).1 rfl

theorem WellFormedField.not_mem_space {f : GoString} (h : WellFormedField f) : ' ' ∉ f := by
  intro hm
  have := (h.2 ' ' hm).2
  rw [isSpace_space] at this
  exact Bool.noConfusion this

theorem Triple.text_not_mem_space {t : Triple} (h : t.WellFormed) : ' ' ∉ t.text := by
  have h1 := h.1.not_mem_space
  have h2 := h.2.1.not_mem_space
  have h3 := h.2.2.not_mem_space
  simp [Triple.text, h1, h2, h3]

theorem Triple.Split_text {t : Triple} (h : t.WellFormed) :
    Split t.text ',' = [t.lon, t.lat, t.ele] := by
  rw [Triple.text, Split_append _ _ _ h.1.not_mem_comma,
    Split_append _ _ _ h.2.1.not_mem_comma, Split_of_not_mem _ _ h.2.2.not_mem_comma]

theorem Triple.parsePos_text (F : Type) [Float64 F] {t : Triple} (h : t.WellFormed) :
    parsePos F (Split t.text ',') = some (t.pos F) := by
  rw [Triple.Split_text h]
  rfl

theorem Line_loop_texts (F : Type) [Float64 F] (triples : List Triple)
    (hwf : ∀ t ∈ triples, t.WellFormed) :
    LineString.Line.loop F (triples.map Triple.text) = some (triples.map (Triple.pos F)) := by
  induction triples with
  | nil => rfl
  | cons t rest ih =>
    have := ih (fun u hu => hwf u (by simp [hu]))
    simp [LineString.Line.loop, Triple.parsePos_text F (hwf t (by simp)), this]

theorem Triple.text_getLast? {t : Triple} (h : t.ele ≠ []) :
    t.text.getLast? = t.ele.getLast? := by
  have : t.text = (t.lon ++ ',' :: (t.lat ++ [','])) ++ t.ele := by simp [Triple.text]
  rw [this, List.getLast?_append_of_ne_nil _ h]

/-- The text of well-formed triples joined by single spaces has no outer white space. -/
theorem TrimSpace_joinWith (triples : List Triple) (hwf : ∀ t ∈ triples, t.WellFormed) :
    TrimSpace (joinWith ' ' (triples.map Triple.text)) = joinWith ' ' (triples.map Triple.text) := by
  apply TrimSpace_eq_self
  · intro c hc
    cases triples with
    | nil => simp [joinWith] at hc
    | cons t rest =>
      have ht := hwf t (by simp)
      rw [List.map_cons, joinWith_head? _ _ _ (by simp [Triple.text])] at hc
      obtain ⟨hne, hall⟩ := ht.1
      cases hl : t.lon with
      | nil => exact absurd hl hne
      | cons d ds =>
        simp only [Triple.text, hl, List.cons_append, List.head?_cons, Option.some.injEq] at hc
        subst hc
        exact (hall d (by simp [hl])).2
  · intro c hc
    cases hlast : triples.getLast? with
    | none => simp [List.getLast?_eq_none_iff.1 hlast, joinWith] at hc
    | some t =>
      have ht := hwf t (List.mem_of_getLast?_eq_some hlast)
      have hl : (triples.map Triple.text).getLast? = some t.text := by
        simp [List.getLast?_map, hlast]
      rw [joinWith_getLast? _ _ _ hl (by simp [Triple.text])] at hc
      obtain ⟨hne, hall⟩ := ht.2.2
      have hc2 : t.ele.getLast? = some c := by
        rw [Triple.text_getLast? hne] at hc
        exact hc
      exact (hall c (List.mem_of_getLast?_eq_some hc2)).2

/-- Decoding the text of well-formed triples joined by single spaces. -/
theorem Line_joinWith_texts (F : Type) [Float64 F] (triples : List Triple) (hne : triples ≠ [])
    (hwf : ∀ t ∈ triples, t.WellFormed) (extrude tessellate : Bool) (mode : GoString) :
    LineString.Line F ⟨extrude, tessellate, mode, joinWith ' ' (triples.map Triple.text)⟩
        = some (triples.map (Triple.pos F)) := by
  simp only [LineString.Line]
  rw [TrimSpace_joinWith triples hwf,
    Split_joinWith ' ' _ (by simpa using hne)
      (by
        intro it hit
        obtain ⟨t, ht, rfl⟩ := List.mem_map.1 hit
        exact Triple.text_not_mem_space (hwf t ht))]
  exact Line_loop_texts F triples hwf

/-- Decoding the text of one well-formed triple as a point. -/
theorem Pos_text (F : Type) [Float64 F] (t : Triple) (hwf : t.WellFormed) :
    Point.Pos F ⟨t.text⟩ = some (t.pos F) := by
  have h := TrimSpace_joinWith [t] (by simpa using hwf)
  simp only [List.map, joinWith] at h
  simp only [Point.Pos, h]
  exact Triple.parsePos_text F hwf

section
variable {F : Type} [Float64 F]

/-- The three formatted fields of a position, in the order `PosCoordinates` writes them. -/
theorem PosCoordinates_eq_text (pos : geo.Pos F) :
    PosCoordinates pos
      = Triple.text ⟨Float64.FormatFixed 5 pos.Lon, Float64.FormatFixed 5 pos.Lat,
          Float64.FormatFixed 0 pos.Ele⟩ := by
  simp [PosCoordinates, Triple.text]

theorem LineCoordinates_loop_eq (line : geo.Line F) (i : Nat) (sb : GoString) :
    LineCoordinates.loop line i sb
      = if i > 0 then sb ++ (line.map (fun pos => ' ' :: PosCoordinates pos)).flatten
        else match line with
          | [] => sb
          | pos :: rest =>
            sb ++ PosCoordinates pos ++ (rest.map (fun q => ' ' :: PosCoordinates q)).flatten := by
  induction line generalizing i sb with
  | nil => simp [LineCoordinates.loop]
  | cons pos rest ih =>
    by_cases hi : i > 0
    · simp [LineCoordinates.loop, hi, ih]
    · simp [LineCoordinates.loop, hi, ih]

theorem joinWith_cons_flatten (sep : Char) (x : GoString) (rest : List GoString) :
    joinWith sep (x :: rest) = x ++ (rest.map (fun y => sep :: y)).flatten := by
  induction rest generalizing x with
  | nil => simp [joinWith]
  | cons y rest ih => simp [joinWith, ih y]

/-- The encoder writes the per-point strings with exactly one space between consecutive
points; the empty polyline gives the empty text. -/
theorem LineCoordinates_eq_joinWith (line : geo.Line F) :
    LineCoordinates line = joinWith ' ' (line.map PosCoordinates) := by
  cases line with
  | nil => rfl
  | cons pos rest =>
    rw [List.map_cons, joinWith_cons_flatten, LineCoordinates, LineCoordinates_loop_eq]
    simp [List.map_map, Function.comp_def]

/-- Decoding what `LineCoordinates` wrote for a non-empty polyline gives back one position
per point, in order, each component being `ParseFloat` of the text written for that same
component (longitude from longitude, latitude from latitude), whenever the formatted numbers
are well-formed fields. -/
theorem Line_LineCoordinates
    (hfmt : ∀ (n : Nat) (x : F), WellFormedField (Float64.FormatFixed n x))
    (line : geo.Line F) (hne : line ≠ []) (extrude tessellate : Bool) (mode : GoString) :
    LineString.Line F ⟨extrude, tessellate, mode, LineCoordinates line⟩
      = some (line.map (fun pos =>
          { Lon := (Float64.ParseFloat (Float64.FormatFixed 5 pos.Lon)).1,
            Lat := (Float64.ParseFloat (Float64.FormatFixed 5 pos.Lat)).1,
            Ele := (Float64.ParseFloat (Float64.FormatFixed 0 pos.Ele)).1 })) := by
  have h := Line_joinWith_texts F
    (line.map (fun pos => (⟨Float64.FormatFixed 5 pos.Lon, Float64.FormatFixed 5 pos.Lat,
      Float64.FormatFixed 0 pos.Ele⟩ : Triple)))
    (by simpa using hne)
    (by
      intro t ht
      obtain ⟨pos, _, rfl⟩ := List.mem_map.1 ht
      exact ⟨hfmt _ _, hfmt _ _, hfmt _ _⟩)
    extrude tessellate mode
  have htext : line.map PosCoordinates
      = (line.map (fun pos => (⟨Float64.FormatFixed 5 pos.Lon, Float64.FormatFixed 5 pos.Lat,
          Float64.FormatFixed 0 pos.Ele⟩ : Triple))).map Triple.text := by
    simp [List.map_map, Function.comp_def, PosCoordinates_eq_text]
  rw [LineCoordinates_eq_joinWith, htext, h]
  simp [List.map_map, Function.comp_def, Triple.pos]

end

/-- C4, amended: for a coordinate text made of `n ≥ 1` well-formed triples `lon,lat,ele` with
exactly one space between consecutive triples, `Line` returns a polyline of exactly `n`
positions, the i-th holding what `ParseFloat` reads in the longitude, latitude and elevation
fields of the i-th triple. -/
theorem Line_single_space (F : Type) [Float64 F] (triples : List Triple) (hne : triples ≠ [])
    (hwf : ∀ t ∈ triples, t.WellFormed) (extrude tessellate : Bool) (mode : GoString) :
    LineString.Line F ⟨extrude, tessellate, mode, joinWith ' ' (triples.map Triple.text)⟩
        = some (triples.map (Triple.pos F))
      ∧ (triples.map (Triple.pos F)).length = triples.length :=
  ⟨Line_joinWith_texts F triples hne hwf extrude tessellate mode, by simp⟩

end kml

/-- Witness for C4 as amended: the text `-3.25,54.5,100 1,2,3`. -/
theorem Line_single_space_witness :
    ([⟨"-3.25".toList, "54.5".toList, "100".toList⟩,
        ⟨"1".toList, "2".toList, "3".toList⟩] : List kml.Triple) ≠ []
      ∧ (∀ t ∈ ([⟨"-3.25".toList, "54.5".toList, "100".toList⟩,
            ⟨"1".toList, "2".toList, "3".toList⟩] : List kml.Triple), t.WellFormed)
      ∧ kml.LineString.Line ℚ ⟨false, false, [], "-3.25,54.5,100 1,2,3".toList⟩
          = some [⟨109 / 2, -13 / 4, 100⟩, ⟨2, 1, 3⟩] := by
  have hne : ([⟨"-3.25".toList, "54.5".toList, "100".toList⟩,
        ⟨"1".toList, "2".toList, "3".toList⟩] : List kml.Triple) ≠ [] := by simp
  have hwf : ∀ t ∈ ([⟨"-3.25".toList, "54.5".toList, "100".toList⟩,
        ⟨"1".toList, "2".toList, "3".toList⟩] : List kml.Triple), t.WellFormed := by
    intro t ht
    simp only [List.mem_cons, List.mem_singleton, List.not_mem_nil, or_false] at ht
    rcases ht with rfl | rfl <;>
      simp [kml.Triple.WellFormed, kml.WellFormedField, kml.isSpace]
  refine ⟨hne, hwf, ?_⟩
  have h := (kml.Line_single_space ℚ _ hne hwf false false []).1
  rw [show kml.joinWith ' ' (List.map kml.Triple.text
        ([⟨"-3.25".toList, "54.5".toList, "100".toList⟩,
          ⟨"1".toList, "2".toList, "3".toList⟩] : List kml.Triple))
      = "-3.25,54.5,100 1,2,3".toList from by decide] at h
  rw [h]
  have e1 : RatModel.parseDecimal "-3.25".toList = some (-325, 2) := by decide
  have e2 : RatModel.parseDecimal "54.5".toList = some (545, 1) := by decide
  have e3 : RatModel.parseDecimal "100".toList = some (100, 0) := by decide
  have e4 : RatModel.parseDecimal "1".toList = some (1, 0) := by decide
  have e5 : RatModel.parseDecimal "2".toList = some (2, 0) := by decide
  have e6 : RatModel.parseDecimal "3".toList = some (3, 0) := by decide
  simp only [List.map, kml.Triple.pos, Float64.ParseFloat, RatModel.ParseFloat,
    e1, e2, e3, e4, e5, e6]
  norm_num

/-- Counterexample to C4 as stated: with two spaces between two triples `Line` fails (index
out of range); with a tab or a newline between them it returns one position, not two. -/
theorem Line_whitespace_counterexample :
    kml.LineString.Line ℚ ⟨false, false, [], "1,2,3  4,5,6".toList⟩ = none
      ∧ (kml.LineString.Line ℚ ⟨false, false, [], "1,2,3\t4,5,6".toList⟩).map List.length
          = some 1
      ∧ (kml.LineString.Line ℚ ⟨false, false, [], "1,2,3\n4,5,6".toList⟩).map List.length
          = some 1 := by
  refine ⟨by decide, by decide, by decide⟩

namespace geo

/-- Filling a fresh slice index by index gives the image of the input, in order. -/
theorem fillLoop_spec {α β : Type} (f : α → β) (xs : List α) (done pad : List β)
    (h : pad.length = xs.length) :
    fillLoop f xs done.length (done ++ pad) = done ++ xs.map f := by
  induction xs generalizing done pad with
  | nil =>
    have : pad = [] := by simpa using h
    simp [fillLoop, this]
  | cons x rest ih =>
    cases pad with
    | nil => simp at h
    | cons z pad =>
      have hset : (done ++ z :: pad).set done.length (f x) = (done ++ [f x]) ++ pad := by
        rw [List.set_append_right _ _ (Nat.le_refl _)]
        simp
      have := ih (done ++ [f x]) pad (by simpa using h)
      simp only [fillLoop, hset]
      simpa using this

theorem fillLoop_replicate {α β : Type} (f : α → β) (xs : List α) (z : β) :
    fillLoop f xs 0 (List.replicate xs.length z) = xs.map f := by
  simpa using fillLoop_spec f xs [] (List.replicate xs.length z) (by simp)

end geo

namespace gpx

/-- C12: the track-format mapping between positions and points is lossless:
`PosPoint(p).Pos() = p` with latitude, longitude and elevation each unchanged;
`TrackSegment{Points: LineTrackPoints(L)}.Line() = L`; and `LinePoints(L)` has one point per
position of `L`, in the same order. -/
theorem PosPoint_Pos_lossless {F : Type} [Float64 F] (p : geo.Pos F) (L : geo.Line F) :
    (PosPoint p).Pos = p
      ∧ (PosPoint p).Pos.Lat = p.Lat ∧ (PosPoint p).Pos.Lon = p.Lon
      ∧ (PosPoint p).Pos.Ele = p.Ele
      ∧ TrackSegment.Line { Points := LineTrackPoints L } = L
      ∧ LinePoints L = L.map PosPoint
      ∧ (LinePoints L).length = L.length
      ∧ (LinePoints L).map Point.Pos = L := by
  have hpp : ∀ q : geo.Pos F, (PosPoint q).Pos = q := fun q => rfl
  refine ⟨rfl, rfl, rfl, rfl, ?_, ?_, ?_, ?_⟩
  · simp only [TrackSegment.Line, LineTrackPoints, geo.fillLoop_replicate, List.map_map]
    have : ((fun point : TrackPoint F => point.Point.Pos)
        ∘ fun pos => ({ Point := PosPoint pos, Time := none } : TrackPoint F)) = id := by
      funext q; exact hpp q
    rw [this, List.map_id]
  · simp [LinePoints, geo.fillLoop_replicate]
  · simp [LinePoints, geo.fillLoop_replicate]
  · simp only [LinePoints, geo.fillLoop_replicate, List.map_map]
    have : (Point.Pos ∘ PosPoint : geo.Pos F → geo.Pos F) = id := by
      funext q; exact hpp q
    rw [this, List.map_id]

end gpx

namespace geo

section
variable {F : Type} [Float64 F]

/-- The distances between the consecutive pairs of a polyline, in order. -/
theorem Length_loop_spec (pre rest : Line F) (q : Pos F) (total : F) :
    Line.Length.loop (pre ++ q :: rest) rest (pre.length + 1) total
      = (List.zipWith Pos.Distance (q :: rest) rest).foldl (fun t d => t + d) total := by
  induction rest generalizing pre q total with
  | nil => simp [Line.Length.loop]
  | cons pos rest ih =>
    have hprev : (pre ++ q :: pos :: rest)[pre.length + 1 - 1]? = some q := by
      rw [Nat.add_sub_cancel, List.getElem?_append_right (Nat.le_refl _)]
      simp
    have hl : pre ++ q :: pos :: rest = (pre ++ [q]) ++ pos :: rest := by simp
    have := ih (pre ++ [q]) pos (total + q.Distance pos)
    rw [Line.Length.loop, if_neg (Nat.succ_ne_zero _), hprev]
    simp only [List.zipWith_cons_cons, List.foldl_cons]
    rw [hl]
    simpa using this

/-- `Length` adds the distances of the consecutive pairs one at a time, from zero. -/
theorem Length_eq_foldl (l : Line F) :
    l.Length
      = (List.zipWith Pos.Distance l l.tail).foldl (fun t d => t + d) (Float64.const 0 0) := by
  cases l with
  | nil => rfl
  | cons a rest =>
    have := Length_loop_spec [] rest a (Float64.const 0 0)
    simpa [Line.Length, Line.Length.loop] using this

theorem zipWith_tail_append (A B : Line F) (a b : Pos F) (hA : A.getLast? = some a)
    (hB : B.head? = some b) :
    List.zipWith Pos.Distance (A ++ B) (A ++ B).tail
      = List.zipWith Pos.Distance A A.tail ++ a.Distance b
          :: List.zipWith Pos.Distance B B.tail := by
  cases B with
  | nil => simp at hB
  | cons b' B' =>
    simp only [List.head?_cons, Option.some.injEq] at hB
    subst hB
    induction A with
    | nil => simp at hA
    | cons x A ih =>
      cases A with
      | nil =>
        simp only [List.getLast?_singleton, Option.some.injEq] at hA
        subst hA
        simp
      | cons y A =>
        have := ih (by simpa [List.getLast?_cons_cons] using hA)
        simp only [List.cons_append, List.tail_cons, List.zipWith_cons_cons] at this ⊢
        rw [this]

/-- C19, amended: for non-empty polylines `A` and `B`, the length of `MergeLines([A, B])` is
`Length(A) + Distance(End(A), Start(B))`, to which the distances of the consecutive pairs of
`B` are then added one at a time, in order: the gap is neither bridged nor dropped, and the
sum is taken from left to right. -/
theorem Length_MergeLines (A B : Line F) (a b : Pos F) (hA : Line.End A = some a)
    (hB : Line.Start B = some b) :
    (MergeLines [A, B]).Length
      = (List.zipWith Pos.Distance B B.tail).foldl (fun t d => t + d)
          (A.Length + a.Distance b) := by
  have hm : MergeLines [A, B] = A ++ B := by
    simp [MergeLines, MergeLinesWith_eq_flatten]
  have hA2 : A.getLast? = some a := by
    cases A with
    | nil => simp [Line.End] at hA
    | cons x xs =>
      simp only [Line.End, List.length_cons, Nat.succ_ne_zero, if_false] at hA
      rw [List.getLast?_eq_getElem?]
      simpa using hA
  have hB2 : B.head? = some b := by
    cases B with
    | nil => simp [Line.Start] at hB
    | cons y ys => simpa [Line.Start] using hB
  rw [hm, Length_eq_foldl, zipWith_tail_append A B a b hA2 hB2, List.foldl_append,
    List.foldl_cons, ← Length_eq_foldl]

/-- C16: `Length` is the sum, from zero and in index order, of `Distance(L[i-1], L[i])` over
the consecutive pairs `1 <= i < len(L)`; it is zero for the empty polyline and for a
polyline of one point. -/
theorem Length_sum_consecutive (l : Line F) (p : Pos F) :
    l.Length = (List.zipWith Pos.Distance l l.tail).foldl (fun t d => t + d) (Float64.const 0 0)
      ∧ (List.zipWith Pos.Distance l l.tail).length = l.length - 1
      ∧ (∀ i : Nat, (List.zipWith Pos.Distance l l.tail)[i]?
            = (l[i]?).bind (fun a => (l[i + 1]?).map (fun b => a.Distance b)))
      ∧ Line.Length ([] : Line F) = Float64.const 0 0
      ∧ Line.Length [p] = Float64.const 0 0 := by
  refine ⟨Length_eq_foldl l, ?_, ?_, rfl, rfl⟩
  · simp [List.length_zipWith]
  · intro i
    rw [List.getElem?_zipWith]
    cases h1 : l[i]? with
    | none => simp
    | some a =>
      have : l.tail[i]? = l[i + 1]? := by
        cases l with
        | nil => simp
        | cons x xs => simp
      rw [this]
      cases h2 : l[i + 1]? <;> simp

end

end geo

namespace geo

/-- C18: `Reverse` leaves the element-wise reversed sequence in the slice: the number of
points is unchanged and the point at index `i` is the original point at index `n-1-i`; a
polyline of at most one point is left unchanged; and for a non-empty polyline the new
`Start` is the old `End` and the new `End` is the old `Start`. -/
theorem Reverse_elementwise {α : Type} (l : List α) (a : α) (rest : List α) :
    (Line.Reverse l).length = l.length
      ∧ (∀ i : Nat, (Line.Reverse l)[i]? = if i < l.length then l[l.length - 1 - i]? else none)
      ∧ Line.Reverse ([] : List α) = []
      ∧ Line.Reverse [a] = [a]
      ∧ Line.Start (Line.Reverse (a :: rest)) = Line.End (a :: rest)
      ∧ Line.End (Line.Reverse (a :: rest)) = Line.Start (a :: rest)
      ∧ Line.Start (a :: rest) = some a := by
  refine ⟨by simp [Reverse_eq_reverse], ?_, rfl, rfl, ?_, ?_, by simp [Line.Start]⟩
  · intro i
    rw [Reverse_eq_reverse]
    by_cases h : i < l.length
    · rw [if_pos h, List.getElem?_reverse h]
    · rw [if_neg h, List.getElem?_eq_none (by simpa using h)]
  · rw [Reverse_eq_reverse]
    simp only [Line.Start, Line.End]
    rw [List.getElem?_reverse (by simp)]
    simp
  · rw [Reverse_eq_reverse]
    simp only [Line.Start, Line.End, List.length_reverse]
    rw [List.getElem?_reverse (by simp)]
    simp

end geo

namespace kml

/-- The number of pieces is one more than the number of separators. -/
theorem Split_length (s : GoString) (sep : Char) : (Split s sep).length = s.count sep + 1 := by
  induction s with
  | nil => rfl
  | cons c cs ih =>
    by_cases h : c = sep
    · subst h
      simp [Split, ih]
    · have hne := Split_ne_nil cs sep
      cases hs : Split cs sep with
      | nil => exact absurd hs hne
      | cons piece pieces =>
        rw [hs] at ih
        simp only [Split, if_neg h, hs]
        rw [List.count_cons_of_ne (Ne.symm h)]
        simpa using ih

/-- The three indexings succeed exactly when there are at least three parts. -/
theorem parsePos_isSome (F : Type) [Float64 F] (parts : List GoString) :
    (parsePos F parts).isSome = true ↔ 3 ≤ parts.length := by
  match parts with
  | [] => simp [parsePos]
  | [_] => simp [parsePos]
  | [_, _] => simp [parsePos]
  | _ :: _ :: _ :: _ => simp [parsePos]

theorem parsePos_Split_isSome (F : Type) [Float64 F] (s : GoString) :
    (parsePos F (Split s ',')).isSome = true ↔ 2 ≤ s.count ',' := by
  rw [parsePos_isSome, Split_length]
  omega

theorem Line_loop_isSome (F : Type) [Float64 F] (items : List GoString) :
    (LineString.Line.loop F items).isSome = true ↔ ∀ item ∈ items, 2 ≤ item.count ',' := by
  induction items with
  | nil => simp [LineString.Line.loop]
  | cons csv rest ih =>
    have h1 := parsePos_Split_isSome F csv
    simp only [LineString.Line.loop, List.mem_cons, forall_eq_or_imp, ← ih, ← h1]
    cases parsePos F (Split csv ',') with
    | none => simp
    | some p =>
      cases LineString.Line.loop F rest <;> simp

/-- C20: the overlay decoders return a result exactly on texts whose every point has at
least three comma-separated fields, and fail (index out of range) otherwise: `Point.Pos`
returns a position iff its trimmed coordinate string holds at least two commas;
`LineString.Line` returns a polyline iff every single-space-separated item of its trimmed
coordinate text holds at least two commas.  `Line` fails on the empty text, which is what
`LineCoordinates` returns for the empty polyline, so the empty polyline does not round-trip. -/
theorem decoders_total_iff (F : Type) [Float64 F] (p : Point) (l : LineString)
    (extrude tessellate : Bool) (mode : GoString) :
    ((Point.Pos F p).isSome = true ↔ 2 ≤ (TrimSpace p.Coordinates).count ',')
      ∧ (Point.Pos F p = none ↔ (TrimSpace p.Coordinates).count ',' < 2)
      ∧ ((LineString.Line F l).isSome = true
          ↔ ∀ item ∈ Split (TrimSpace l.Coordinates) ' ', 2 ≤ item.count ',')
      ∧ (LineString.Line F l = none
          ↔ ∃ item ∈ Split (TrimSpace l.Coordinates) ' ', item.count ',' < 2)
      ∧ LineString.Line F ⟨extrude, tessellate, mode, []⟩ = none
      ∧ LineCoordinates ([] : geo.Line F) = []
      ∧ LineString.Line F ⟨extrude, tessellate, mode, LineCoordinates ([] : geo.Line F)⟩
          = none := by
  have hp : (Point.Pos F p).isSome = true ↔ 2 ≤ (TrimSpace p.Coordinates).count ',' :=
    parsePos_Split_isSome F _
  have hl : (LineString.Line F l).isSome = true
      ↔ ∀ item ∈ Split (TrimSpace l.Coordinates) ' ', 2 ≤ item.count ',' :=
    Line_loop_isSome F _
  refine ⟨hp, ?_, hl, ?_, rfl, rfl, rfl⟩
  · rw [← Option.not_isSome_iff_eq_none, hp]
    omega
  · rw [← Option.not_isSome_iff_eq_none, hl]
    push_neg
    rfl

end kml

namespace kml

section
variable (F : Type) [Float64 F]

theorem parsePos_lenient (valid : GoString → Bool)
    (hzero : ∀ s : GoString, valid s = false →
      (Float64.ParseFloat s : F × Bool).1 = Float64.const 0 0)
    (csv : GoString) (h : 3 ≤ (Split csv ',').length) :
    parsePos F (Split csv ',') = some (lenientPos F valid csv) := by
  have hv : ∀ s : GoString, (Float64.ParseFloat s : F × Bool).1 = lenientValue F valid s := by
    intro s
    unfold lenientValue
    cases hs : valid s
    · simpa using hzero s hs
    · simp
  match hparts : Split csv ',', h with
  | a :: b :: c :: rest, _ =>
    simp [parsePos, lenientPos, hparts, hv]

theorem Line_loop_lenient (valid : GoString → Bool)
    (hzero : ∀ s : GoString, valid s = false →
      (Float64.ParseFloat s : F × Bool).1 = Float64.const 0 0)
    (items : List GoString) (h : ∀ item ∈ items, 3 ≤ (Split item ',').length) :
    LineString.Line.loop F items = some (items.map (lenientPos F valid)) := by
  induction items with
  | nil => rfl
  | cons csv rest ih =>
    have h1 := parsePos_lenient F valid hzero csv (h csv (by simp))
    have h2 := ih (fun item hi => h item (by simp [hi]))
    simp [LineString.Line.loop, h1, h2]

/-- C11: lenient coordinate decoding.  When the point text has three comma-separated fields
(the trimmed string for `Point.Pos`, every single-space-separated item for
`LineString.Line`), the decoders return a result, without any error; each field that is not
valid numeric text gives the value 0 for its component, and the valid fields of the same
point give their numeric values.  `valid` tells the syntactically valid numeric texts;
what is used of `strconv.ParseFloat` is that it returns 0 on a syntax error. -/
theorem lenient_decoding (valid : GoString → Bool)
    (hzero : ∀ s : GoString, valid s = false →
      (Float64.ParseFloat s : F × Bool).1 = Float64.const 0 0)
    (p : Point) (hp : 3 ≤ (Split (TrimSpace p.Coordinates) ',').length)
    (l : LineString)
    (hl : ∀ item ∈ Split (TrimSpace l.Coordinates) ' ', 3 ≤ (Split item ',').length) :
    Point.Pos F p = some (lenientPos F valid (TrimSpace p.Coordinates))
      ∧ LineString.Line F l
          = some ((Split (TrimSpace l.Coordinates) ' ').map (lenientPos F valid)) :=
  ⟨parsePos_lenient F valid hzero _ hp, Line_loop_lenient F valid hzero _ hl⟩

end

end kml

/-- Witness for C11, in rational arithmetic with plain decimal texts as the valid ones: the
point text ` abc,54.5,7x ` and the line text `1,zz,3 4,5,six`. -/
theorem lenient_decoding_witness :
    (∀ s : GoString, (RatModel.parseDecimal s).isSome = false →
        (Float64.ParseFloat s : ℚ × Bool).1 = Float64.const 0 0)
      ∧ 3 ≤ (kml.Split (kml.TrimSpace " abc,54.5,7x ".toList) ',').length
      ∧ (∀ item ∈ kml.Split (kml.TrimSpace "1,zz,3 4,5,six".toList) ' ',
          3 ≤ (kml.Split item ',').length)
      ∧ kml.Point.Pos ℚ ⟨" abc,54.5,7x ".toList⟩ = some ⟨109 / 2, 0, 0⟩
      ∧ kml.LineString.Line ℚ ⟨false, false, [], "1,zz,3 4,5,six".toList⟩
          = some [⟨0, 1, 3⟩, ⟨5, 4, 0⟩] := by
  have hzero : ∀ s : GoString, (RatModel.parseDecimal s).isSome = false →
      (Float64.ParseFloat s : ℚ × Bool).1 = Float64.const 0 0 := by
    intro s hs
    have : RatModel.parseDecimal s = none := by
      cases h : RatModel.parseDecimal s with
      | none => rfl
      | some v => simp [h] at hs
    simp [Float64.ParseFloat, RatModel.ParseFloat, this, Float64.const]
  have hp : 3 ≤ (kml.Split (kml.TrimSpace " abc,54.5,7x ".toList) ',').length := by decide
  have hl : ∀ item ∈ kml.Split (kml.TrimSpace "1,zz,3 4,5,six".toList) ' ',
      3 ≤ (kml.Split item ',').length := by decide
  have h := kml.lenient_decoding ℚ (fun s => (RatModel.parseDecimal s).isSome) hzero
    ⟨" abc,54.5,7x ".toList⟩ hp ⟨false, false, [], "1,zz,3 4,5,six".toList⟩ hl
  refine ⟨hzero, hp, hl, ?_, ?_⟩
  · rw [h.1]
    have e0 : kml.Split (kml.TrimSpace " abc,54.5,7x ".toList) ','
        = ["abc".toList, "54.5".toList, "7x".toList] := by decide
    have e1 : RatModel.parseDecimal "abc".toList = none := by decide
    have e2 : RatModel.parseDecimal "54.5".toList = some (545, 1) := by decide
    have e3 : RatModel.parseDecimal "7x".toList = none := by decide
    simp only [kml.lenientPos, kml.lenientValue, e0, List.getD_cons_zero, List.getD_cons_succ,
      e1, e2, e3, Float64.ParseFloat, RatModel.ParseFloat, Float64.const]
    norm_num
  · rw [h.2]
    have e0 : kml.Split (kml.TrimSpace "1,zz,3 4,5,six".toList) ' '
        = ["1,zz,3".toList, "4,5,six".toList] := by decide
    have f1 : kml.Split "1,zz,3".toList ',' = ["1".toList, "zz".toList, "3".toList] := by
      decide
    have f2 : kml.Split "4,5,six".toList ',' = ["4".toList, "5".toList, "six".toList] := by
      decide
    have e1 : RatModel.parseDecimal "1".toList = some (1, 0) := by decide
    have e2 : RatModel.parseDecimal "zz".toList = none := by decide
    have e3 : RatModel.parseDecimal "3".toList = some (3, 0) := by decide
    have e4 : RatModel.parseDecimal "4".toList = some (4, 0) := by decide
    have e5 : RatModel.parseDecimal "5".toList = some (5, 0) := by decide
    have e6 : RatModel.parseDecimal "six".toList = none := by decide
    have p1 : kml.lenientPos ℚ (fun s => (RatModel.parseDecimal s).isSome) "1,zz,3".toList
        = ⟨0, 1, 3⟩ := by
      simp only [kml.lenientPos, kml.lenientValue, f1, List.getD_cons_zero,
        List.getD_cons_succ, e1, e2, e3, Float64.ParseFloat, RatModel.ParseFloat,
        Float64.const]
      norm_num
    have p2 : kml.lenientPos ℚ (fun s => (RatModel.parseDecimal s).isSome) "4,5,six".toList
        = ⟨5, 4, 0⟩ := by
      simp only [kml.lenientPos, kml.lenientValue, f2, List.getD_cons_zero,
        List.getD_cons_succ, e4, e5, e6, Float64.ParseFloat, RatModel.ParseFloat,
        Float64.const]
      norm_num
    show some (List.map (kml.lenientPos ℚ fun s => (RatModel.parseDecimal s).isSome)
      (kml.Split (kml.TrimSpace "1,zz,3 4,5,six".toList) ' ')) = _
    rw [e0, List.map_cons, List.map_cons, List.map_nil, p1, p2]

namespace kml

theorem FixedText.not_mem {n : Nat} {s : GoString} (h : FixedText n s) (c : Char)
    (hd : c.isDigit = false) (hm : c ≠ '-') (hp : c ≠ '.') : c ∉ s := by
  obtain ⟨sign, ip, fp, rfl, hsign, _, hip, _, hfp⟩ := h
  intro hc
  simp only [List.mem_append] at hc
  rcases hc with (hc | hc) | hc
  · rcases hsign with rfl | rfl
    · simp at hc
    · simp at hc; exact hm hc
  · rw [hip c hc] at hd; exact Bool.noConfusion hd
  · by_cases hn : n = 0
    · simp [hn] at hc
    · simp only [hn, if_false, List.mem_cons] at hc
      rcases hc with hc | hc
      · exact hp hc
      · rw [hfp c hc] at hd; exact Bool.noConfusion hd

theorem FixedText.ne_nil {n : Nat} {s : GoString} (h : FixedText n s) : s ≠ [] := by
  obtain ⟨sign, ip, fp, rfl, _, hip, _⟩ := h
  simp [hip]

/-- A fixed-point text without fractional digits has no decimal point. -/
theorem FixedText.zero_no_point {s : GoString} (h : FixedText 0 s) : '.' ∉ s := by
  obtain ⟨sign, ip, fp, rfl, hsign, _, hip, _, _⟩ := h
  intro hc
  simp only [if_true, List.append_nil, List.mem_append] at hc
  rcases hc with hc | hc
  · rcases hsign with rfl | rfl
    · simp at hc
    · simp at hc
  · have := hip '.' hc
    exact Bool.noConfusion (this.symm.trans (by decide : ('.' : Char).isDigit = false))

theorem count_joinWith (sep : Char) (items : List GoString) (h : ∀ it ∈ items, sep ∉ it) :
    (joinWith sep items).count sep = items.length - 1 := by
  induction items with
  | nil => rfl
  | cons x rest ih =>
    have hx : x.count sep = 0 := List.count_eq_zero.2 (h x (by simp))
    cases rest with
    | nil => simpa [joinWith] using hx
    | cons y rest =>
      have := ih (fun it hit => h it (by simp [hit]))
      simp only [joinWith, List.count_append, List.count_cons_self, hx, this,
        List.length_cons]
      omega

section
variable {F : Type} [Float64 F]

theorem Formatted.no_space {pos : geo.Pos F} (h : Formatted pos) :
    ' ' ∉ PosCoordinates pos := by
  have h1 := h.1.not_mem ' ' (by decide) (by decide) (by decide)
  have h2 := h.2.1.not_mem ' ' (by decide) (by decide) (by decide)
  have h3 := h.2.2.not_mem ' ' (by decide) (by decide) (by decide)
  simp [PosCoordinates, h1, h2, h3]

/-- C13: `PosCoordinates` returns one string `<lon>,<lat>,<ele>`: the text of the
longitude, a comma, the text of the latitude, a comma, the text of the elevation, with
exactly two commas; longitude and latitude carry exactly 5 fractional digits and the
elevation none, without a decimal point.  `LineCoordinates` joins the per-point strings with
exactly one space between consecutive points and none at the ends.  The components of the
positions are taken to be written by `Sprintf` as fixed-point decimals (finite values). -/
theorem PosCoordinates_layout (pos : geo.Pos F) (line : geo.Line F) (hpos : Formatted pos)
    (hline : ∀ q ∈ line, Formatted q) :
    PosCoordinates pos
        = Float64.FormatFixed 5 pos.Lon ++ [','] ++ Float64.FormatFixed 5 pos.Lat ++ [',']
            ++ Float64.FormatFixed 0 pos.Ele
      ∧ Split (PosCoordinates pos) ','
          = [Float64.FormatFixed 5 pos.Lon, Float64.FormatFixed 5 pos.Lat,
              Float64.FormatFixed 0 pos.Ele]
      ∧ (PosCoordinates pos).count ',' = 2
      ∧ FixedText 5 (Float64.FormatFixed 5 pos.Lon)
      ∧ FixedText 5 (Float64.FormatFixed 5 pos.Lat)
      ∧ FixedText 0 (Float64.FormatFixed 0 pos.Ele)
      ∧ '.' ∉ Float64.FormatFixed 0 pos.Ele
      ∧ LineCoordinates line = joinWith ' ' (line.map PosCoordinates)
      ∧ (∀ q ∈ line, ' ' ∉ PosCoordinates q)
      ∧ (LineCoordinates line).count ' ' = line.length - 1
      ∧ (∀ c, (LineCoordinates line).head? = some c → c ≠ ' ')
      ∧ (∀ c, (LineCoordinates line).getLast? = some c → c ≠ ' ') := by
  have c1 := hpos.1.not_mem ',' (by decide) (by decide) (by decide)
  have c2 := hpos.2.1.not_mem ',' (by decide) (by decide) (by decide)
  have c3 := hpos.2.2.not_mem ',' (by decide) (by decide) (by decide)
  have hsplit : Split (PosCoordinates pos) ','
      = [Float64.FormatFixed 5 pos.Lon, Float64.FormatFixed 5 pos.Lat,
          Float64.FormatFixed 0 pos.Ele] := by
    rw [PosCoordinates_eq_text, Triple.text, Split_append _ _ _ c1, Split_append _ _ _ c2,
      Split_of_not_mem _ _ c3]
  have hcount : (PosCoordinates pos).count ',' = 2 := by
    have := Split_length (PosCoordinates pos) ','
    rw [hsplit] at this
    simpa using this.symm
  have hsp : ∀ it ∈ line.map PosCoordinates, ' ' ∉ it := by
    intro it hit
    obtain ⟨q, hq, rfl⟩ := List.mem_map.1 hit
    exact (hline q hq).no_space
  have hjoin := LineCoordinates_eq_joinWith line
  refine ⟨rfl, hsplit, hcount, hpos.1, hpos.2.1, hpos.2.2, hpos.2.2.zero_no_point, hjoin,
    fun q hq => (hline q hq).no_space, ?_, ?_, ?_⟩
  · rw [hjoin, count_joinWith ' ' _ hsp]
    simp
  · intro c hc hcs
    subst hcs
    rw [hjoin] at hc
    cases line with
    | nil => simp [joinWith] at hc
    | cons q rest =>
      have hq := hline q (by simp)
      have hne : PosCoordinates q ≠ [] := by
        simp [PosCoordinates]
      rw [List.map_cons, joinWith_head? _ _ _ hne] at hc
      exact hq.no_space (List.mem_of_mem_head? hc)
  · intro c hc hcs
    subst hcs
    rw [hjoin] at hc
    cases hlast : line.getLast? with
    | none => simp [List.getLast?_eq_none_iff.1 hlast, joinWith] at hc
    | some q =>
      have hq := hline q (List.mem_of_getLast?_eq_some hlast)
      have hl : (line.map PosCoordinates).getLast? = some (PosCoordinates q) := by
        simp [List.getLast?_map, hlast]
      have hne : PosCoordinates q ≠ [] := by
        simp [PosCoordinates]
      rw [joinWith_getLast? _ _ _ hl hne] at hc
      exact hq.no_space (List.mem_of_getLast?_eq_some hc)

end

end kml

namespace RatModel

theorem FormatFixed_lon : FormatFixed 5 (-13 / 4 : ℚ) = "-3.25000".toList := by
  have e : |(-13 / 4 : ℚ)| * 10 ^ 5 = 325000 := by
    rw [abs_of_neg (by norm_num)]; norm_num
  have h : roundEven (|(-13 / 4 : ℚ)| * 10 ^ 5) = 325000 := by
    rw [e]; norm_num [roundEven]
  simp only [FormatFixed, h]
  norm_num
  decide

theorem FormatFixed_lat : FormatFixed 5 (109 / 2 : ℚ) = "54.50000".toList := by
  have e : |(109 / 2 : ℚ)| * 10 ^ 5 = 5450000 := by
    rw [abs_of_pos (by norm_num)]; norm_num
  have h : roundEven (|(109 / 2 : ℚ)| * 10 ^ 5) = 5450000 := by
    rw [e]; norm_num [roundEven]
  simp only [FormatFixed, h]
  norm_num
  decide

theorem FormatFixed_ele : FormatFixed 0 (100 : ℚ) = "100".toList := by
  have h : roundEven (|(100 : ℚ)| * 10 ^ 0) = 100 := by norm_num [roundEven]
  simp only [FormatFixed, h]
  norm_num
  decide

end RatModel

/-- Witness for C13, in rational arithmetic: the position of latitude 54.5, longitude -3.25
and elevation 100, alone and twice in a polyline. -/
theorem PosCoordinates_layout_witness :
    kml.Formatted (⟨109 / 2, -13 / 4, 100⟩ : geo.Pos ℚ)
      ∧ (∀ q ∈ ([⟨109 / 2, -13 / 4, 100⟩, ⟨109 / 2, -13 / 4, 100⟩] : geo.Line ℚ),
          kml.Formatted q)
      ∧ kml.PosCoordinates (⟨109 / 2, -13 / 4, 100⟩ : geo.Pos ℚ)
          = "-3.25000,54.50000,100".toList
      ∧ kml.LineCoordinates ([⟨109 / 2, -13 / 4, 100⟩, ⟨109 / 2, -13 / 4, 100⟩] : geo.Line ℚ)
          = "-3.25000,54.50000,100 -3.25000,54.50000,100".toList := by
  have hpos : kml.Formatted (⟨109 / 2, -13 / 4, 100⟩ : geo.Pos ℚ) := by
    refine ⟨?_, ?_, ?_⟩
    · show kml.FixedText 5 (RatModel.FormatFixed 5 (-13 / 4 : ℚ))
      rw [RatModel.FormatFixed_lon]
      exact ⟨"-".toList, "3".toList, "25000".toList, by decide, by decide, by decide,
        by decide, by decide, by decide⟩
    · show kml.FixedText 5 (RatModel.FormatFixed 5 (109 / 2 : ℚ))
      rw [RatModel.FormatFixed_lat]
      exact ⟨[], "54".toList, "50000".toList, by decide, by decide, by decide,
        by decide, by decide, by decide⟩
    · show kml.FixedText 0 (RatModel.FormatFixed 0 (100 : ℚ))
      rw [RatModel.FormatFixed_ele]
      exact ⟨[], "100".toList, [], by decide, by decide, by decide,
        by decide, by decide, by decide⟩
  have hline : ∀ q ∈ ([⟨109 / 2, -13 / 4, 100⟩, ⟨109 / 2, -13 / 4, 100⟩] : geo.Line ℚ),
      kml.Formatted q := by
    intro q hq
    simp only [List.mem_cons, List.mem_singleton, List.not_mem_nil, or_false, or_self] at hq
    rw [hq]
    exact hpos
  have h := kml.PosCoordinates_layout _ _ hpos hline
  have hp : kml.PosCoordinates (⟨109 / 2, -13 / 4, 100⟩ : geo.Pos ℚ)
      = "-3.25000,54.50000,100".toList := by
    rw [h.1]
    show RatModel.FormatFixed 5 (-13 / 4 : ℚ) ++ [','] ++ RatModel.FormatFixed 5 (109 / 2 : ℚ)
      ++ [','] ++ RatModel.FormatFixed 0 (100 : ℚ) = _
    rw [RatModel.FormatFixed_lon, RatModel.FormatFixed_lat, RatModel.FormatFixed_ele]
    decide
  refine ⟨hpos, hline, hp, ?_⟩
  rw [h.2.2.2.2.2.2.2.1, List.map_cons, List.map_cons, List.map_nil, hp]
  decide

namespace RatModel

theorem FormatFixed_one : FormatFixed 1 (1 : ℚ) = "1.0".toList := by
  have h : roundEven (|(1 : ℚ)| * 10 ^ 1) = 10 := by norm_num [roundEven]
  simp only [FormatFixed, h]
  norm_num
  decide

theorem FormatShortest_one : FormatShortest (1 : ℚ) = "1".toList := by
  have h : roundEven (|(1 : ℚ)| * 10 ^ 0) = 1 := by norm_num [roundEven]
  have hd : decimals 17 (1 : ℚ) = 0 := by simp [decimals]
  simp only [FormatShortest, hd, FormatFixed, h]
  norm_num
  decide

end RatModel

namespace kml

/-- C15, at the failing input: the fields `LineStyle.Width`, `LabelStyle.Scale` and
`ListStyle.Scale` have type `geo.FloatOne` and are written with `%.1f`; the field
`IconStyle.Scale` has type `float64` and is written in the encoder's shortest form.  In
rational arithmetic the scale 1 is written `1.0` in a `LabelStyle` and `1` in an
`IconStyle`. -/
theorem IconStyle_scale_text (F : Type) [Float64 F] (formatG : F → GoString)
    (line : LineStyle F) (icon : IconStyle F) (label : LabelStyle F) (list : ListStyle F) :
    line.widthText = Float64.FormatFixed 1 line.Width.val
      ∧ label.scaleText = Float64.FormatFixed 1 label.Scale.val
      ∧ list.scaleText = Float64.FormatFixed 1 list.Scale.val
      ∧ icon.scaleText formatG = formatG icon.Scale
      ∧ LabelStyle.scaleText ({ Color := [], Scale := ⟨1⟩ } : LabelStyle ℚ) = "1.0".toList
      ∧ IconStyle.scaleText RatModel.FormatShortest
          ({ Color := [], Scale := 1, Icon := none, HotSpot := none } : IconStyle ℚ)
          = "1".toList :=
  ⟨rfl, rfl, rfl, rfl, RatModel.FormatFixed_one, RatModel.FormatShortest_one⟩

end kml

namespace geo

/-- The three `MarshalText` methods return the text `Sprintf` writes with 5, 0 and 1
fractional digits, and a nil error. -/
theorem MarshalText_nil_error {F : Type} [Float64 F] (x : F) :
    FloatFive.MarshalText ⟨x⟩ = (Float64.FormatFixed 5 x, none)
      ∧ FloatZero.MarshalText ⟨x⟩ = (Float64.FormatFixed 0 x, none)
      ∧ FloatOne.MarshalText ⟨x⟩ = (Float64.FormatFixed 1 x, none) :=
  ⟨rfl, rfl, rfl⟩

end geo

namespace RatModel

/-- The number a string of decimal digits denotes. -/
theorem digitChar_isDigit (d : Nat) (h : d < 10) : (Nat.digitChar d).isDigit = true := by
  interval_cases d <;> decide

theorem digitChar_toNat (d : Nat) (h : d < 10) : (Nat.digitChar d).toNat - 48 = d := by
  interval_cases d <;> decide

theorem toDigitsCore_isDigit (fuel n : Nat) (acc : List Char)
    (hacc : ∀ c ∈ acc, c.isDigit = true) :
    ∀ c ∈ Nat.toDigitsCore 10 fuel n acc, c.isDigit = true := by
  induction fuel generalizing n acc with
  | zero => simpa [Nat.toDigitsCore] using hacc
  | succ f ih =>
    have hd := digitChar_isDigit (n % 10) (Nat.mod_lt _ (by decide))
    have hacc2 : ∀ c ∈ Nat.digitChar (n % 10) :: acc, c.isDigit = true := by
      intro c hc
      rcases List.mem_cons.1 hc with rfl | hc
      · exact hd
      · exact hacc c hc
    simp only [Nat.toDigitsCore]
    split
    · exact hacc2
    · exact ih _ _ hacc2

theorem toDigits_isDigit (n : Nat) : ∀ c ∈ Nat.toDigits 10 n, c.isDigit = true :=
  toDigitsCore_isDigit _ _ [] (by simp)

/-- The value of a string of digits, read from the left. -/
theorem foldl_digits_append (xs ys : List Char) (a : Nat) :
    (xs ++ ys).foldl (fun n c => 10 * n + (c.toNat - 48)) a
      = ys.foldl (fun n c => 10 * n + (c.toNat - 48))
          (xs.foldl (fun n c => 10 * n + (c.toNat - 48)) a) := by
  simp [List.foldl_append]

theorem foldl_digits_shift (ys : List Char) (a : Nat) :
    ys.foldl (fun n c => 10 * n + (c.toNat - 48)) a
      = a * 10 ^ ys.length + ys.foldl (fun n c => 10 * n + (c.toNat - 48)) 0 := by
  induction ys generalizing a with
  | nil => simp
  | cons c cs ih =>
    simp only [List.foldl_cons, List.length_cons]
    rw [ih (10 * a + (c.toNat - 48)), ih (10 * 0 + (c.toNat - 48))]
    ring

theorem toDigitsCore_value (fuel n : Nat) (acc : List Char) (h : n < fuel) :
    (Nat.toDigitsCore 10 fuel n acc).foldl (fun k c => 10 * k + (c.toNat - 48)) 0
      = n * 10 ^ acc.length + acc.foldl (fun k c => 10 * k + (c.toNat - 48)) 0 := by
  induction fuel generalizing n acc with
  | zero => omega
  | succ f ih =>
    have hd := digitChar_toNat (n % 10) (Nat.mod_lt _ (by decide))
    simp only [Nat.toDigitsCore]
    split
    · rename_i h0
      have hn : n = n % 10 := by omega
      simp only [List.foldl_cons, Nat.mul_zero, Nat.zero_add, hd]
      rw [foldl_digits_shift]
      rw [← hn]
    · rename_i h0
      have hlt : n / 10 < f := by omega
      rw [ih (n / 10) _ hlt]
      simp only [List.length_cons, List.foldl_cons, Nat.mul_zero, Nat.zero_add, hd]
      rw [foldl_digits_shift acc (n % 10)]
      have := Nat.div_add_mod n 10
      have e : n / 10 * 10 ^ (acc.length + 1) + n % 10 * 10 ^ acc.length
          = (10 * (n / 10) + n % 10) * 10 ^ acc.length := by ring
      rw [← Nat.add_assoc, e, this]

theorem toDigits_value (n : Nat) :
    (Nat.toDigits 10 n).foldl (fun k c => 10 * k + (c.toNat - 48)) 0 = n := by
  simpa using toDigitsCore_value (n + 1) n [] (Nat.lt_succ_self n)

theorem toDigitsCore_ne_nil (fuel n : Nat) (acc : List Char) (h : 0 < fuel) :
    Nat.toDigitsCore 10 fuel n acc ≠ [] := by
  induction fuel generalizing n acc with
  | zero => omega
  | succ f ih =>
    simp only [Nat.toDigitsCore]
    split
    · simp
    · cases f with
      | zero => simp [Nat.toDigitsCore]
      | succ g => exact ih _ _ (Nat.succ_pos g)

theorem toDigits_ne_nil (n : Nat) : Nat.toDigits 10 n ≠ [] :=
  toDigitsCore_ne_nil _ _ _ (Nat.succ_pos n)

theorem toDigits_length_le (b n : Nat) (h : b < 10 ^ n) (hn : 0 < n) :
    (Nat.toDigits 10 b).length ≤ n :=
  Nat.toDigitsCore_length 10 (by decide) (b + 1) b n h hn


theorem parseDecimal_eq (s : List Char) :
    parseDecimal s = parseBody (splitSign s).1 (splitSign s).2 := rfl

theorem splitSign_minus (r : List Char) : splitSign ('-' :: r) = (true, r) := rfl

theorem splitSign_digit (c : Char) (r : List Char) (h : c.isDigit = true) :
    splitSign (c :: r) = (false, c :: r) := by
  have hcm : c ≠ '-' := by rintro rfl; exact absurd h (by decide)
  have hcp : c ≠ '+' := by rintro rfl; exact absurd h (by decide)
  unfold splitSign
  split
  · rename_i h1; simp at h1; exact absurd h1.1 hcm
  · rename_i h1; simp at h1; exact absurd h1.1 hcp
  · rfl

theorem isDigit_ne_point {c : Char} (h : c.isDigit = true) : (c != '.') = true := by
  have : c ≠ '.' := by
    rintro rfl
    exact absurd h (by decide)
  simpa using this

theorem takeWhile_digits (ip rest : List Char) (h : ∀ c ∈ ip, c.isDigit = true) :
    (ip ++ '.' :: rest).takeWhile (fun c => c != '.') = ip
      ∧ (ip ++ '.' :: rest).dropWhile (fun c => c != '.') = '.' :: rest
      ∧ ip.takeWhile (fun c => c != '.') = ip
      ∧ '.' ∉ ip := by
  induction ip with
  | nil => simp
  | cons c cs ih =>
    have hc := isDigit_ne_point (h c (by simp))
    have hcs := ih (fun d hd => h d (by simp [hd]))
    have hne : c ≠ '.' := by simpa using hc
    refine ⟨?_, ?_, ?_, ?_⟩
    · simp [List.takeWhile, hc, hcs.1]
    · simp [List.dropWhile, hc, hcs.2.1]
    · simp [List.takeWhile, hc, hcs.2.2.1]
    · simp [hne.symm, hcs.2.2.2]

theorem parseDigits_digits (cs : List Char) (hne : cs ≠ []) (h : ∀ c ∈ cs, c.isDigit = true) :
    parseDigits cs = some (digitsVal cs) := by
  have hall : cs.all Char.isDigit = true := by simpa [List.all_eq_true] using h
  simp [parseDigits, hne, hall, digitsVal]

theorem parseBody_fixed (neg : Bool) (ip fp : List Char) (hne : ip ≠ [])
    (hip : ∀ c ∈ ip, c.isDigit = true) (hfp : ∀ c ∈ fp, c.isDigit = true) :
    parseBody neg (ip ++ '.' :: fp)
        = some (if neg then -(digitsVal (ip ++ fp) : Int) else (digitsVal (ip ++ fp) : Int),
            fp.length)
      ∧ parseBody neg ip
        = some (if neg then -(digitsVal ip : Int) else (digitsVal ip : Int), 0) := by
  have tw := takeWhile_digits ip fp hip
  have hall : ∀ d ∈ ip ++ fp, d.isDigit = true := by
    intro d hd
    rcases List.mem_append.1 hd with hd | hd
    · exact hip d hd
    · exact hfp d hd
  have hp1 := parseDigits_digits (ip ++ fp) (by simp [hne]) hall
  have hp2 := parseDigits_digits ip hne hip
  have hcont1 : (ip ++ '.' :: fp).contains '.' = true := by simp
  have hcont2 : ip.contains '.' = false := by
    have := tw.2.2.2
    simpa using this
  constructor
  · simp only [parseBody, tw.1, tw.2.1, hcont1, if_true, List.drop_succ_cons, List.drop_zero,
      hp1]
    rfl
  · simp only [parseBody, tw.2.2.1, hcont2, hp2]
    rfl

theorem splitSign_fixed (neg : Bool) (body : List Char) (c : Char) (r : List Char)
    (hb : body = c :: r) (hc : c.isDigit = true) :
    splitSign ((if neg then ['-'] else []) ++ body) = (neg, body) := by
  cases neg with
  | true => rfl
  | false =>
    subst hb
    simpa using splitSign_digit c r hc

/-- Reading back a fixed-point text: the digits as one number and the count of decimals. -/
theorem parseDecimal_fixed (neg : Bool) (ip fp : List Char) (hne : ip ≠ [])
    (hip : ∀ c ∈ ip, c.isDigit = true) (hfp : ∀ c ∈ fp, c.isDigit = true) :
    parseDecimal ((if neg then ['-'] else []) ++ (ip ++ '.' :: fp))
        = some (if neg then -(digitsVal (ip ++ fp) : Int) else (digitsVal (ip ++ fp) : Int),
            fp.length)
      ∧ parseDecimal ((if neg then ['-'] else []) ++ ip)
        = some (if neg then -(digitsVal ip : Int) else (digitsVal ip : Int), 0) := by
  obtain ⟨c, cs, hcs⟩ := List.exists_cons_of_ne_nil hne
  have hc : c.isDigit = true := hip c (by simp [hcs])
  have b := parseBody_fixed neg ip fp hne hip hfp
  constructor
  · rw [parseDecimal_eq, splitSign_fixed neg (ip ++ '.' :: fp) c (cs ++ '.' :: fp)
      (by simp [hcs]) hc]
    exact b.1
  · rw [parseDecimal_eq, splitSign_fixed neg ip c cs hcs hc]
    exact b.2

end RatModel

namespace F64

open RatModel in
/-- The text of `scaled * 10^(-n)`: digits, and a point followed by exactly `n` digits when
`n > 0`; read as one number the digits give `scaled`. -/
theorem fixedText_parts (n scaled : Nat) :
    ∃ ip fp : List Char, fixedText n scaled = ip ++ (if n = 0 then [] else '.' :: fp)
      ∧ ip ≠ [] ∧ (∀ c ∈ ip, c.isDigit = true) ∧ fp.length = n
      ∧ (∀ c ∈ fp, c.isDigit = true) ∧ digitsVal (ip ++ fp) = scaled := by
  by_cases hn : n = 0
  · subst hn
    refine ⟨Nat.toDigits 10 (scaled / 10 ^ 0), [], by simp [fixedText],
      toDigits_ne_nil _, toDigits_isDigit _, rfl, by simp, ?_⟩
    simp [digitsVal, toDigits_value]
  · have hpos : 0 < n := Nat.pos_of_ne_zero hn
    have hlt : scaled % 10 ^ n < 10 ^ n := Nat.mod_lt _ (by positivity)
    have hlen := toDigits_length_le (scaled % 10 ^ n) n hlt hpos
    refine ⟨Nat.toDigits 10 (scaled / 10 ^ n),
      List.replicate (n - (Nat.toDigits 10 (scaled % 10 ^ n)).length) '0'
        ++ Nat.toDigits 10 (scaled % 10 ^ n),
      by simp [fixedText, hn], toDigits_ne_nil _, toDigits_isDigit _, ?_, ?_, ?_⟩
    · simp only [List.length_append, List.length_replicate]
      omega
    · intro c hc
      rcases List.mem_append.1 hc with hc | hc
      · rw [(List.mem_replicate.1 hc).2]; decide
      · exact toDigits_isDigit _ c hc
    · have hrep : ∀ k a : Nat, (List.replicate k '0').foldl
          (fun n c => 10 * n + (c.toNat - 48)) a = a * 10 ^ k := by
        intro k
        induction k with
        | zero => simp
        | succ k ih =>
          intro a
          simp only [List.replicate_succ, List.foldl_cons]
          rw [ih]
          have : ('0' : Char).toNat - 48 = 0 := by decide
          rw [this]
          ring
      unfold digitsVal
      rw [List.foldl_append, toDigits_value, List.foldl_append, hrep, foldl_digits_shift,
        toDigits_value]
      have := Nat.div_add_mod scaled (10 ^ n)
      have hl : (Nat.toDigits 10 (scaled % 10 ^ n)).length
          + (n - (Nat.toDigits 10 (scaled % 10 ^ n)).length) = n := by omega
      calc scaled / 10 ^ n * 10 ^ (n - (Nat.toDigits 10 (scaled % 10 ^ n)).length)
              * 10 ^ (Nat.toDigits 10 (scaled % 10 ^ n)).length + scaled % 10 ^ n
          = scaled / 10 ^ n * 10 ^ ((Nat.toDigits 10 (scaled % 10 ^ n)).length
              + (n - (Nat.toDigits 10 (scaled % 10 ^ n)).length)) + scaled % 10 ^ n := by
            rw [Nat.pow_add]; ring
        _ = scaled := by rw [hl, Nat.mul_comm]; exact this

/-- The nearest integer is within one half of the quotient. -/
theorem roundDiv_bound (a b : Nat) (hb : 0 < b) :
    |((roundDiv a b : Nat) : ℚ) - (a : ℚ) / b| ≤ 1 / 2 := by
  have hbq : (0 : ℚ) < b := by exact_mod_cast hb
  have hdm : (a : ℚ) = (b : ℚ) * ((a / b : Nat) : ℚ) + ((a % b : Nat) : ℚ) := by
    exact_mod_cast (Nat.div_add_mod a b).symm
  have hr : ((a % b : Nat) : ℚ) < b := by exact_mod_cast Nat.mod_lt a hb
  have hr0 : (0 : ℚ) ≤ ((a % b : Nat) : ℚ) := by positivity
  have hquot : (a : ℚ) / b = ((a / b : Nat) : ℚ) + ((a % b : Nat) : ℚ) / b := by
    rw [hdm]; field_simp; ring
  unfold roundDiv
  simp only
  rw [hquot]
  by_cases h1 : 2 * (a % b) < b
  · rw [if_pos h1]
    have h1q : 2 * ((a % b : Nat) : ℚ) < b := by exact_mod_cast h1
    have : ((a % b : Nat) : ℚ) / b ≤ 1 / 2 := by
      rw [div_le_iff₀ hbq]; linarith
    rw [abs_le]
    constructor
    · have : 0 ≤ ((a % b : Nat) : ℚ) / b := by positivity
      linarith
    · have : 0 ≤ ((a % b : Nat) : ℚ) / b := by positivity
      linarith
  · rw [if_neg h1]
    have hup : |(((a / b + 1 : Nat)) : ℚ) - (((a / b : Nat) : ℚ) + ((a % b : Nat) : ℚ) / b)|
        ≤ 1 / 2 := by
      have h1q : (b : ℚ) ≤ 2 * ((a % b : Nat) : ℚ) := by exact_mod_cast Nat.le_of_not_lt h1
      have hge : 1 / 2 ≤ ((a % b : Nat) : ℚ) / b := by
        rw [le_div_iff₀ hbq]; linarith
      have hle : ((a % b : Nat) : ℚ) / b ≤ 1 := by
        rw [div_le_iff₀ hbq]; linarith
      push_cast
      rw [abs_le]
      constructor <;> linarith
    have hdown : 2 * (a % b) = b →
        |((a / b : Nat) : ℚ) - (((a / b : Nat) : ℚ) + ((a % b : Nat) : ℚ) / b)| ≤ 1 / 2 := by
      intro he
      have heq : 2 * ((a % b : Nat) : ℚ) = b := by exact_mod_cast he
      have : ((a % b : Nat) : ℚ) / b = 1 / 2 := by
        rw [div_eq_iff (ne_of_gt hbq)]; linarith
      rw [this, abs_le]
      constructor <;> linarith
    by_cases h2 : b < 2 * (a % b)
    · rw [if_pos h2]; exact hup
    · rw [if_neg h2]
      have he : 2 * (a % b) = b := by omega
      by_cases h3 : a / b % 2 = 0
      · rw [if_pos h3]; exact hdown he
      · rw [if_neg h3]; exact hup

end F64

namespace F64

/-- The integer that `FormatFixed` writes is within one half of `m * 2^e * 10^n`. -/
theorem scaledDecimal_bound (n m : Nat) (e : Int) :
    |((scaledDecimal n m e : Nat) : ℚ) - (m : ℚ) * (2 : ℚ) ^ e * 10 ^ n| ≤ 1 / 2 := by
  unfold scaledDecimal
  by_cases he : 0 ≤ e
  · rw [if_pos he]
    obtain ⟨k, rfl⟩ := Int.eq_ofNat_of_zero_le he
    simp only [Int.toNat_ofNat, zpow_natCast]
    push_cast
    simp
  · rw [if_neg he]
    have hk : e = -(((-e).toNat : Nat) : Int) := by
      rw [Int.toNat_of_nonneg (by omega)]; ring
    have hpow : (2 : ℚ) ^ e = 1 / (2 : ℚ) ^ (-e).toNat := by
      conv_lhs => rw [hk]
      rw [zpow_neg, zpow_natCast]
      simp
    have hb := roundDiv_bound (m * 10 ^ n) (2 ^ (-e).toNat) (by positivity)
    have heq : (((m * 10 ^ n : Nat) : ℚ)) / ((2 ^ (-e).toNat : Nat) : ℚ)
        = (m : ℚ) * (2 : ℚ) ^ e * 10 ^ n := by
      rw [hpow]; push_cast; field_simp
    rw [heq] at hb
    exact hb

/-- The digits that `FormatFixed` writes, read back as a signed integer and a scale. -/
theorem parseDecimal_FormatFixed (n : Nat) (s : Bool) (m : Nat) (e : Int) :
    RatModel.parseDecimal (FormatFixed n (fin s m e))
      = some (if s then -((scaledDecimal n m e : Nat) : Int)
          else ((scaledDecimal n m e : Nat) : Int), n) := by
  obtain ⟨ip, fp, htext, hne, hip, hlen, hfp, hval⟩ := fixedText_parts n (scaledDecimal n m e)
  have hform : FormatFixed n (fin s m e)
      = (if s then ['-'] else []) ++ (ip ++ (if n = 0 then [] else '.' :: fp)) := by
    simp only [FormatFixed, htext]
  have hp := RatModel.parseDecimal_fixed s ip fp hne hip hfp
  by_cases hn : n = 0
  · subst hn
    have hfp0 : fp = [] := List.length_eq_zero.1 hlen
    subst hfp0
    rw [hform]
    simp only [if_true, List.append_nil]
    rw [hp.2]
    simp only [List.append_nil] at hval
    rw [hval]
  · rw [hform]
    simp only [hn, if_false]
    rw [hp.1, hval, hlen]

open RatModel in
/-- The text `Sprintf("%.nf", x)` of a finite `x`: a fixed-point decimal with exactly `n`
fractional digits, whose value is within half a unit of the last digit of `x`. -/
theorem FormatFixed_fin (n : Nat) (s : Bool) (m : Nat) (e : Int) :
    kml.FixedText n (FormatFixed n (fin s m e))
      ∧ |decimalValue (FormatFixed n (fin s m e)) - toRat (fin s m e)| ≤ 1 / (2 * 10 ^ n) := by
  obtain ⟨ip, fp, htext, hne, hip, hlen, hfp, hval⟩ := fixedText_parts n (scaledDecimal n m e)
  have hform : FormatFixed n (fin s m e)
      = (if s then ['-'] else []) ++ (ip ++ (if n = 0 then [] else '.' :: fp)) := by
    simp only [FormatFixed, htext]
  constructor
  · exact ⟨if s then ['-'] else [], ip, fp, by rw [hform, List.append_assoc],
      by cases s <;> simp, hne, hip, hlen, hfp⟩
  · have hparse := parseDecimal_FormatFixed n s m e
    have hb := scaledDecimal_bound n m e
    have h10 : (0 : ℚ) < 10 ^ n := by positivity
    have hdv : decimalValue (FormatFixed n (fin s m e))
        = (if s then -1 else 1) * ((scaledDecimal n m e : Nat) : ℚ) / 10 ^ n := by
      simp only [decimalValue, RatModel.ParseFloat, hparse]
      cases s <;> simp
    rw [hdv]
    have hrw : (if s then (-1 : ℚ) else 1) * ((scaledDecimal n m e : Nat) : ℚ) / 10 ^ n
          - toRat (fin s m e)
        = (if s then (-1 : ℚ) else 1)
            * ((((scaledDecimal n m e : Nat) : ℚ) - (m : ℚ) * (2 : ℚ) ^ e * 10 ^ n) / 10 ^ n) := by
      simp only [toRat]
      cases s
      · simp only [Bool.false_eq_true, if_false]
        field_simp
        ring
      · simp only [if_true]
        field_simp
        ring
    rw [hrw, abs_mul, abs_div, abs_of_pos h10]
    have hs : |(if s then (-1 : ℚ) else 1)| = 1 := by cases s <;> simp
    rw [hs, one_mul, div_le_iff₀ h10]
    calc |((scaledDecimal n m e : Nat) : ℚ) - (m : ℚ) * (2 : ℚ) ^ e * 10 ^ n| ≤ 1 / 2 := hb
      _ = 1 / (2 * 10 ^ n) * 10 ^ n := by field_simp

end F64

namespace geo

/-- C14: for every finite binary64 `x`, `FloatFive.MarshalText`, `FloatZero.MarshalText` and
`FloatOne.MarshalText` return a nil error and a decimal text with exactly 5, 0 and 1
fractional digits (trailing zeros kept), whose value is within half a unit of the last
digit written of `x`: the value is rounded, not truncated. -/
theorem MarshalText_rounded (s : Bool) (m : Nat) (e : Int) :
    ((FloatFive.MarshalText (⟨F64.fin s m e⟩ : FloatFive F64)).2 = none
        ∧ kml.FixedText 5 (FloatFive.MarshalText (⟨F64.fin s m e⟩ : FloatFive F64)).1
        ∧ |decimalValue (FloatFive.MarshalText (⟨F64.fin s m e⟩ : FloatFive F64)).1
            - F64.toRat (F64.fin s m e)| ≤ 1 / (2 * 10 ^ 5))
      ∧ ((FloatZero.MarshalText (⟨F64.fin s m e⟩ : FloatZero F64)).2 = none
        ∧ kml.FixedText 0 (FloatZero.MarshalText (⟨F64.fin s m e⟩ : FloatZero F64)).1
        ∧ |decimalValue (FloatZero.MarshalText (⟨F64.fin s m e⟩ : FloatZero F64)).1
            - F64.toRat (F64.fin s m e)| ≤ 1 / (2 * 10 ^ 0))
      ∧ ((FloatOne.MarshalText (⟨F64.fin s m e⟩ : FloatOne F64)).2 = none
        ∧ kml.FixedText 1 (FloatOne.MarshalText (⟨F64.fin s m e⟩ : FloatOne F64)).1
        ∧ |decimalValue (FloatOne.MarshalText (⟨F64.fin s m e⟩ : FloatOne F64)).1
            - F64.toRat (F64.fin s m e)| ≤ 1 / (2 * 10 ^ 1)) :=
  ⟨⟨rfl, F64.FormatFixed_fin 5 s m e⟩, ⟨rfl, F64.FormatFixed_fin 0 s m e⟩,
    ⟨rfl, F64.FormatFixed_fin 1 s m e⟩⟩

end geo

namespace geo

section
variable {F : Type} [Float64 F]

/-- The distances of the consecutive pairs of the reversed list are those of the list, with
the two points exchanged, in the opposite order. -/
theorem zipWith_tail_reverse (l : Line F) :
    List.zipWith Pos.Distance l.reverse l.reverse.tail
      = (List.zipWith (fun a b : Pos F => b.Distance a) l l.tail).reverse := by
  induction l with
  | nil => rfl
  | cons x rest ih =>
    cases rest with
    | nil => rfl
    | cons y rest =>
      have hlast : (y :: rest).reverse.getLast? = some y := by
        rw [List.getLast?_reverse]; rfl
      have h := zipWith_tail_append (y :: rest).reverse [x] y x hlast rfl
      rw [List.reverse_cons (a := x), h, ih]
      simp

/-- The clamp gives exactly 1 when the cosine sum is at least 1; then `Distance` is zero as
soon as `math.Acos(1)` is zero and zero stays zero through the unit conversions. -/
theorem Distance_of_clamped (hacos : Float64.Acos (Float64.const 1 0 : F) = Float64.const 0 0)
    (h180 : (Float64.const 0 0 : F) * Float64.const 180 0 = Float64.const 0 0)
    (hPI : (Float64.const 0 0 : F) / PI = Float64.const 0 0)
    (h60 : (Float64.const 0 0 : F) * Float64.const 60 0 = Float64.const 0 0)
    (hmi : (Float64.const 0 0 : F) * Float64.const 11515 4 = Float64.const 0 0)
    (hkm : (Float64.const 0 0 : F) * Float64.const 1609344 6 = Float64.const 0 0)
    (p q : Pos F)
    (hsum : p.cosineSum q > Float64.const 1 0 ∨ p.cosineSum q = Float64.const 1 0) :
    p.Distance q = Float64.const 0 0 := by
  have harg : p.acosArg q = Float64.const 1 0 := by
    unfold Pos.acosArg
    rcases hsum with h | h
    · simp [h]
    · by_cases hgt : p.cosineSum q > Float64.const 1 0
      · simp [hgt]
      · simp [hgt, h]
  simp only [Pos.Distance, harg, hacos, h180, hPI, h60, hmi, hkm]

/-- C10, amended: `Distance(p, p) = 0` for every position `p` whose cosine sum
`sin(x)*sin(x) + cos(x)*cos(x)*cos(0)` is at least 1 in float64, which the clamp turns into
exactly 1.  What is used of float64: `math.Acos(1) = 0`, and zero stays zero when multiplied
by 180, 60, 1.1515 and 1.609344 and divided by `PI`. -/
theorem Distance_self_clamped
    (hacos : Float64.Acos (Float64.const 1 0 : F) = Float64.const 0 0)
    (h180 : (Float64.const 0 0 : F) * Float64.const 180 0 = Float64.const 0 0)
    (hPI : (Float64.const 0 0 : F) / PI = Float64.const 0 0)
    (h60 : (Float64.const 0 0 : F) * Float64.const 60 0 = Float64.const 0 0)
    (hmi : (Float64.const 0 0 : F) * Float64.const 11515 4 = Float64.const 0 0)
    (hkm : (Float64.const 0 0 : F) * Float64.const 1609344 6 = Float64.const 0 0)
    (p : Pos F)
    (hsum : p.cosineSum p > Float64.const 1 0 ∨ p.cosineSum p = Float64.const 1 0) :
    p.Distance p = Float64.const 0 0 :=
  Distance_of_clamped hacos h180 hPI h60 hmi hkm p p hsum

/-- C8, amended: the length of the reversed polyline is the sum, from zero, of the same
consecutive-pair distances as `Length(L)`, added in the opposite order; and for a polyline
of at most three points `Length(Reverse(L)) = Length(L)`.  What is used of float64: the sign
laws that make `Distance` symmetric, commutative addition, and `0 + d = d` for a distance
`d`. -/
theorem Length_Reverse_order (neg : F → F) (hmul : ∀ a b : F, a * b = b * a)
    (hsub : ∀ a b : F, b - a = neg (a - b) ∨ b - a = a - b)
    (hmulneg : ∀ a b : F, a * neg b = neg (a * b))
    (hdivneg : ∀ a b : F, neg a / b = neg (a / b))
    (hcos : ∀ a : F, Float64.Cos (neg a) = Float64.Cos a)
    (hadd : ∀ a b : F, a + b = b + a)
    (hzero : ∀ p q : Pos F, Float64.const 0 0 + p.Distance q = p.Distance q)
    (l : Line F) (a b c : Pos F) :
    Line.Length (Line.Reverse l)
        = (List.zipWith Pos.Distance l l.tail).reverse.foldl (fun t d => t + d)
            (Float64.const 0 0)
      ∧ l.Length
        = (List.zipWith Pos.Distance l l.tail).foldl (fun t d => t + d) (Float64.const 0 0)
      ∧ Line.Length (Line.Reverse [a, b, c]) = Line.Length [a, b, c]
      ∧ Line.Length (Line.Reverse [a, b]) = Line.Length [a, b]
      ∧ Line.Length (Line.Reverse [a]) = Line.Length [a]
      ∧ Line.Length (Line.Reverse ([] : Line F)) = Line.Length ([] : Line F) := by
  have hsym : ∀ p q : Pos F, p.Distance q = q.Distance p := by
    intro p q
    simp only [Pos.Distance, Pos.acosArg, cosineSum_symm neg hmul hsub hmulneg hdivneg hcos p q]
  have hswap : (fun a b : Pos F => b.Distance a) = Pos.Distance := by
    funext x y; exact hsym y x
  have hrev : ∀ l : Line F, Line.Length (Line.Reverse l)
      = (List.zipWith Pos.Distance l l.tail).reverse.foldl (fun t d => t + d)
          (Float64.const 0 0) := by
    intro l
    rw [Reverse_eq_reverse, Length_eq_foldl, zipWith_tail_reverse, hswap]
  refine ⟨hrev l, Length_eq_foldl l, ?_, ?_, rfl, rfl⟩
  · rw [hrev, Length_eq_foldl]
    simp only [List.tail_cons, List.zipWith_cons_cons, List.zipWith_nil_right,
      List.reverse_cons, List.reverse_nil, List.nil_append, List.cons_append, List.foldl_cons,
      List.foldl_nil]
    rw [hzero, hzero, hadd]
  · rw [hrev, Length_eq_foldl]
    simp only [List.tail_cons, List.zipWith_cons_cons, List.zipWith_nil_right,
      List.reverse_cons, List.reverse_nil, List.nil_append, List.foldl_cons, List.foldl_nil]

end

end geo

/-- Witness for C8 as amended, in rational arithmetic, on a polyline of four points. -/
theorem Length_Reverse_order_witness :
    (∀ a b : ℚ, a * b = b * a) ∧ (∀ a b : ℚ, b - a = -(a - b) ∨ b - a = a - b)
      ∧ (∀ a b : ℚ, a * -b = -(a * b)) ∧ (∀ a b : ℚ, -a / b = -(a / b))
      ∧ (∀ a : ℚ, Float64.Cos (-a) = Float64.Cos a)
      ∧ (∀ a b : ℚ, a + b = b + a)
      ∧ (∀ p q : geo.Pos ℚ, Float64.const 0 0 + p.Distance q = p.Distance q)
      ∧ geo.Line.Length (geo.Line.Reverse
            ([⟨0, 0, 0⟩, ⟨0, 1 / 4, 0⟩, ⟨1 / 4, 5 / 4, 0⟩, ⟨5 / 4, 0, 0⟩] : geo.Line ℚ))
          = (List.zipWith geo.Pos.Distance
                ([⟨0, 0, 0⟩, ⟨0, 1 / 4, 0⟩, ⟨1 / 4, 5 / 4, 0⟩, ⟨5 / 4, 0, 0⟩] : geo.Line ℚ)
                ([⟨0, 0, 0⟩, ⟨0, 1 / 4, 0⟩, ⟨1 / 4, 5 / 4, 0⟩, ⟨5 / 4, 0, 0⟩]
                  : geo.Line ℚ).tail).reverse.foldl (fun t d => t + d) (Float64.const 0 0) :=
  have hz : ∀ p q : geo.Pos ℚ, Float64.const 0 0 + p.Distance q = p.Distance q := by
    intro p q
    show (0 : ℚ) / 10 ^ 0 + p.Distance q = p.Distance q
    simp
  ⟨mul_comm, fun a b => Or.inl (neg_sub a b).symm, mul_neg, fun a b => neg_div b a,
    fun a => by simp [Float64.Cos], add_comm, hz,
    (geo.Length_Reverse_order (fun x : ℚ => -x) mul_comm
      (fun a b => Or.inl (neg_sub a b).symm) mul_neg (fun a b => neg_div b a)
      (fun a => by simp [Float64.Cos]) add_comm hz _ ⟨0, 0, 0⟩ ⟨0, 0, 0⟩ ⟨0, 0, 0⟩).1⟩
namespace F64

theorem bitlenAux_zero (f : Nat) : bitlenAux f 0 = 0 := by
  cases f <;> simp [bitlenAux]

theorem bitlenAux_bounds : ∀ (f n : Nat), n ≤ f → n ≠ 0 →
    0 < bitlenAux f n ∧ 2 ^ (bitlenAux f n - 1) ≤ n ∧ n < 2 ^ bitlenAux f n := by
  intro f
  induction f with
  | zero => intro n h hn; omega
  | succ f ih =>
    intro n h hn
    simp only [bitlenAux, if_neg hn]
    by_cases h2 : n / 2 = 0
    · rw [h2, bitlenAux_zero]
      have : n = 1 := by omega
      subst this
      simp
    · obtain ⟨hpos, hlo, hhi⟩ := ih (n / 2) (by omega) h2
      refine ⟨Nat.succ_pos _, ?_, ?_⟩
      · have h1 : bitlenAux f (n / 2) + 1 - 1 = (bitlenAux f (n / 2) - 1) + 1 := by omega
        rw [h1, pow_succ]
        omega
      · rw [pow_succ]
        omega

/-- A positive `n` has `bitlen n` binary digits. -/
theorem bitlen_bounds (n : Nat) (hn : n ≠ 0) :
    0 < bitlen n ∧ 2 ^ (bitlen n - 1) ≤ n ∧ n < 2 ^ bitlen n :=
  bitlenAux_bounds n n (Nat.le_refl n) hn

/-- The two parts of `scaleDiv` are the numerator and the denominator of `(n / d) * 2^s`. -/
theorem scaleDiv_val (n d : Nat) (s : Int) (hd : 0 < d) :
    0 < (scaleDiv n d s).2
      ∧ ((scaleDiv n d s).1 : ℚ) / ((scaleDiv n d s).2 : ℚ) = (n : ℚ) / d * (2 : ℚ) ^ s := by
  have hdq : (d : ℚ) ≠ 0 := by positivity
  unfold scaleDiv
  by_cases hs : 0 ≤ s
  · rw [if_pos hs]
    obtain ⟨k, rfl⟩ := Int.eq_ofNat_of_zero_le hs
    refine ⟨hd, ?_⟩
    simp only [Int.toNat_ofNat, zpow_natCast]
    push_cast
    ring
  · rw [if_neg hs]
    have hk : s = -(((-s).toNat : Nat) : Int) := by
      rw [Int.toNat_of_nonneg (by omega)]; ring
    have hpow : (2 : ℚ) ^ s = 1 / (2 : ℚ) ^ (-s).toNat := by
      conv_lhs => rw [hk]
      rw [zpow_neg, zpow_natCast]
      simp
    refine ⟨by positivity, ?_⟩
    rw [hpow]
    push_cast
    field_simp

/-- The quotient of two positive integers lies between the powers of two that their numbers
of binary digits give. -/
theorem ratio_bounds (n d : Nat) (hn : n ≠ 0) (hd : d ≠ 0) :
    (2 : ℚ) ^ ((bitlen n : Int) - (bitlen d : Int) - 1) < (n : ℚ) / d
      ∧ (n : ℚ) / d < (2 : ℚ) ^ ((bitlen n : Int) - (bitlen d : Int) + 1) := by
  obtain ⟨hnp, hnl, hnh⟩ := bitlen_bounds n hn
  obtain ⟨hdp, hdl, hdh⟩ := bitlen_bounds d hd
  have hdq : (0 : ℚ) < d := by exact_mod_cast Nat.pos_of_ne_zero hd
  have h2 : (2 : ℚ) ≠ 0 := by norm_num
  have hnl' : (2 : ℚ) ^ ((bitlen n : Int) - 1) ≤ n := by
    have : ((bitlen n : Int) - 1) = ((bitlen n - 1 : Nat) : Int) := by omega
    rw [this, zpow_natCast]
    exact_mod_cast hnl
  have hnh' : (n : ℚ) < (2 : ℚ) ^ (bitlen n : Int) := by
    rw [zpow_natCast]; exact_mod_cast hnh
  have hdl' : (2 : ℚ) ^ ((bitlen d : Int) - 1) ≤ d := by
    have : ((bitlen d : Int) - 1) = ((bitlen d - 1 : Nat) : Int) := by omega
    rw [this, zpow_natCast]
    exact_mod_cast hdl
  have hdh' : (d : ℚ) < (2 : ℚ) ^ (bitlen d : Int) := by
    rw [zpow_natCast]; exact_mod_cast hdh
  constructor
  · rw [lt_div_iff₀ hdq]
    have e1 : (2 : ℚ) ^ ((bitlen n : Int) - (bitlen d : Int) - 1) * (2 : ℚ) ^ (bitlen d : Int)
        = (2 : ℚ) ^ ((bitlen n : Int) - 1) := by
      rw [← zpow_add₀ h2]; congr 1; ring
    have hp : (0 : ℚ) < (2 : ℚ) ^ ((bitlen n : Int) - (bitlen d : Int) - 1) := by positivity
    calc (2 : ℚ) ^ ((bitlen n : Int) - (bitlen d : Int) - 1) * d
        < (2 : ℚ) ^ ((bitlen n : Int) - (bitlen d : Int) - 1) * (2 : ℚ) ^ (bitlen d : Int) :=
          mul_lt_mul_of_pos_left hdh' hp
      _ = (2 : ℚ) ^ ((bitlen n : Int) - 1) := e1
      _ ≤ n := hnl'
  · rw [div_lt_iff₀ hdq]
    have e1 : (2 : ℚ) ^ ((bitlen n : Int) - (bitlen d : Int) + 1)
        * (2 : ℚ) ^ ((bitlen d : Int) - 1) = (2 : ℚ) ^ (bitlen n : Int) := by
      rw [← zpow_add₀ h2]; congr 1; ring
    have hp : (0 : ℚ) < (2 : ℚ) ^ ((bitlen n : Int) - (bitlen d : Int) + 1) := by positivity
    calc (n : ℚ) < (2 : ℚ) ^ (bitlen n : Int) := hnh'
      _ = (2 : ℚ) ^ ((bitlen n : Int) - (bitlen d : Int) + 1)
            * (2 : ℚ) ^ ((bitlen d : Int) - 1) := e1.symm
      _ ≤ (2 : ℚ) ^ ((bitlen n : Int) - (bitlen d : Int) + 1) * d :=
          mul_le_mul_of_nonneg_left hdl' (le_of_lt hp)

/-- The natural-number quotient is the floor of the rational one. -/
theorem natDiv_floor (a b : Nat) (hb : 0 < b) :
    ((a / b : Nat) : ℚ) ≤ (a : ℚ) / b ∧ (a : ℚ) / b < ((a / b : Nat) : ℚ) + 1 := by
  have hbq : (0 : ℚ) < b := by exact_mod_cast hb
  constructor
  · rw [le_div_iff₀ hbq]
    exact_mod_cast Nat.div_mul_le_self a b
  · rw [div_lt_iff₀ hbq]
    have := Nat.lt_div_mul_add hb (a := a)
    have h2 : (a : ℚ) < ((a / b * b + b : Nat) : ℚ) := by exact_mod_cast this
    push_cast at h2
    linarith

/-- The exponent that `round` chooses: not below `-1074`; the scaled quotient is below
`2^53`, and at least `2^52` unless the exponent is `-1074`. -/
theorem roundExp_spec (n d : Nat) (e : Int) (hn : n ≠ 0) (hd : d ≠ 0) :
    -1074 ≤ roundExp n d e
      ∧ (n : ℚ) / d * (2 : ℚ) ^ (e - roundExp n d e) < 2 ^ 53
      ∧ (roundExp n d e ≠ -1074
          → (2 : ℚ) ^ 52 ≤ (n : ℚ) / d * (2 : ℚ) ^ (e - roundExp n d e)) := by
  obtain ⟨hr1, hr2⟩ := ratio_bounds n d hn hd
  have h2 : (2 : ℚ) ≠ 0 := by norm_num
  have hnq : (0 : ℚ) < n := by exact_mod_cast Nat.pos_of_ne_zero hn
  have hdq : (0 : ℚ) < d := by exact_mod_cast Nat.pos_of_ne_zero hd
  have hrpos : (0 : ℚ) < (n : ℚ) / d := div_pos hnq hdq
  generalize hrdef : (n : ℚ) / d = r at hr1 hr2 hrpos ⊢
  generalize hs0 : (53 : Int) - ((bitlen n : Int) - (bitlen d : Int)) = s0
  have hlo : (2 : ℚ) ^ 52 < r * (2 : ℚ) ^ s0 := by
    have hp : (0 : ℚ) < (2 : ℚ) ^ s0 := by positivity
    have e1 : (2 : ℚ) ^ ((bitlen n : Int) - (bitlen d : Int) - 1) * (2 : ℚ) ^ s0
        = (2 : ℚ) ^ (52 : Int) := by
      rw [← zpow_add₀ h2]; congr 1; omega
    have := mul_lt_mul_of_pos_right hr1 hp
    rw [e1] at this
    exact_mod_cast this
  have hhi : r * (2 : ℚ) ^ s0 < (2 : ℚ) ^ 54 := by
    have hp : (0 : ℚ) < (2 : ℚ) ^ s0 := by positivity
    have e1 : (2 : ℚ) ^ ((bitlen n : Int) - (bitlen d : Int) + 1) * (2 : ℚ) ^ s0
        = (2 : ℚ) ^ (54 : Int) := by
      rw [← zpow_add₀ h2]; congr 1; omega
    have := mul_lt_mul_of_pos_right hr2 hp
    rw [e1] at this
    exact_mod_cast this
  obtain ⟨hpos, hval⟩ := scaleDiv_val n d s0 (Nat.pos_of_ne_zero hd)
  obtain ⟨hfl, hfu⟩ := natDiv_floor (scaleDiv n d s0).1 (scaleDiv n d s0).2 hpos
  rw [hval, hrdef] at hfl hfu
  have hmono : ∀ a b : Int, a ≤ b → r * (2 : ℚ) ^ a ≤ r * (2 : ℚ) ^ b := fun a b hab =>
    mul_le_mul_of_nonneg_left (zpow_le_zpow_right₀ (by norm_num) hab) (le_of_lt hrpos)
  have hhalf : r * (2 : ℚ) ^ (s0 - 1) = r * (2 : ℚ) ^ s0 / 2 := by
    rw [zpow_sub_one₀ h2]; ring
  have hE : roundExp n d e
      = if (if 2 ^ 53 ≤ (scaleDiv n d s0).1 / (scaleDiv n d s0).2 then e - s0 + 1 else e - s0)
            < -1074 then -1074
        else (if 2 ^ 53 ≤ (scaleDiv n d s0).1 / (scaleDiv n d s0).2 then e - s0 + 1
          else e - s0) := by
    rw [← hs0]; rfl
  generalize (scaleDiv n d s0).1 / (scaleDiv n d s0).2 = t at hfl hfu hE
  rw [hE]
  by_cases ht : 2 ^ 53 ≤ t
  · have htq : (2 : ℚ) ^ 53 ≤ (t : ℚ) := by exact_mod_cast ht
    simp only [if_pos ht]
    by_cases hc : e - s0 + 1 < -1074
    · simp only [if_pos hc]
      refine ⟨le_refl _, ?_, fun h => absurd rfl h⟩
      have := hmono (e - -1074) (s0 - 1) (by omega)
      rw [hhalf] at this
      linarith
    · simp only [if_neg hc]
      have he : e - (e - s0 + 1) = s0 - 1 := by ring
      rw [he, hhalf]
      refine ⟨by omega, by linarith, fun _ => ?_⟩
      linarith
  · have htq : (t : ℚ) + 1 ≤ (2 : ℚ) ^ 53 := by
      have : t + 1 ≤ 2 ^ 53 := by omega
      exact_mod_cast this
    simp only [if_neg ht]
    by_cases hc : e - s0 < -1074
    · simp only [if_pos hc]
      refine ⟨le_refl _, ?_, fun h => absurd rfl h⟩
      have := hmono (e - -1074) s0 (by omega)
      linarith
    · simp only [if_neg hc]
      have he : e - (e - s0) = s0 := by ring
      rw [he]
      exact ⟨by omega, by linarith, fun _ => le_of_lt hlo⟩

/-- An integer within one half of `w` is at least as near to `w` as every integer. -/
theorem nearest_int (M : Nat) (w : ℚ) (h : |(M : ℚ) - w| ≤ 1 / 2) (k : Int) :
    |(M : ℚ) - w| ≤ |(k : ℚ) - w| := by
  by_cases hk : k = (M : Int)
  · subst hk; simp
  · have h1 : (1 : ℚ) ≤ |(k : ℚ) - (M : ℚ)| := by
      have : (1 : Int) ≤ |k - (M : Int)| := by
        have : k - (M : Int) ≠ 0 := sub_ne_zero.2 hk
        exact Int.one_le_abs this
      exact_mod_cast this
    have h2 : |(k : ℚ) - (M : ℚ)| ≤ |(k : ℚ) - w| + |(M : ℚ) - w| := by
      have := abs_sub_le (k : ℚ) w (M : ℚ)
      rw [abs_sub_comm w (M : ℚ)] at this
      exact this
    linarith

/-- The sign factor of a binary64. -/
theorem sign_sq (s : Bool) : (if s then (-1 : ℚ) else 1) * (if s then (-1 : ℚ) else 1) = 1 := by
  cases s <;> simp

theorem sign_abs (s : Bool) : |(if s then (-1 : ℚ) else 1)| = 1 := by
  cases s <;> simp

/-- What `round` returns for a positive quotient within the finite range: a finite value
`± M * 2^E` with `E ≥ -1074`, `M` within one half of the quotient scaled by `2^(-E)`, and the
scaled quotient at least `2^52` unless `E = -1074`. -/
theorem round_spec (neg : Bool) (n d : Nat) (e : Int) (hn : n ≠ 0) (hd : d ≠ 0)
    (hV : (n : ℚ) / d * (2 : ℚ) ^ e ≤ (2 ^ 53 - 1) * (2 : ℚ) ^ (971 : Int)) :
    (round neg n d e).isFinite = true
      ∧ ∃ (M : Nat) (E : Int),
          toRat (round neg n d e) = (if neg then (-1 : ℚ) else 1) * (M : ℚ) * (2 : ℚ) ^ E
          ∧ -1074 ≤ E ∧ |(M : ℚ) - (n : ℚ) / d * (2 : ℚ) ^ (e - E)| ≤ 1 / 2
          ∧ (E ≠ -1074 → (2 : ℚ) ^ 52 ≤ (n : ℚ) / d * (2 : ℚ) ^ (e - E)) := by
  obtain ⟨hE1, hw53, hw52⟩ := roundExp_spec n d e hn hd
  have h2 : (2 : ℚ) ≠ 0 := by norm_num
  obtain ⟨hpos, hval⟩ := scaleDiv_val n d (e - roundExp n d e) (Nat.pos_of_ne_zero hd)
  have hM : |((roundMant n d e : Nat) : ℚ) - (n : ℚ) / d * (2 : ℚ) ^ (e - roundExp n d e)|
      ≤ 1 / 2 := by
    have := roundDiv_bound (scaleDiv n d (e - roundExp n d e)).1
      (scaleDiv n d (e - roundExp n d e)).2 hpos
    rw [hval] at this
    exact this
  have hVw : (n : ℚ) / d * (2 : ℚ) ^ e
      = (n : ℚ) / d * (2 : ℚ) ^ (e - roundExp n d e) * (2 : ℚ) ^ roundExp n d e := by
    rw [mul_assoc, ← zpow_add₀ h2]; congr 2; ring
  generalize hEdef : roundExp n d e = E at hE1 hw53 hw52 hM hVw
  generalize hMdef : roundMant n d e = M at hM
  generalize hwdef : (n : ℚ) / d * (2 : ℚ) ^ (e - E) = w at hw53 hw52 hM hVw
  rw [hVw] at hV
  have hMw := abs_le.1 hM
  have hEle : E ≤ 971 := by
    by_contra hcon
    have hge : (972 : Int) ≤ E := by omega
    have hw := hw52 (by omega)
    have hp : (2 : ℚ) ^ (972 : Int) ≤ (2 : ℚ) ^ E := zpow_le_zpow_right₀ (by norm_num) hge
    have h972 : (2 : ℚ) ^ (972 : Int) = 2 * (2 : ℚ) ^ (971 : Int) := by
      rw [show (972 : Int) = 971 + 1 by norm_num, zpow_add_one₀ h2]; ring
    have hpos971 : (0 : ℚ) < (2 : ℚ) ^ (971 : Int) := by positivity
    have : (2 : ℚ) ^ 52 * (2 * (2 : ℚ) ^ (971 : Int)) ≤ w * (2 : ℚ) ^ E := by
      rw [← h972]
      exact mul_le_mul hw hp (by positivity) (by linarith [show (0:ℚ) < 2 ^ 52 by positivity])
    nlinarith
  have hM53 : M ≤ 2 ^ 53 := by
    have : (M : ℚ) < ((2 ^ 53 + 1 : Nat) : ℚ) := by push_cast; linarith
    have : M < 2 ^ 53 + 1 := by exact_mod_cast this
    omega
  have hround : round neg n d e
      = if M = 2 ^ 53 then (if 971 < E + 1 then inf neg else fin neg (2 ^ 52) (E + 1))
        else if 971 < E then inf neg else fin neg M E := by
    rw [← hEdef, ← hMdef, round, if_neg hn]
  rw [hround]
  by_cases hc : M = 2 ^ 53
  · rw [if_pos hc]
    have hE970 : ¬ (971 < E + 1) := by
      intro hcon
      have hE : E = 971 := by omega
      subst hE
      have hpos971 : (0 : ℚ) < (2 : ℚ) ^ (971 : Int) := by positivity
      have hw : w ≤ 2 ^ 53 - 1 := le_of_mul_le_mul_right hV hpos971
      have hMq : (M : ℚ) = 2 ^ 53 := by rw [hc]; norm_num
      linarith
    rw [if_neg hE970]
    subst hwdef
    refine ⟨by simp [isFinite]; omega, M, E, ?_, hE1, hM, hw52⟩
    simp only [toRat]
    rw [zpow_add_one₀ h2, hc]
    push_cast
    ring
  · rw [if_neg hc, if_neg (by omega)]
    subst hwdef
    refine ⟨by simp [isFinite]; omega, M, E, ?_, hE1, hM, hw52⟩
    simp only [toRat]

/-- The result of `round` is at least as near to the quotient as any finite binary64. -/
theorem round_nearest (neg : Bool) (n d : Nat) (e : Int) (hn : n ≠ 0) (hd : d ≠ 0)
    (hV : (n : ℚ) / d * (2 : ℚ) ^ e ≤ (2 ^ 53 - 1) * (2 : ℚ) ^ (971 : Int))
    (s2 : Bool) (m2 : Nat) (e2 : Int) (hm2 : m2 < 2 ^ 53) (he2 : -1074 ≤ e2) :
    |toRat (round neg n d e) - (if neg then (-1 : ℚ) else 1) * ((n : ℚ) / d * (2 : ℚ) ^ e)|
      ≤ |toRat (fin s2 m2 e2) - (if neg then (-1 : ℚ) else 1) * ((n : ℚ) / d * (2 : ℚ) ^ e)| := by
  obtain ⟨_, M, E, hto, hE1, hM, hw52⟩ := round_spec neg n d e hn hd hV
  have h2 : (2 : ℚ) ≠ 0 := by norm_num
  have hVw : (n : ℚ) / d * (2 : ℚ) ^ e
      = (n : ℚ) / d * (2 : ℚ) ^ (e - E) * (2 : ℚ) ^ E := by
    rw [mul_assoc, ← zpow_add₀ h2]; congr 2; ring
  generalize hwdef : (n : ℚ) / d * (2 : ℚ) ^ (e - E) = w at hw52 hM hVw
  rw [hto, hVw]
  generalize hσ : (if neg then (-1 : ℚ) else 1) = σ
  have hσsq : σ * σ = 1 := by rw [← hσ]; exact sign_sq neg
  have hσabs : |σ| = 1 := by rw [← hσ]; exact sign_abs neg
  simp only [toRat]
  generalize hτ : (if s2 then (-1 : ℚ) else 1) = τ
  have hτabs : |τ| = 1 := by rw [← hτ]; exact sign_abs s2
  have hpE : (0 : ℚ) < (2 : ℚ) ^ E := by positivity
  have he2E : (2 : ℚ) ^ e2 = (2 : ℚ) ^ (e2 - E) * (2 : ℚ) ^ E := by
    rw [← zpow_add₀ h2]; congr 1; ring
  have hl : σ * (M : ℚ) * (2 : ℚ) ^ E - σ * (w * (2 : ℚ) ^ E)
      = σ * (((M : ℚ) - w) * (2 : ℚ) ^ E) := by ring
  have hr : τ * (m2 : ℚ) * (2 : ℚ) ^ e2 - σ * (w * (2 : ℚ) ^ E)
      = σ * ((σ * τ * (m2 : ℚ) * (2 : ℚ) ^ (e2 - E) - w) * (2 : ℚ) ^ E) := by
    rw [he2E]
    have : σ * ((σ * τ * (m2 : ℚ) * (2 : ℚ) ^ (e2 - E) - w) * (2 : ℚ) ^ E)
        = (σ * σ) * τ * (m2 : ℚ) * (2 : ℚ) ^ (e2 - E) * (2 : ℚ) ^ E
          - σ * (w * (2 : ℚ) ^ E) := by ring
    rw [this, hσsq]; ring
  rw [hl, hr, abs_mul, abs_mul σ, hσabs, one_mul, one_mul, abs_mul, abs_mul,
    abs_of_pos hpE]
  apply mul_le_mul_of_nonneg_right _ (le_of_lt hpE)
  by_cases hcase : E ≤ e2
  · obtain ⟨k, hk⟩ := Int.eq_ofNat_of_zero_le (show 0 ≤ e2 - E by omega)
    rw [hk, zpow_natCast]
    have hστ : ∃ z : Int, σ * τ = (z : ℚ) := by
      rw [← hσ, ← hτ]
      cases neg <;> cases s2
      · exact ⟨1, by simp⟩
      · exact ⟨-1, by simp⟩
      · exact ⟨-1, by simp⟩
      · exact ⟨1, by simp⟩
    obtain ⟨z, hz⟩ := hστ
    have := nearest_int M w hM (z * (m2 : Int) * 2 ^ k)
    rw [hz]
    push_cast at this
    exact this
  · have hw := hw52 (by omega)
    have hq : σ * τ * (m2 : ℚ) * (2 : ℚ) ^ (e2 - E) ≤ 2 ^ 52 - 1 / 2 := by
      have hp1 : (2 : ℚ) ^ (e2 - E) ≤ (2 : ℚ) ^ (-1 : Int) :=
        zpow_le_zpow_right₀ (by norm_num) (by omega)
      have hp1' : (2 : ℚ) ^ (-1 : Int) = 1 / 2 := by norm_num
      rw [hp1'] at hp1
      have hp0 : (0 : ℚ) < (2 : ℚ) ^ (e2 - E) := by positivity
      have hm2q : (m2 : ℚ) ≤ 2 ^ 53 - 1 := by
        have : m2 + 1 ≤ 2 ^ 53 := by omega
        have : ((m2 + 1 : Nat) : ℚ) ≤ ((2 ^ 53 : Nat) : ℚ) := by exact_mod_cast this
        push_cast at this
        linarith
      have hm0 : (0 : ℚ) ≤ (m2 : ℚ) := by positivity
      have hle : σ * τ * (m2 : ℚ) * (2 : ℚ) ^ (e2 - E)
          ≤ |σ * τ * (m2 : ℚ) * (2 : ℚ) ^ (e2 - E)| := le_abs_self _
      rw [abs_mul, abs_mul, abs_mul, hσabs, hτabs, one_mul, one_mul, abs_of_nonneg hm0,
        abs_of_pos hp0] at hle
      have : (m2 : ℚ) * (2 : ℚ) ^ (e2 - E) ≤ (2 ^ 53 - 1) * (1 / 2) :=
        mul_le_mul hm2q hp1 (le_of_lt hp0) (by norm_num)
      linarith
    have hge : (1 : ℚ) / 2 ≤ |σ * τ * (m2 : ℚ) * (2 : ℚ) ^ (e2 - E) - w| := by
      rw [abs_sub_comm]
      have := le_abs_self (w - σ * τ * (m2 : ℚ) * (2 : ℚ) ^ (e2 - E))
      linarith
    linarith

/-- The text of a finite value starts with a minus sign exactly when the sign bit is set. -/
theorem head_FormatFixed (n : Nat) (s : Bool) (m : Nat) (e : Int) :
    decide ((FormatFixed n (fin s m e)).head? = some '-') = s := by
  obtain ⟨ip, fp, htext, hne, hip, _, _, _⟩ := fixedText_parts n (scaledDecimal n m e)
  cases s
  · simp only [FormatFixed, htext, Bool.false_eq_true, if_false, List.nil_append]
    cases ip with
    | nil => exact absurd rfl hne
    | cons c r =>
      have hc := hip c (List.mem_cons_self _ _)
      have hne2 : c ≠ '-' := by
        intro h; rw [h] at hc; revert hc; decide
      simp [hne2]
  · simp [FormatFixed]

/-- What `ParseFloat` returns on a plain decimal whose nearest binary64 is finite. -/
theorem ParseFloat_of_finite (t : List Char) (mant : Int) (k : Nat)
    (h : RatModel.parseDecimal t = some (mant, k))
    (hfin : isFinite (round (decide (t.head? = some '-')) mant.natAbs (10 ^ k) 0) = true) :
    ParseFloat t = (round (decide (t.head? = some '-')) mant.natAbs (10 ^ k) 0, true) := by
  unfold ParseFloat
  rw [h]
  simp only
  generalize round (decide (t.head? = some '-')) mant.natAbs (10 ^ k) 0 = x at hfin ⊢
  cases x with
  | nan => simp [isFinite] at hfin
  | inf b => simp [isFinite] at hfin
  | fin b mm ee => rfl

/-- Reading back the text `Sprintf("%.nf", x)` of a finite binary64 `x` succeeds and gives a
finite binary64 within `10^(-n)` of `x`. -/
theorem ParseFloat_FormatFixed (n : Nat) (s : Bool) (m : Nat) (e : Int)
    (hfin : isFinite (fin s m e) = true) :
    (ParseFloat (FormatFixed n (fin s m e))).2 = true
      ∧ isFinite (ParseFloat (FormatFixed n (fin s m e))).1 = true
      ∧ |toRat (ParseFloat (FormatFixed n (fin s m e))).1 - toRat (fin s m e)|
          ≤ 1 / 10 ^ n := by
  have hparse := parseDecimal_FormatFixed n s m e
  have hhead := head_FormatFixed n s m e
  have hdec := (FormatFixed_fin n s m e).2
  have hb := scaledDecimal_bound n m e
  have h10 : (0 : ℚ) < 10 ^ n := by positivity
  have h10' : (1 : ℚ) ≤ 10 ^ n := one_le_pow₀ (by norm_num)
  have hdv : decimalValue (FormatFixed n (fin s m e))
      = (if s then (-1 : ℚ) else 1) * (((scaledDecimal n m e : Nat) : ℚ) / 10 ^ n) := by
    simp only [decimalValue, RatModel.ParseFloat, hparse]
    cases s
    · simp
    · simp only [if_true]
      push_cast
      ring
  have habs : (if s then -((scaledDecimal n m e : Nat) : Int)
      else ((scaledDecimal n m e : Nat) : Int)).natAbs = scaledDecimal n m e := by
    cases s <;> simp
  simp only [isFinite, decide_eq_true_eq] at hfin
  obtain ⟨hm, he1, he2⟩ := hfin
  by_cases h0 : scaledDecimal n m e = 0
  · have hx : ParseFloat (FormatFixed n (fin s m e)) = (fin s 0 (-1074), true) := by
      have hr : round (decide ((FormatFixed n (fin s m e)).head? = some '-'))
          (if s then -((scaledDecimal n m e : Nat) : Int)
            else ((scaledDecimal n m e : Nat) : Int)).natAbs (10 ^ n) 0 = fin s 0 (-1074) := by
        rw [habs, hhead, h0]; rfl
      have := ParseFloat_of_finite _ _ _ hparse (by rw [hr]; rfl)
      rw [this, hr]
    rw [hx]
    refine ⟨rfl, rfl, ?_⟩
    rw [hdv, h0] at hdec
    simp only [Nat.cast_zero, zero_div, mul_zero] at hdec
    have ht0 : toRat (fin s 0 (-1074)) = 0 := by simp [toRat]
    rw [ht0]
    have : (1 : ℚ) / (2 * 10 ^ n) ≤ 1 / 10 ^ n := by
      apply div_le_div_of_nonneg_left (by norm_num) h10 (by linarith)
    linarith
  · have hd : (10 ^ n : Nat) ≠ 0 := by positivity
    have hcast : (((10 ^ n : Nat) : Nat) : ℚ) = (10 : ℚ) ^ n := by push_cast; rfl
    have hV : ((scaledDecimal n m e : Nat) : ℚ) / ((10 ^ n : Nat) : ℚ) * (2 : ℚ) ^ (0 : Int)
        ≤ (2 ^ 53 - 1) * (2 : ℚ) ^ (971 : Int) := by
      rw [hcast, zpow_zero, mul_one, div_le_iff₀ h10]
      have hmq : (m : ℚ) ≤ 2 ^ 53 - 1 := by
        have : m + 1 ≤ 2 ^ 53 := by omega
        have : ((m + 1 : Nat) : ℚ) ≤ ((2 ^ 53 : Nat) : ℚ) := by exact_mod_cast this
        push_cast at this
        linarith
      have hm0 : (0 : ℚ) ≤ (m : ℚ) := by positivity
      have hp971 : (1 : ℚ) ≤ (2 : ℚ) ^ (971 : Int) := by
        have := zpow_le_zpow_right₀ (show (1 : ℚ) ≤ 2 by norm_num) (show (0 : Int) ≤ 971 by norm_num)
        simpa using this
      by_cases hepos : 0 ≤ e
      · have hpe : (2 : ℚ) ^ e ≤ (2 : ℚ) ^ (971 : Int) :=
          zpow_le_zpow_right₀ (by norm_num) he2
        have hpe0 : (0 : ℚ) < (2 : ℚ) ^ e := by positivity
        have hexact : ((scaledDecimal n m e : Nat) : ℚ) = (m : ℚ) * (2 : ℚ) ^ e * 10 ^ n := by
          obtain ⟨k, rfl⟩ := Int.eq_ofNat_of_zero_le hepos
          simp only [scaledDecimal, if_pos hepos, Int.toNat_ofNat, zpow_natCast]
          push_cast
          ring
        rw [hexact]
        apply mul_le_mul_of_nonneg_right _ (le_of_lt h10)
        exact mul_le_mul hmq hpe (le_of_lt hpe0) (by norm_num)
      · have hpe : (2 : ℚ) ^ e ≤ (2 : ℚ) ^ (-1 : Int) :=
          zpow_le_zpow_right₀ (by norm_num) (by omega)
        have hp1 : (2 : ℚ) ^ (-1 : Int) = 1 / 2 := by norm_num
        rw [hp1] at hpe
        have hpe0 : (0 : ℚ) < (2 : ℚ) ^ e := by positivity
        have hme : (m : ℚ) * (2 : ℚ) ^ e ≤ (2 ^ 53 - 1) * (1 / 2) :=
          mul_le_mul hmq hpe (le_of_lt hpe0) (by norm_num)
        have hsc : ((scaledDecimal n m e : Nat) : ℚ)
            ≤ (m : ℚ) * (2 : ℚ) ^ e * 10 ^ n + 1 / 2 := by
          have := (abs_le.1 hb).2
          linarith
        have h1 : (m : ℚ) * (2 : ℚ) ^ e * 10 ^ n ≤ (2 ^ 53 - 1) * (1 / 2) * 10 ^ n :=
          mul_le_mul_of_nonneg_right hme (le_of_lt h10)
        have h2 : ((2 : ℚ) ^ 53 - 1) * 10 ^ n ≤ (2 ^ 53 - 1) * (2 : ℚ) ^ (971 : Int) * 10 ^ n := by
          apply mul_le_mul_of_nonneg_right _ (le_of_lt h10)
          have : (0 : ℚ) ≤ 2 ^ 53 - 1 := by norm_num
          nlinarith
        nlinarith
    obtain ⟨hfinr, _⟩ := round_spec s (scaledDecimal n m e) (10 ^ n) 0 h0 hd hV
    have hnear := round_nearest s (scaledDecimal n m e) (10 ^ n) 0 h0 hd hV s m e hm he1
    have hx : ParseFloat (FormatFixed n (fin s m e))
        = (round s (scaledDecimal n m e) (10 ^ n) 0, true) := by
      have := ParseFloat_of_finite _ _ _ hparse (by rw [habs, hhead]; exact hfinr)
      rw [this, habs, hhead]
    rw [hx]
    refine ⟨rfl, hfinr, ?_⟩
    rw [hcast, zpow_zero, mul_one, ← hdv] at hnear
    have htri := abs_sub_le (toRat (round s (scaledDecimal n m e) (10 ^ n) 0))
      (decimalValue (FormatFixed n (fin s m e))) (toRat (fin s m e))
    have hhalf : (1 : ℚ) / (2 * 10 ^ n) + 1 / (2 * 10 ^ n) = 1 / 10 ^ n := by
      field_simp; ring
    rw [abs_sub_comm (toRat (fin s m e))] at hnear
    linarith

end F64

namespace kml

theorem digit_toNat {c : Char} (h : c.isDigit = true) : 48 ≤ c.toNat ∧ c.toNat ≤ 57 := by
  simp only [Char.isDigit, Bool.and_eq_true, decide_eq_true_eq] at h
  exact ⟨h.1, h.2⟩

/-- A decimal digit is not white space. -/
theorem isSpace_digit {c : Char} (h : c.isDigit = true) : isSpace c = false := by
  obtain ⟨h1, h2⟩ := digit_toNat h
  have hne : ∀ d : Char, d.toNat < 48 → c ≠ d := by
    intro d hd hcd
    rw [hcd] at h1
    omega
  simp only [isSpace, Bool.or_eq_false_iff, Bool.and_eq_false_iff, decide_eq_false_iff_not]
  refine ⟨⟨⟨⟨⟨⟨⟨⟨⟨⟨⟨⟨⟨⟨?_, ?_⟩, ?_⟩, ?_⟩, ?_⟩, ?_⟩, ?_⟩, ?_⟩, ?_⟩, ?_⟩, ?_⟩, ?_⟩, ?_⟩, ?_⟩, ?_⟩
  all_goals first
    | exact hne _ (by decide)
    | omega

/-- A fixed-point decimal text is a well-formed coordinate field. -/
theorem FixedText.wellFormed {n : Nat} {s : GoString} (h : FixedText n s) :
    WellFormedField s := by
  refine ⟨h.ne_nil, fun c hc => ?_⟩
  by_cases hd : c.isDigit = true
  · refine ⟨?_, isSpace_digit hd⟩
    intro hcomma
    rw [hcomma] at hd
    revert hd
    decide
  · have hd2 : c.isDigit = false := by simpa using hd
    by_cases hm : c = '-'
    · subst hm; exact ⟨by decide, by decide⟩
    · by_cases hp : c = '.'
      · subst hp; exact ⟨by decide, by decide⟩
      · exact absurd hc (h.not_mem c hd2 hm hp)

end kml

namespace F64

/-- Every text that `FormatFixed` writes is a well-formed coordinate field. -/
theorem FormatFixed_wellFormed (n : Nat) (x : F64) :
    kml.WellFormedField (Float64.FormatFixed n x) := by
  show kml.WellFormedField (FormatFixed n x)
  cases x with
  | nan => exact ⟨by simp [FormatFixed], by simp only [FormatFixed]; decide⟩
  | inf s => cases s <;> exact ⟨by simp [FormatFixed], by simp only [FormatFixed]; decide⟩
  | fin s m e => exact (FormatFixed_fin n s m e).1.wellFormed

/-- Reading back the text `Sprintf("%.nf", x)` of a finite binary64 `x` gives a finite
binary64 within `10^(-n)` of `x`. -/
theorem component_round_trip (n : Nat) (x : F64) (hx : x.isFinite = true) :
    isFinite (Float64.ParseFloat (Float64.FormatFixed n x : GoString) : F64 × Bool).1 = true
      ∧ |toRat (Float64.ParseFloat (Float64.FormatFixed n x : GoString) : F64 × Bool).1
          - toRat x| ≤ 1 / 10 ^ n := by
  cases x with
  | nan => simp [isFinite] at hx
  | inf s => simp [isFinite] at hx
  | fin s m e => exact (ParseFloat_FormatFixed n s m e hx).2

end F64

namespace kml

/-- The position decoded from the fields written for a finite position is within the
rounding bounds of it. -/
theorem Triple.pos_within (p : geo.Pos F64) (hp : p.isFinite = true) :
    WithinRounding
      (Triple.pos F64 ⟨Float64.FormatFixed 5 p.Lon, Float64.FormatFixed 5 p.Lat,
        Float64.FormatFixed 0 p.Ele⟩) p := by
  simp only [geo.Pos.isFinite, Bool.and_eq_true] at hp
  obtain ⟨⟨hlat, hlon⟩, hele⟩ := hp
  obtain ⟨f1, b1⟩ := F64.component_round_trip 5 p.Lat hlat
  obtain ⟨f2, b2⟩ := F64.component_round_trip 5 p.Lon hlon
  obtain ⟨f3, b3⟩ := F64.component_round_trip 0 p.Ele hele
  refine ⟨?_, b1, b2, ?_⟩
  · simp only [geo.Pos.isFinite, Triple.pos, Bool.and_eq_true]
    exact ⟨⟨f1, f2⟩, f3⟩
  · simpa using b3

/-- C3: overlay coordinate round trip.  For every non-empty polyline `L` whose positions
have finite components, decoding `LineCoordinates L` with `LineString.Line` succeeds and
yields a polyline with the same number of points, in the same order, where each decoded
point has finite components, its latitude and longitude within `1e-5` of the original
point's latitude and longitude respectively (no swap of the two), and its elevation within
`1`; likewise `Point.Pos` applied to `PosPoint p` succeeds and is within those bounds of `p`
for every position `p` with finite components.  The differences are those of the exact
values of the binary64 numbers. -/
theorem coordinates_round_trip (L : geo.Line F64) (hne : L ≠ [])
    (hL : ∀ p ∈ L, p.isFinite = true) (extrude tessellate : Bool) (mode : GoString)
    (p : geo.Pos F64) (hp : p.isFinite = true) :
    (∃ L2 : geo.Line F64,
        LineString.Line F64 ⟨extrude, tessellate, mode, LineCoordinates L⟩ = some L2
          ∧ L2.length = L.length
          ∧ ∀ (i : Nat) (h2 : i < L2.length) (h1 : i < L.length),
              WithinRounding (L2.get ⟨i, h2⟩) (L.get ⟨i, h1⟩))
      ∧ ∃ q : geo.Pos F64, Point.Pos F64 (PosPoint p) = some q ∧ WithinRounding q p := by
  constructor
  · refine ⟨_, Line_LineCoordinates F64.FormatFixed_wellFormed L hne extrude tessellate mode,
      by simp, ?_⟩
    intro i h2 h1
    simp only [List.get_eq_getElem, List.getElem_map]
    exact Triple.pos_within (L[i]) (hL _ (List.getElem_mem h1))
  · refine ⟨_, ?_, Triple.pos_within p hp⟩
    have := Pos_text F64 ⟨Float64.FormatFixed 5 p.Lon, Float64.FormatFixed 5 p.Lat,
        Float64.FormatFixed 0 p.Ele⟩
      ⟨F64.FormatFixed_wellFormed _ _, F64.FormatFixed_wellFormed _ _,
        F64.FormatFixed_wellFormed _ _⟩
    rw [← PosCoordinates_eq_text] at this
    exact this

end kml

/-! ## Evaluations in binary64 -/

set_option maxRecDepth 1000000
set_option exponentiation.threshold 4000

/-- C5, at the failing input: for the antipodal positions `(-88.5, -180)` and `(88.5, 0)` the
cosine sum is `-1.0000000000000002` in binary64; it is not above 1, so the clamp leaves it,
it is below -1, and `Distance` returns a NaN. -/
theorem acosArg_below_minus_one :
    geo.Pos.acosArg (⟨F64.ofDecimal true 885 1, F64.ofDecimal true 180 0, F64.zero⟩ : geo.Pos F64)
        ⟨F64.ofDecimal false 885 1, F64.zero, F64.zero⟩
      = F64.fin true 4503599627370497 (-52)
    ∧ F64.fin true 4503599627370497 (-52) < F64.ofDecimal true 1 0
    ∧ geo.Pos.Distance
        (⟨F64.ofDecimal true 885 1, F64.ofDecimal true 180 0, F64.zero⟩ : geo.Pos F64)
        ⟨F64.ofDecimal false 885 1, F64.zero, F64.zero⟩
      = F64.nan := by
  decide

/-- Counterexample to C8 as stated: for the polyline `(0,0), (0,0.25), (0.25,1.25), (1.25,0)`
`Length` is `320.3881369424497` and the length of the reversed polyline is
`320.38813694244976` in binary64: the same distances added in the other order. -/
theorem Length_Reverse_counterexample :
    geo.Line.Length ([⟨F64.zero, F64.zero, F64.zero⟩,
        ⟨F64.zero, F64.ofDecimal false 25 2, F64.zero⟩,
        ⟨F64.ofDecimal false 25 2, F64.ofDecimal false 125 2, F64.zero⟩,
        ⟨F64.ofDecimal false 125 2, F64.zero, F64.zero⟩] : geo.Line F64)
      = F64.fin false 5636327711515406 (-44)
    ∧ geo.Line.Length (geo.Line.Reverse ([⟨F64.zero, F64.zero, F64.zero⟩,
        ⟨F64.zero, F64.ofDecimal false 25 2, F64.zero⟩,
        ⟨F64.ofDecimal false 25 2, F64.ofDecimal false 125 2, F64.zero⟩,
        ⟨F64.ofDecimal false 125 2, F64.zero, F64.zero⟩] : geo.Line F64))
      = F64.fin false 5636327711515407 (-44)
    ∧ geo.Line.Length (geo.Line.Reverse ([⟨F64.zero, F64.zero, F64.zero⟩,
        ⟨F64.zero, F64.ofDecimal false 25 2, F64.zero⟩,
        ⟨F64.ofDecimal false 25 2, F64.ofDecimal false 125 2, F64.zero⟩,
        ⟨F64.ofDecimal false 125 2, F64.zero, F64.zero⟩] : geo.Line F64))
      ≠ geo.Line.Length ([⟨F64.zero, F64.zero, F64.zero⟩,
        ⟨F64.zero, F64.ofDecimal false 25 2, F64.zero⟩,
        ⟨F64.ofDecimal false 25 2, F64.ofDecimal false 125 2, F64.zero⟩,
        ⟨F64.ofDecimal false 125 2, F64.zero, F64.zero⟩] : geo.Line F64) := by
  decide

/-- Counterexample to C10 as stated: for `p = (-87, 0)` the cosine sum is
`0.9999999999999999` in binary64, the clamp does not apply, and `Distance(p, p)` is
`9.493073054631141e-05`, not zero. -/
theorem Distance_self_counterexample :
    geo.Pos.cosineSum (⟨F64.ofDecimal true 87 0, F64.zero, F64.zero⟩ : geo.Pos F64)
        ⟨F64.ofDecimal true 87 0, F64.zero, F64.zero⟩
      = F64.fin false 9007199254740991 (-53)
    ∧ geo.Pos.Distance (⟨F64.ofDecimal true 87 0, F64.zero, F64.zero⟩ : geo.Pos F64)
        ⟨F64.ofDecimal true 87 0, F64.zero, F64.zero⟩
      = F64.fin false 7004651564472353 (-66)
    ∧ geo.Pos.Distance (⟨F64.ofDecimal true 87 0, F64.zero, F64.zero⟩ : geo.Pos F64)
        ⟨F64.ofDecimal true 87 0, F64.zero, F64.zero⟩
      ≠ Float64.const 0 0 := by
  decide

/-- Counterexample to C17 as stated: the length of `[(0,0,0), (0,1,0)]` is
`111.18957695998743` in binary64, which is neither the binary64 of `111.18957696` nor the
binary64 product `60 * 1.1515 * 1.609344`. -/
theorem Length_degree_counterexample :
    geo.Line.Length ([⟨F64.zero, F64.zero, F64.zero⟩,
        ⟨F64.zero, F64.ofNat 1, F64.zero⟩] : geo.Line F64)
      = F64.fin false 7824270896320039 (-46)
    ∧ geo.Line.Length ([⟨F64.zero, F64.zero, F64.zero⟩,
        ⟨F64.zero, F64.ofNat 1, F64.zero⟩] : geo.Line F64)
      ≠ Float64.const 11118957696 8
    ∧ geo.Line.Length ([⟨F64.zero, F64.zero, F64.zero⟩,
        ⟨F64.zero, F64.ofNat 1, F64.zero⟩] : geo.Line F64)
      ≠ Float64.const 60 0 * Float64.const 11515 4 * Float64.const 1609344 6 := by
  decide

/-- C17, amended: the length of `[(0,0,0), (0,1,0)]` is within `1e-10` of
`60 * 1.1515 * 1.609344 = 111.18957696`, and so within `0.01` of `111.19`. -/
theorem Length_degree_bounds :
    (Float64.const 1111895769599 10 : F64)
        < geo.Line.Length ([⟨F64.zero, F64.zero, F64.zero⟩,
            ⟨F64.zero, F64.ofNat 1, F64.zero⟩] : geo.Line F64)
    ∧ geo.Line.Length ([⟨F64.zero, F64.zero, F64.zero⟩,
        ⟨F64.zero, F64.ofNat 1, F64.zero⟩] : geo.Line F64)
      < Float64.const 1111895769601 10
    ∧ (Float64.const 11118 2 : F64)
        < geo.Line.Length ([⟨F64.zero, F64.zero, F64.zero⟩,
            ⟨F64.zero, F64.ofNat 1, F64.zero⟩] : geo.Line F64)
    ∧ geo.Line.Length ([⟨F64.zero, F64.zero, F64.zero⟩,
        ⟨F64.zero, F64.ofNat 1, F64.zero⟩] : geo.Line F64)
      < Float64.const 11120 2 := by
  decide

/-- Counterexample to C19 as stated: for `A = (0,0), (0,0.25)` and
`B = (0.25,0), (1,1), (0,0)` the length of the merged polyline is `363.3316433643067` and
`Length(A) + Length(B) + Distance(End(A), Start(B))` is `363.33164336430673` in binary64. -/
theorem Length_MergeLines_counterexample :
    geo.Line.End ([⟨F64.zero, F64.zero, F64.zero⟩,
        ⟨F64.zero, F64.ofDecimal false 25 2, F64.zero⟩] : geo.Line F64)
      = some ⟨F64.zero, F64.ofDecimal false 25 2, F64.zero⟩
    ∧ geo.Line.Start ([⟨F64.ofDecimal false 25 2, F64.zero, F64.zero⟩,
        ⟨F64.ofNat 1, F64.ofNat 1, F64.zero⟩, ⟨F64.zero, F64.zero, F64.zero⟩] : geo.Line F64)
      = some ⟨F64.ofDecimal false 25 2, F64.zero, F64.zero⟩
    ∧ geo.Line.Length (geo.MergeLines [([⟨F64.zero, F64.zero, F64.zero⟩,
          ⟨F64.zero, F64.ofDecimal false 25 2, F64.zero⟩] : geo.Line F64),
        [⟨F64.ofDecimal false 25 2, F64.zero, F64.zero⟩,
          ⟨F64.ofNat 1, F64.ofNat 1, F64.zero⟩, ⟨F64.zero, F64.zero, F64.zero⟩]])
      = F64.fin false 6391797865888287 (-44)
    ∧ geo.Line.Length ([⟨F64.zero, F64.zero, F64.zero⟩,
          ⟨F64.zero, F64.ofDecimal false 25 2, F64.zero⟩] : geo.Line F64)
        + geo.Line.Length ([⟨F64.ofDecimal false 25 2, F64.zero, F64.zero⟩,
          ⟨F64.ofNat 1, F64.ofNat 1, F64.zero⟩, ⟨F64.zero, F64.zero, F64.zero⟩] : geo.Line F64)
        + geo.Pos.Distance (⟨F64.zero, F64.ofDecimal false 25 2, F64.zero⟩ : geo.Pos F64)
            ⟨F64.ofDecimal false 25 2, F64.zero, F64.zero⟩
      = F64.fin false 6391797865888288 (-44)
    ∧ F64.fin false 6391797865888287 (-44) ≠ F64.fin false 6391797865888288 (-44) := by
  decide

/-- Witness for C19 as amended, in binary64: `A = (0,0), (0,0.25)` and
`B = (0.25,0), (1,1), (0,0)`. -/
theorem Length_MergeLines_witness :
    geo.Line.End ([⟨F64.zero, F64.zero, F64.zero⟩,
        ⟨F64.zero, F64.ofDecimal false 25 2, F64.zero⟩] : geo.Line F64)
      = some ⟨F64.zero, F64.ofDecimal false 25 2, F64.zero⟩
    ∧ geo.Line.Start ([⟨F64.ofDecimal false 25 2, F64.zero, F64.zero⟩,
        ⟨F64.ofNat 1, F64.ofNat 1, F64.zero⟩, ⟨F64.zero, F64.zero, F64.zero⟩] : geo.Line F64)
      = some ⟨F64.ofDecimal false 25 2, F64.zero, F64.zero⟩
    ∧ geo.Line.Length (geo.MergeLines [([⟨F64.zero, F64.zero, F64.zero⟩,
          ⟨F64.zero, F64.ofDecimal false 25 2, F64.zero⟩] : geo.Line F64),
        [⟨F64.ofDecimal false 25 2, F64.zero, F64.zero⟩,
          ⟨F64.ofNat 1, F64.ofNat 1, F64.zero⟩, ⟨F64.zero, F64.zero, F64.zero⟩]])
      = (List.zipWith geo.Pos.Distance
            ([⟨F64.ofDecimal false 25 2, F64.zero, F64.zero⟩,
              ⟨F64.ofNat 1, F64.ofNat 1, F64.zero⟩, ⟨F64.zero, F64.zero, F64.zero⟩]
              : geo.Line F64)
            ([⟨F64.ofDecimal false 25 2, F64.zero, F64.zero⟩,
              ⟨F64.ofNat 1, F64.ofNat 1, F64.zero⟩, ⟨F64.zero, F64.zero, F64.zero⟩]
              : geo.Line F64).tail).foldl (fun t d => t + d)
          (geo.Line.Length ([⟨F64.zero, F64.zero, F64.zero⟩,
              ⟨F64.zero, F64.ofDecimal false 25 2, F64.zero⟩] : geo.Line F64)
            + geo.Pos.Distance (⟨F64.zero, F64.ofDecimal false 25 2, F64.zero⟩ : geo.Pos F64)
                ⟨F64.ofDecimal false 25 2, F64.zero, F64.zero⟩) :=
  ⟨by decide, by decide, geo.Length_MergeLines _ _ _ _ (by decide) (by decide)⟩

/-- Witness for C10 as amended, in binary64: at `p = (-88.5, 0)` the cosine sum is
`1.0000000000000002`, the clamp applies, and `Distance(p, p)` is zero. -/
theorem Distance_self_clamped_witness :
    Float64.Acos (Float64.const 1 0 : F64) = Float64.const 0 0
      ∧ (Float64.const 0 0 : F64) * Float64.const 180 0 = Float64.const 0 0
      ∧ (Float64.const 0 0 : F64) / geo.PI = Float64.const 0 0
      ∧ (Float64.const 0 0 : F64) * Float64.const 60 0 = Float64.const 0 0
      ∧ (Float64.const 0 0 : F64) * Float64.const 11515 4 = Float64.const 0 0
      ∧ (Float64.const 0 0 : F64) * Float64.const 1609344 6 = Float64.const 0 0
      ∧ geo.Pos.cosineSum (⟨F64.ofDecimal true 885 1, F64.zero, F64.zero⟩ : geo.Pos F64)
          ⟨F64.ofDecimal true 885 1, F64.zero, F64.zero⟩ = F64.fin false 4503599627370497 (-52)
      ∧ geo.Pos.Distance (⟨F64.ofDecimal true 885 1, F64.zero, F64.zero⟩ : geo.Pos F64)
          ⟨F64.ofDecimal true 885 1, F64.zero, F64.zero⟩ = Float64.const 0 0 :=
  ⟨by decide, by decide, by decide, by decide, by decide, by decide, by decide,
    geo.Distance_self_clamped (by decide) (by decide) (by decide) (by decide) (by decide)
      (by decide) _ (by decide)⟩

/-- The round trip of C3 at a two-point polyline: `(54.4542391, -3.2115678, 978.4)` and
`(54.5, -3.25, 0)` are written as `-3.21157,54.45424,978 -3.25000,54.50000,0` and decoded as
`(54.45424, -3.21157, 978)` and `(54.5, -3.25, 0)`. -/
theorem Line_LineCoordinates_example :
    kml.LineCoordinates ([⟨F64.ofDecimal false 544542391 7, F64.ofDecimal true 32115678 7,
        F64.ofDecimal false 9784 1⟩,
        ⟨F64.ofDecimal false 545 1, F64.ofDecimal true 325 2, F64.zero⟩] : geo.Line F64)
      = "-3.21157,54.45424,978 -3.25000,54.50000,0".toList
    ∧ kml.LineString.Line F64 ⟨false, false, [],
        kml.LineCoordinates ([⟨F64.ofDecimal false 544542391 7, F64.ofDecimal true 32115678 7,
          F64.ofDecimal false 9784 1⟩,
          ⟨F64.ofDecimal false 545 1, F64.ofDecimal true 325 2, F64.zero⟩] : geo.Line F64)⟩
      = some [⟨F64.ofDecimal false 5445424 5, F64.ofDecimal true 321157 5,
          F64.ofDecimal false 978 0⟩,
        ⟨F64.ofDecimal false 545 1, F64.ofDecimal true 325 2, F64.zero⟩] := by
  decide

/-- The round trip of C3 applied to the same polyline and to its first position. -/
theorem coordinates_round_trip_witness :
    (([⟨F64.ofDecimal false 544542391 7, F64.ofDecimal true 32115678 7,
          F64.ofDecimal false 9784 1⟩,
        ⟨F64.ofDecimal false 545 1, F64.ofDecimal true 325 2, F64.zero⟩] : geo.Line F64) ≠ []
      ∧ (∀ p ∈ ([⟨F64.ofDecimal false 544542391 7, F64.ofDecimal true 32115678 7,
            F64.ofDecimal false 9784 1⟩,
          ⟨F64.ofDecimal false 545 1, F64.ofDecimal true 325 2, F64.zero⟩] : geo.Line F64),
          p.isFinite = true)
      ∧ (⟨F64.ofDecimal false 544542391 7, F64.ofDecimal true 32115678 7,
          F64.ofDecimal false 9784 1⟩ : geo.Pos F64).isFinite = true)
    ∧ ((∃ L2 : geo.Line F64,
        kml.LineString.Line F64 ⟨false, false, [],
            kml.LineCoordinates ([⟨F64.ofDecimal false 544542391 7,
              F64.ofDecimal true 32115678 7, F64.ofDecimal false 9784 1⟩,
            ⟨F64.ofDecimal false 545 1, F64.ofDecimal true 325 2, F64.zero⟩] : geo.Line F64)⟩
          = some L2
        ∧ L2.length = ([⟨F64.ofDecimal false 544542391 7, F64.ofDecimal true 32115678 7,
              F64.ofDecimal false 9784 1⟩,
            ⟨F64.ofDecimal false 545 1, F64.ofDecimal true 325 2, F64.zero⟩]
              : geo.Line F64).length
        ∧ ∀ (i : Nat) (h2 : i < L2.length)
            (h1 : i < ([⟨F64.ofDecimal false 544542391 7, F64.ofDecimal true 32115678 7,
              F64.ofDecimal false 9784 1⟩,
            ⟨F64.ofDecimal false 545 1, F64.ofDecimal true 325 2, F64.zero⟩]
              : geo.Line F64).length),
            kml.WithinRounding (L2.get ⟨i, h2⟩)
              (([⟨F64.ofDecimal false 544542391 7, F64.ofDecimal true 32115678 7,
                F64.ofDecimal false 9784 1⟩,
              ⟨F64.ofDecimal false 545 1, F64.ofDecimal true 325 2, F64.zero⟩]
                : geo.Line F64).get ⟨i, h1⟩))
      ∧ ∃ q : geo.Pos F64,
          kml.Point.Pos F64 (kml.PosPoint (⟨F64.ofDecimal false 544542391 7,
            F64.ofDecimal true 32115678 7, F64.ofDecimal false 9784 1⟩ : geo.Pos F64)) = some q
          ∧ kml.WithinRounding q ⟨F64.ofDecimal false 544542391 7,
            F64.ofDecimal true 32115678 7, F64.ofDecimal false 9784 1⟩) :=
  ⟨⟨by decide, by decide, by decide⟩,
    kml.coordinates_round_trip _ (by decide) (by decide) false false [] _ (by decide)⟩
